import Mathlib

/-!
Verification of the `nfa` library (`nfa/nfa.py`): a nondeterministic
finite automaton represented as an ensemble of dictionaries.  Each state is
a dict mapping transition labels (user symbols or the `epsilon` marker) to a
successor state or a non-empty list/tuple of successor states.  We embed the
state graph shallowly: states are identified by their Python `id`, modelled
as natural numbers, and a graph is an association list from ids to nodes.
-/

set_option maxHeartbeats 1000000

/-- A transition label: the `epsilon` marker or a user symbol
(`nfa.py`: dict keys, with the `epsilon` singleton as the unlabeled marker). -/
inductive Label (σ : Type) : Type
  | eps : Label σ
  | sym (s : σ) : Label σ
deriving DecidableEq

/-- A dictionary value in an `nfa` node: a single successor state, a list of
successors, or a tuple of successors (`nfa.py` values are `nfa` instances or
lists/tuples thereof; we record which container was used, since `copy`
normalises lists to tuples). -/
inductive Val : Type
  | one (i : Nat) : Val
  | lst (is_ : List Nat) : Val
  | tup (is_ : List Nat) : Val
deriving DecidableEq

/-- One `nfa` instance: its dict entries (insertion-ordered) and its optional
`_accept` attribute (`None` when the attribute is absent). -/
structure Node (σ : Type) : Type where
  entries : List (Label σ × Val)
  accept : Option Bool
deriving DecidableEq

/-- A state graph: association list from state ids (`id(instance)`) to nodes. -/
abbrev Graph (σ : Type) : Type := List (Nat × Node σ)

/-- Association-list lookup by decidable equality (Python dict lookup). -/
def lookupA {α β : Type} [DecidableEq α] : List (α × β) → α → Option β
  | [], _ => none
  | (k, v) :: t, a => if k = a then some v else lookupA t a

/-- The node stored for an id; a dangling id behaves as an empty node. -/
def getNode {σ : Type} (g : Graph σ) (i : Nat) : Node σ :=
  (lookupA g i).getD ⟨[], none⟩

/-- `nfa.__bool__`: a state is accepting iff its `_accept` attribute when set,
else iff it has no entries. -/
def accepting {σ : Type} (g : Graph σ) (i : Nat) : Bool :=
  match (getNode g i).accept with
  | some b => b
  | none => (getNode g i).entries.length == 0

/-- The successor ids held by a dict value (`[nfas_or_nfa] if isinstance(...)
else nfas_or_nfa` in `__matmul__`). -/
def valIds : Val → List Nat
  | .one i => [i]
  | .lst l => l
  | .tup l => l

/-- `nfa.__matmul__`: all states reachable by a single transition whose label
matches the argument (empty when the label is absent from the dict). -/
def step {σ : Type} [DecidableEq σ] (g : Graph σ) (i : Nat) (l : Label σ) : List Nat :=
  match lookupA (getNode g i).entries l with
  | some v => valIds v
  | none => []

/-- `symbol in nfa_`: dict key membership. -/
def hasKey {σ : Type} [DecidableEq σ] (g : Graph σ) (i : Nat) (l : Label σ) : Bool :=
  (lookupA (getNode g i).entries l).isSome

/-- The non-epsilon keys of a node, in dict order
(`for symbol in nfa__: if not symbol == epsilon`). -/
def symKeys {σ : Type} (g : Graph σ) (i : Nat) : List σ :=
  (getNode g i).entries.filterMap (fun e =>
    match e.1 with
    | .eps => none
    | .sym s => some s)

/-- One-step epsilon successors (`nfa_ @ epsilon` inside `__mod__`). -/
def epsSucc {σ : Type} [DecidableEq σ] (g : Graph σ) (i : Nat) : List Nat :=
  step g i Label.eps

/-- Append an element unless already present (dict-keyed deduplication:
`if id(nfa__) not in nfas`). -/
def addNew (l : List Nat) (a : Nat) : List Nat :=
  if a ∈ l then l else l ++ [a]

/-- Add each element of `js` to `l` in order, deduplicating. -/
def addAll (l js : List Nat) : List Nat :=
  js.foldl addNew l

/-- One pass of the `while cont` loop of `nfa.__mod__` on input `epsilon`:
scan a snapshot of the accumulated states and add their epsilon successors. -/
def closurePass {σ : Type} [DecidableEq σ] (g : Graph σ) (acc : List Nat) : List Nat :=
  acc.foldl (fun b i => addAll b (epsSucc g i)) acc

/-- Iterate `closurePass` until a pass adds nothing (the `cont` flag), with
explicit fuel bounding the number of passes. -/
def closureIter {σ : Type} [DecidableEq σ] (g : Graph σ) : Nat → List Nat → List Nat
  | 0, acc => acc
  | fuel + 1, acc =>
      let acc' := closurePass g acc
      if acc' = acc then acc else closureIter g fuel acc'

/-- Every id occurring as a successor anywhere in the graph. -/
def allSucc {σ : Type} (g : Graph σ) : List Nat :=
  g.flatMap (fun p => p.2.entries.flatMap (fun e => valIds e.2))

/-- `nfa.__mod__` applied to `epsilon`: the set of states reachable via zero
or more epsilon transitions, in discovery order.  The fuel suffices for the
loop to reach its fixed point (each pass that continues adds a state, and
all states added lie among the successor ids of the graph). -/
def eClosure {σ : Type} [DecidableEq σ] (g : Graph σ) (i : Nat) : List Nat :=
  closureIter g ((allSucc g).length + 1) [i]

/-- Reachability by zero or more epsilon transitions. -/
inductive EpsReach {σ : Type} [DecidableEq σ] (g : Graph σ) (i : Nat) : Nat → Prop
  | refl : EpsReach g i i
  | tail {j k : Nat} : EpsReach g i j → k ∈ epsSucc g j → EpsReach g i k

theorem mem_addNew {l : List Nat} {a x : Nat} :
    x ∈ addNew l a ↔ x ∈ l ∨ x = a := by
  unfold addNew
  split
  · rename_i h
    constructor
    · exact fun hx => Or.inl hx
    · rintro (hx | rfl)
      · exact hx
      · exact h
  · simp [List.mem_append]

theorem nodup_addNew {l : List Nat} {a : Nat} (h : l.Nodup) : (addNew l a).Nodup := by
  unfold addNew
  split
  · exact h
  · rename_i hna
    simpa [List.nodup_append] using ⟨h, hna⟩

theorem addNew_append (l : List Nat) (a : Nat) : ∃ t, addNew l a = l ++ t := by
  unfold addNew
  split
  · exact ⟨[], by simp⟩
  · exact ⟨[a], rfl⟩

theorem mem_addAll {l js : List Nat} {x : Nat} :
    x ∈ addAll l js ↔ x ∈ l ∨ x ∈ js := by
  induction js generalizing l with
  | nil => simp [addAll]
  | cons j t ih =>
      show x ∈ addAll (addNew l j) t ↔ _
      rw [ih, mem_addNew]
      constructor
      · rintro ((h | rfl) | h)
        · exact Or.inl h
        · exact Or.inr (by simp)
        · exact Or.inr (by simp [h])
      · rintro (h | h)
        · exact Or.inl (Or.inl h)
        · rcases List.mem_cons.mp h with rfl | h
          · exact Or.inl (Or.inr rfl)
          · exact Or.inr h

theorem nodup_addAll {l js : List Nat} (h : l.Nodup) : (addAll l js).Nodup := by
  induction js generalizing l with
  | nil => exact h
  | cons j t ih => exact ih (nodup_addNew h)

theorem addAll_append (l js : List Nat) : ∃ t, addAll l js = l ++ t := by
  induction js generalizing l with
  | nil => exact ⟨[], by simp [addAll]⟩
  | cons j t ih =>
      obtain ⟨t₁, ht₁⟩ := addNew_append l j
      obtain ⟨t₂, ht₂⟩ := ih (addNew l j)
      exact ⟨t₁ ++ t₂, by
        show addAll (addNew l j) t = _
        rw [ht₂, ht₁, List.append_assoc]⟩

theorem addAll_of_subset {l js : List Nat} (h : ∀ x ∈ js, x ∈ l) :
    addAll l js = l := by
  induction js generalizing l with
  | nil => rfl
  | cons j t ih =>
      have hj : j ∈ l := h j (by simp)
      show addAll (addNew l j) t = l
      have : addNew l j = l := by simp [addNew, hj]
      rw [this]
      exact ih (fun x hx => h x (by simp [hx]))

theorem nodup_length_le_dedup {l u : List Nat} (hn : l.Nodup)
    (hs : ∀ x ∈ l, x ∈ u) : l.length ≤ u.dedup.length := by
  have h1 : l.toFinset.card = l.length := by
    have : l.toFinset.card = l.dedup.length := rfl
    rw [this, hn.dedup]
  have h2 : u.toFinset.card = u.dedup.length := rfl
  have h3 : l.toFinset ⊆ u.toFinset := by
    intro x hx
    exact List.mem_toFinset.mpr (hs x (List.mem_toFinset.mp hx))
  have := Finset.card_le_card h3
  omega

theorem lookupA_mem {α β : Type} [DecidableEq α] {l : List (α × β)} {a : α} {b : β}
    (h : lookupA l a = some b) : (a, b) ∈ l := by
  induction l with
  | nil => simp [lookupA] at h
  | cons e t ih =>
      rcases e with ⟨k, w⟩
      by_cases hk : k = a
      · subst hk
        simp [lookupA] at h
        simp [h]
      · simp [lookupA, hk] at h
        simp [ih h]

theorem closPass_mem {σ : Type} [DecidableEq σ] {g : Graph σ} {acc : List Nat} {x : Nat} :
    x ∈ closurePass g acc ↔ x ∈ acc ∨ ∃ j ∈ acc, x ∈ epsSucc g j := by
  have main : ∀ (l b : List Nat),
      (x ∈ List.foldl (fun b i => addAll b (epsSucc g i)) b l ↔
        x ∈ b ∨ ∃ j ∈ l, x ∈ epsSucc g j) := by
    intro l
    induction l with
    | nil => simp
    | cons j t ih =>
        intro b
        show x ∈ List.foldl _ (addAll b (epsSucc g j)) t ↔ _
        rw [ih, mem_addAll]
        constructor
        · rintro ((h | h) | ⟨k, hk, hx⟩)
          · exact Or.inl h
          · exact Or.inr ⟨j, by simp, h⟩
          · exact Or.inr ⟨k, by simp [hk], hx⟩
        · rintro (h | ⟨k, hk, hx⟩)
          · exact Or.inl (Or.inl h)
          · rcases List.mem_cons.mp hk with rfl | hk
            · exact Or.inl (Or.inr hx)
            · exact Or.inr ⟨k, hk, hx⟩
  exact main acc acc

theorem closPass_nodup {σ : Type} [DecidableEq σ] {g : Graph σ} {acc : List Nat}
    (h : acc.Nodup) : (closurePass g acc).Nodup := by
  have main : ∀ (l b : List Nat), b.Nodup →
      (List.foldl (fun b i => addAll b (epsSucc g i)) b l).Nodup := by
    intro l
    induction l with
    | nil => exact fun b h => h
    | cons j t ih => exact fun b hb => ih _ (nodup_addAll hb)
  exact main acc acc h

theorem closPass_append {σ : Type} [DecidableEq σ] (g : Graph σ) (acc : List Nat) :
    ∃ t, closurePass g acc = acc ++ t := by
  have main : ∀ (l b : List Nat), ∃ t,
      List.foldl (fun b i => addAll b (epsSucc g i)) b l = b ++ t := by
    intro l
    induction l with
    | nil => exact fun b => ⟨[], by simp⟩
    | cons j t ih =>
        intro b
        obtain ⟨t₁, ht₁⟩ := addAll_append b (epsSucc g j)
        obtain ⟨t₂, ht₂⟩ := ih (addAll b (epsSucc g j))
        exact ⟨t₁ ++ t₂, by
          show List.foldl _ (addAll b (epsSucc g j)) t = _
          rw [ht₂, ht₁, List.append_assoc]⟩
  exact main acc acc

theorem closPass_of_closed {σ : Type} [DecidableEq σ] {g : Graph σ} {acc : List Nat}
    (h : ∀ j ∈ acc, ∀ x ∈ epsSucc g j, x ∈ acc) : closurePass g acc = acc := by
  have main : ∀ (l b : List Nat), (∀ j ∈ l, ∀ x ∈ epsSucc g j, x ∈ b) →
      List.foldl (fun b i => addAll b (epsSucc g i)) b l = b := by
    intro l
    induction l with
    | nil => intro b _; rfl
    | cons j t ih =>
        intro b hb
        show List.foldl _ (addAll b (epsSucc g j)) t = b
        have he : addAll b (epsSucc g j) = b :=
          addAll_of_subset (fun x hx => hb j (by simp) x hx)
        rw [he]
        exact ih b (fun k hk x hx => hb k (by simp [hk]) x hx)
  exact main acc acc h

theorem closed_of_closPass_eq {σ : Type} [DecidableEq σ] {g : Graph σ} {acc : List Nat}
    (h : closurePass g acc = acc) : ∀ j ∈ acc, ∀ x ∈ epsSucc g j, x ∈ acc := by
  intro j hj x hx
  have : x ∈ closurePass g acc := closPass_mem.mpr (Or.inr ⟨j, hj, hx⟩)
  rwa [h] at this

theorem step_subset_allSucc {σ : Type} [DecidableEq σ] {g : Graph σ} {j x : Nat}
    {l : Label σ} (h : x ∈ step g j l) : x ∈ allSucc g := by
  unfold step at h
  rcases hv : lookupA (getNode g j).entries l with _ | v
  · rw [hv] at h
    simp at h
  · rw [hv] at h
    have hmem : (l, v) ∈ (getNode g j).entries := lookupA_mem hv
    -- the node itself must come from the graph (a dangling id has no entries)
    rcases hn : lookupA g j with _ | n
    · unfold getNode at hmem
      rw [hn] at hmem
      simp at hmem
    · have hng : (j, n) ∈ g := lookupA_mem hn
      unfold getNode at hmem
      rw [hn] at hmem
      unfold allSucc
      rw [List.mem_flatMap]
      exact ⟨(j, n), hng, by
        rw [List.mem_flatMap]
        exact ⟨(l, v), hmem, h⟩⟩

theorem epsSucc_subset_allSucc {σ : Type} [DecidableEq σ] {g : Graph σ} {j x : Nat}
    (h : x ∈ epsSucc g j) : x ∈ allSucc g := step_subset_allSucc h

theorem closIter_spec {σ : Type} [DecidableEq σ] (g : Graph σ) (univ : List Nat)
    (hEps : ∀ j x, x ∈ epsSucc g j → x ∈ univ) :
    ∀ (fuel : Nat) (acc : List Nat), acc.Nodup → (∀ x ∈ acc, x ∈ univ) →
      univ.dedup.length + 1 ≤ acc.length + fuel →
      closurePass g (closureIter g fuel acc) = closureIter g fuel acc ∧
      (∀ x ∈ acc, x ∈ closureIter g fuel acc) ∧
      (closureIter g fuel acc).Nodup := by
  intro fuel
  induction fuel with
  | zero =>
      intro acc hnd hsub hbound
      exact absurd (nodup_length_le_dedup hnd hsub) (by omega)
  | succ fuel ih =>
      intro acc hnd hsub hbound
      show closurePass g (closureIter g (fuel + 1) acc) = _ ∧ _
      by_cases hfix : closurePass g acc = acc
      · have hred : closureIter g (fuel + 1) acc = acc := by
          simp [closureIter, hfix]
        rw [hred]
        exact ⟨hfix, fun x hx => hx, hnd⟩
      · have hred : closureIter g (fuel + 1) acc = closureIter g fuel (closurePass g acc) := by
          simp [closureIter, hfix]
        rw [hred]
        obtain ⟨t, ht⟩ := closPass_append g acc
        have htne : t ≠ [] := by
          intro h0
          rw [h0] at ht
          simp at ht
          exact hfix ht
        have hlen : acc.length + 1 ≤ (closurePass g acc).length := by
          rw [ht]
          have : 1 ≤ t.length := by
            cases t with
            | nil => exact absurd rfl htne
            | cons a t => simp
          simp [List.length_append]
          omega
        have hsub' : ∀ x ∈ closurePass g acc, x ∈ univ := by
          intro x hx
          rcases closPass_mem.mp hx with h | ⟨j, _, hj⟩
          · exact hsub x h
          · exact hEps j x hj
        obtain ⟨h1, h2, h3⟩ := ih (closurePass g acc) (closPass_nodup hnd) hsub' (by omega)
        refine ⟨h1, ?_, h3⟩
        intro x hx
        exact h2 x (closPass_mem.mpr (Or.inl hx))

theorem closIter_pred {σ : Type} [DecidableEq σ] (g : Graph σ) (P : Nat → Prop)
    (hP : ∀ j x, P j → x ∈ epsSucc g j → P x) :
    ∀ (fuel : Nat) (acc : List Nat), (∀ x ∈ acc, P x) →
      ∀ x ∈ closureIter g fuel acc, P x := by
  intro fuel
  induction fuel with
  | zero => exact fun acc h => h
  | succ fuel ih =>
      intro acc hacc
      show ∀ x ∈ closureIter g (fuel + 1) acc, P x
      by_cases hfix : closurePass g acc = acc
      · have hred : closureIter g (fuel + 1) acc = acc := by simp [closureIter, hfix]
        rw [hred]
        exact hacc
      · have hred : closureIter g (fuel + 1) acc = closureIter g fuel (closurePass g acc) := by
          simp [closureIter, hfix]
        rw [hred]
        apply ih
        intro x hx
        rcases closPass_mem.mp hx with h | ⟨j, hj, hx'⟩
        · exact hacc x h
        · exact hP j x (hacc j hj) hx'

theorem eClosure_spec {σ : Type} [DecidableEq σ] (g : Graph σ) (i : Nat) :
    closurePass g (eClosure g i) = eClosure g i ∧
    i ∈ eClosure g i ∧ (eClosure g i).Nodup := by
  have h := closIter_spec g (i :: allSucc g)
    (fun j x hx => List.mem_cons.mpr (Or.inr (epsSucc_subset_allSucc hx)))
    ((allSucc g).length + 1) [i] (by simp) (by simp)
    (by
      have := List.Sublist.length_le (List.dedup_sublist (i :: allSucc g))
      simp at this ⊢
      omega)
  obtain ⟨h1, h2, h3⟩ := h
  exact ⟨h1, h2 i (by simp), h3⟩

theorem eClosure_closed {σ : Type} [DecidableEq σ] {g : Graph σ} {i j x : Nat}
    (hj : j ∈ eClosure g i) (hx : x ∈ epsSucc g j) : x ∈ eClosure g i :=
  closed_of_closPass_eq (eClosure_spec g i).1 j hj x hx

theorem self_mem_eClosure {σ : Type} [DecidableEq σ] (g : Graph σ) (i : Nat) :
    i ∈ eClosure g i := (eClosure_spec g i).2.1

theorem eClosure_nodup {σ : Type} [DecidableEq σ] (g : Graph σ) (i : Nat) :
    (eClosure g i).Nodup := (eClosure_spec g i).2.2

theorem eClosure_sound {σ : Type} [DecidableEq σ] {g : Graph σ} {i x : Nat}
    (h : x ∈ eClosure g i) : EpsReach g i x := by
  refine closIter_pred g (EpsReach g i)
    (fun j x hj hx => EpsReach.tail hj hx)
    ((allSucc g).length + 1) [i] ?_ x h
  intro y hy
  rcases List.mem_singleton.mp hy with rfl
  exact EpsReach.refl

theorem epsReach_mem_eClosure {σ : Type} [DecidableEq σ] {g : Graph σ} {i x : Nat}
    (h : EpsReach g i x) : x ∈ eClosure g i := by
  induction h with
  | refl => exact self_mem_eClosure g i
  | tail _ hk ih => exact eClosure_closed ih hk

theorem mem_eClosure_iff {σ : Type} [DecidableEq σ] {g : Graph σ} {i x : Nat} :
    x ∈ eClosure g i ↔ EpsReach g i x :=
  ⟨eClosure_sound, epsReach_mem_eClosure⟩

theorem epsReach_trans {σ : Type} [DecidableEq σ] {g : Graph σ} {i j k : Nat}
    (h1 : EpsReach g i j) (h2 : EpsReach g j k) : EpsReach g i k := by
  induction h2 with
  | refl => exact h1
  | tail _ hk ih => exact EpsReach.tail ih hk

/-- C7: epsilon closure (`nfa.__mod__` with `epsilon`) is idempotent: the
union of the closures of the states in `closure(s)` equals `closure(s)` as a
set of state identities (equivalently, `closure(t) ⊆ closure(s)` for every
`t ∈ closure(s)`); moreover `closure(s)` always contains `s` itself and is
duplicate-free by identity. -/
theorem claim_C7_closure_idempotent {σ : Type} [DecidableEq σ] (g : Graph σ) (s : Nat) :
    (∀ u : Nat, (∃ t ∈ eClosure g s, u ∈ eClosure g t) ↔ u ∈ eClosure g s) ∧
    s ∈ eClosure g s ∧ (eClosure g s).Nodup := by
  refine ⟨?_, self_mem_eClosure g s, eClosure_nodup g s⟩
  intro u
  constructor
  · rintro ⟨t, ht, hu⟩
    exact epsReach_mem_eClosure (epsReach_trans (eClosure_sound ht) (eClosure_sound hu))
  · intro hu
    exact ⟨s, self_mem_eClosure g s, hu⟩

/-- `max(lengths, default=None)`: the maximum of a collection of candidate
match lengths, or `none` when there are no candidates. -/
def maxN : List Nat → Option Nat
  | [] => none
  | a :: t =>
      match maxN t with
      | none => some a
      | some b => some (max a b)

theorem maxN_eq_none {l : List Nat} : maxN l = none ↔ l = [] := by
  cases l with
  | nil => simp [maxN]
  | cons a t =>
      simp only [maxN]
      cases maxN t <;> simp

theorem maxN_mem : ∀ {l : List Nat} {m : Nat}, maxN l = some m → m ∈ l := by
  intro l
  induction l with
  | nil => intro m h; simp [maxN] at h
  | cons a t ih =>
      intro m h
      simp only [maxN] at h
      rcases ht : maxN t with _ | b
      · rw [ht] at h
        simp at h
        simp [h]
      · rw [ht] at h
        simp only [Option.some.injEq] at h
        subst h
        rcases Nat.le_total a b with hab | hab
        · have he : max a b = b := by omega
          rw [he]
          exact List.mem_cons.mpr (Or.inr (ih ht))
        · have he : max a b = a := by omega
          rw [he]
          simp

theorem maxN_ub : ∀ {l : List Nat} {m : Nat}, maxN l = some m → ∀ x ∈ l, x ≤ m := by
  intro l
  induction l with
  | nil => intro m h; simp [maxN] at h
  | cons a t ih =>
      intro m h x hx
      simp only [maxN] at h
      rcases ht : maxN t with _ | b
      · rw [ht] at h
        simp at h
        have : t = [] := maxN_eq_none.mp ht
        subst this
        rcases List.mem_singleton.mp hx with rfl
        omega
      · rw [ht] at h
        simp only [Option.some.injEq] at h
        subst h
        rcases List.mem_cons.mp hx with rfl | hx
        · omega
        · have := ih ht x hx
          omega

theorem maxN_of_mem_ub {l : List Nat} {m : Nat} (hm : m ∈ l)
    (hub : ∀ x ∈ l, x ≤ m) : maxN l = some m := by
  rcases h : maxN l with _ | b
  · rw [maxN_eq_none] at h
    subst h
    simp at hm
  · have h1 := maxN_mem h
    have h2 := maxN_ub h m hm
    have h3 := hub b h1
    have : b = m := by omega
    rw [this]

theorem maxN_eq_some {l : List Nat} {m : Nat} :
    maxN l = some m ↔ m ∈ l ∧ ∀ x ∈ l, x ≤ m :=
  ⟨fun h => ⟨maxN_mem h, maxN_ub h⟩, fun ⟨h1, h2⟩ => maxN_of_mem_ub h1 h2⟩

/-- The recursive (lazy) branch of `nfa.__call__` for inputs that consist of
non-epsilon symbols: `string` is the remaining input, `len` the `_length`
position reached so far, `i` the current state.  The closure of the current
state is computed; the collected candidate match lengths are the current
position whenever an accepting state is in reach and a full match is not
required, together with every successful recursive result along each branch
that consumes the next symbol; the maximum candidate is returned, and with no
candidates the result falls back to the `default` of the `max` call. -/
def matchLazy {σ : Type} [DecidableEq σ] (g : Graph σ) (full : Bool) :
    List σ → Nat → Nat → Option Nat
  | [], len, i =>
      if (eClosure g i).any (fun j => accepting g j) then some len else none
  | s :: rest, len, i =>
      let lengths :=
        (if accepting g i && !full then [len] else []) ++
        (eClosure g i).flatMap (fun j =>
          (if accepting g j && !full then [len] else []) ++
          (if hasKey g j (Label.sym s) then
            (step g j (Label.sym s)).flatMap (fun k =>
              (matchLazy g full rest (len + 1) k).toList)
           else []))
      match maxN lengths with
      | some m => some m
      | none => if accepting g i && !full then some 0 else none
termination_by x _ _ => x.length

/-- The candidate lengths that one closure member `j` contributes during the
scan of the closure in the lazy matcher. -/
def lazyBranch {σ : Type} [DecidableEq σ] (g : Graph σ) (full : Bool) (rest : List σ)
    (len : Nat) (s : σ) (j : Nat) : List Nat :=
  (if accepting g j && !full then [len] else []) ++
  (if hasKey g j (Label.sym s) then
     (step g j (Label.sym s)).flatMap (fun k => (matchLazy g full rest (len + 1) k).toList)
   else [])

theorem matchLazy_nil {σ : Type} [DecidableEq σ] (g : Graph σ) (full : Bool)
    (len i : Nat) :
    matchLazy g full [] len i =
      if (eClosure g i).any (fun j => accepting g j) then some len else none := by
  simp [matchLazy]

theorem matchLazy_cons {σ : Type} [DecidableEq σ] (g : Graph σ) (full : Bool)
    (s : σ) (rest : List σ) (len i : Nat) :
    matchLazy g full (s :: rest) len i =
      match maxN ((if accepting g i && !full then [len] else []) ++
          (eClosure g i).flatMap (lazyBranch g full rest len s)) with
      | some m => some m
      | none => if accepting g i && !full then some 0 else none := by
  simp only [matchLazy, lazyBranch]
  rfl

/-- Specification of acceptance: there is a path from state `i` spelling the
word `x` (with epsilon transitions interleaved freely) that ends at an
accepting state. -/
inductive Accepts {σ : Type} [DecidableEq σ] (g : Graph σ) : Nat → List σ → Prop
  | done {i : Nat} : accepting g i = true → Accepts g i []
  | eps {i j : Nat} {x : List σ} : j ∈ epsSucc g i → Accepts g j x → Accepts g i x
  | sym {i k : Nat} {s : σ} {x : List σ} :
      k ∈ step g i (Label.sym s) → Accepts g k x → Accepts g i (s :: x)

theorem accepts_of_epsReach {σ : Type} [DecidableEq σ] {g : Graph σ} {i j : Nat}
    {x : List σ} (h : EpsReach g i j) : Accepts g j x → Accepts g i x := by
  induction h with
  | refl => exact id
  | tail _ hk ih => exact fun ha => ih (Accepts.eps hk ha)

theorem eClosure_mono_eps {σ : Type} [DecidableEq σ] {g : Graph σ} {i j x : Nat}
    (hj : j ∈ epsSucc g i) (h : x ∈ eClosure g j) : x ∈ eClosure g i :=
  epsReach_mem_eClosure
    (epsReach_trans (EpsReach.tail EpsReach.refl hj) (eClosure_sound h))

theorem accepts_nil_iff {σ : Type} [DecidableEq σ] {g : Graph σ} {i : Nat} :
    Accepts g i [] ↔ ∃ j ∈ eClosure g i, accepting g j = true := by
  constructor
  · intro h
    have main : ∀ (y : List σ), Accepts g i y → y = [] →
        ∃ j ∈ eClosure g i, accepting g j = true := by
      intro y hy
      clear h
      induction hy with
      | done hacc => exact fun _ => ⟨_, self_mem_eClosure g _, hacc⟩
      | eps hj _ ih =>
          intro hnil
          obtain ⟨j', hj', ha⟩ := ih hnil
          exact ⟨j', eClosure_mono_eps hj hj', ha⟩
      | sym _ _ _ => intro hnil; cases hnil
    exact main [] h rfl
  · rintro ⟨j, hj, ha⟩
    exact accepts_of_epsReach (eClosure_sound hj) (Accepts.done ha)

theorem accepts_cons_iff {σ : Type} [DecidableEq σ] {g : Graph σ} {i : Nat}
    {s : σ} {x : List σ} :
    Accepts g i (s :: x) ↔
      ∃ j ∈ eClosure g i, ∃ k ∈ step g j (Label.sym s), Accepts g k x := by
  constructor
  · intro h
    have main : ∀ (y : List σ), Accepts g i y → y = s :: x →
        ∃ j ∈ eClosure g i, ∃ k ∈ step g j (Label.sym s), Accepts g k x := by
      intro y hy
      clear h
      induction hy with
      | done _ => intro hc; cases hc
      | eps hj _ ih =>
          intro hc
          obtain ⟨j', hj', k, hk, ha⟩ := ih hc
          exact ⟨j', eClosure_mono_eps hj hj', k, hk, ha⟩
      | sym hk ha _ =>
          intro hc
          rcases List.cons.injEq .. ▸ hc with ⟨rfl, rfl⟩
          exact ⟨_, self_mem_eClosure g _, _, hk, ha⟩
    exact main (s :: x) h rfl
  · rintro ⟨j, hj, k, hk, ha⟩
    exact accepts_of_epsReach (eClosure_sound hj) (Accepts.sym hk ha)

theorem hasKey_of_mem_step {σ : Type} [DecidableEq σ] {g : Graph σ} {j k : Nat}
    {l : Label σ} (h : k ∈ step g j l) : hasKey g j l = true := by
  unfold step at h
  unfold hasKey
  rcases hv : lookupA (getNode g j).entries l with _ | v
  · rw [hv] at h
    simp at h
  · simp [hv]

theorem mem_lazyLengths {σ : Type} [DecidableEq σ] {g : Graph σ} {full : Bool}
    {rest : List σ} {len i m : Nat} {s : σ} :
    (m ∈ (if accepting g i && !full then [len] else []) ++
        (eClosure g i).flatMap (lazyBranch g full rest len s)) ↔
      (full = false ∧ m = len ∧ ∃ j ∈ eClosure g i, accepting g j = true) ∨
      (∃ j ∈ eClosure g i, ∃ k ∈ step g j (Label.sym s),
        matchLazy g full rest (len + 1) k = some m) := by
  rw [List.mem_append, List.mem_flatMap]
  constructor
  · rintro (hinit | ⟨j, hj, hbr⟩)
    · by_cases hc : (accepting g i && !full) = true
      · rw [if_pos hc] at hinit
        rcases List.mem_singleton.mp hinit with rfl
        rcases Bool.and_eq_true .. ▸ hc with ⟨ha, hf⟩
        exact Or.inl ⟨by
          cases full
          · rfl
          · simp at hf, rfl, i, self_mem_eClosure g i, ha⟩
      · rw [if_neg hc] at hinit
        simp at hinit
    · unfold lazyBranch at hbr
      rcases List.mem_append.mp hbr with hacc | hstep
      · by_cases hc : (accepting g j && !full) = true
        · rw [if_pos hc] at hacc
          rcases List.mem_singleton.mp hacc with rfl
          rcases Bool.and_eq_true .. ▸ hc with ⟨ha, hf⟩
          exact Or.inl ⟨by
            cases full
            · rfl
            · simp at hf, rfl, j, hj, ha⟩
        · rw [if_neg hc] at hacc
          simp at hacc
      · by_cases hc : hasKey g j (Label.sym s) = true
        · rw [if_pos hc] at hstep
          rcases List.mem_flatMap.mp hstep with ⟨k, hk, hm⟩
          have : matchLazy g full rest (len + 1) k = some m := by
            rcases hr : matchLazy g full rest (len + 1) k with _ | L
            · rw [hr] at hm
              simp [Option.toList] at hm
            · rw [hr] at hm
              simp [Option.toList] at hm
              rw [hm]
          exact Or.inr ⟨j, hj, k, hk, this⟩
        · rw [if_neg hc] at hstep
          simp at hstep
  · rintro (⟨hf, rfl, j, hj, ha⟩ | ⟨j, hj, k, hk, hrec⟩)
    · refine Or.inr ⟨j, hj, ?_⟩
      unfold lazyBranch
      rw [List.mem_append]
      refine Or.inl ?_
      subst hf
      rw [if_pos (by simp [ha])]
      simp
    · refine Or.inr ⟨j, hj, ?_⟩
      unfold lazyBranch
      rw [List.mem_append]
      refine Or.inr ?_
      rw [if_pos (hasKey_of_mem_step hk)]
      rw [List.mem_flatMap]
      exact ⟨k, hk, by simp [hrec, Option.toList]⟩

theorem matchLazy_full_iff {σ : Type} [DecidableEq σ] (g : Graph σ) :
    ∀ (x : List σ) (len i m : Nat),
      matchLazy g true x len i = some m ↔ (m = len + x.length ∧ Accepts g i x) := by
  intro x
  induction x with
  | nil =>
      intro len i m
      rw [matchLazy_nil]
      by_cases h : (eClosure g i).any (fun j => accepting g j) = true
      · rw [if_pos h]
        simp only [Option.some.injEq]
        constructor
        · rintro rfl
          refine ⟨by simp, accepts_nil_iff.mpr ?_⟩
          rcases List.any_eq_true.mp h with ⟨j, hj, ha⟩
          exact ⟨j, hj, ha⟩
        · rintro ⟨rfl, _⟩
          simp
      · rw [if_neg h]
        simp only [false_iff, reduceCtorEq]
        rintro ⟨_, hacc⟩
        rcases accepts_nil_iff.mp hacc with ⟨j, hj, ha⟩
        exact h (List.any_eq_true.mpr ⟨j, hj, ha⟩)
  | cons s rest ih =>
      intro len i m
      rw [matchLazy_cons]
      have hmem : ∀ m', (m' ∈ (if accepting g i && !true then [len] else []) ++
          (eClosure g i).flatMap (lazyBranch g true rest len s)) ↔
          (∃ j ∈ eClosure g i, ∃ k ∈ step g j (Label.sym s),
            matchLazy g true rest (len + 1) k = some m') := by
        intro m'
        rw [mem_lazyLengths]
        constructor
        · rintro (⟨hf, _⟩ | h)
          · cases hf
          · exact h
        · exact Or.inr
      have hval : ∀ m', (m' ∈ (if accepting g i && !true then [len] else []) ++
          (eClosure g i).flatMap (lazyBranch g true rest len s)) →
          m' = len + (s :: rest).length := by
        intro m' hm'
        rcases (hmem m').mp hm' with ⟨j, _, k, _, hrec⟩
        have := (ih (len + 1) k m').mp hrec
        simp [this.1]
        omega
      rcases hmax : maxN ((if accepting g i && !true then [len] else []) ++
          (eClosure g i).flatMap (lazyBranch g true rest len s)) with _ | m₀
      · simp only [Bool.not_true, Bool.and_false, if_false, false_iff, reduceCtorEq]
        rintro ⟨_, hacc⟩
        rcases accepts_cons_iff.mp hacc with ⟨j, hj, k, hk, ha⟩
        have hrec : matchLazy g true rest (len + 1) k = some (len + 1 + rest.length) :=
          (ih (len + 1) k _).mpr ⟨rfl, ha⟩
        have hm' : (len + 1 + rest.length) ∈ (if accepting g i && !true then [len] else []) ++
            (eClosure g i).flatMap (lazyBranch g true rest len s) :=
          (hmem _).mpr ⟨j, hj, k, hk, hrec⟩
        rw [maxN_eq_none.mp hmax] at hm'
        simp at hm'
      · simp only [Option.some.injEq]
        have h1 := maxN_mem hmax
        have h2 := hval m₀ h1
        rcases (hmem m₀).mp h1 with ⟨j, hj, k, hk, hrec⟩
        have hacc : Accepts g i (s :: rest) :=
          accepts_cons_iff.mpr ⟨j, hj, k, hk, ((ih (len + 1) k m₀).mp hrec).2⟩
        constructor
        · rintro rfl
          exact ⟨h2, hacc⟩
        · rintro ⟨rfl, _⟩
          omega

theorem matchLazy_pref_iff {σ : Type} [DecidableEq σ] (g : Graph σ) :
    ∀ (x : List σ) (len i : Nat),
      (∀ m, matchLazy g false x len i = some m ↔
        ∃ p, p ≤ x.length ∧ Accepts g i (x.take p) ∧ m = len + p ∧
          (∀ q, q ≤ x.length → Accepts g i (x.take q) → q ≤ p)) ∧
      (matchLazy g false x len i = none ↔
        ∀ p, p ≤ x.length → ¬ Accepts g i (x.take p)) := by
  intro x
  induction x with
  | nil =>
      intro len i
      rw [matchLazy_nil]
      by_cases h : (eClosure g i).any (fun j => accepting g j) = true
      · rw [if_pos h]
        have hacc : Accepts g i [] := by
          rcases List.any_eq_true.mp h with ⟨j, hj, ha⟩
          exact accepts_nil_iff.mpr ⟨j, hj, ha⟩
        constructor
        · intro m
          simp only [Option.some.injEq]
          constructor
          · rintro rfl
            exact ⟨0, by simp, by simpa using hacc, by omega, fun q hq _ => hq⟩
          · rintro ⟨p, hp, _, rfl, _⟩
            simp at hp
            subst hp
            rfl
        · simp only [reduceCtorEq, false_iff, not_forall]
          exact ⟨0, by simp, by simpa using hacc⟩
      · rw [if_neg h]
        have hnacc : ¬ Accepts g i [] := by
          intro hacc
          rcases accepts_nil_iff.mp hacc with ⟨j, hj, ha⟩
          exact h (List.any_eq_true.mpr ⟨j, hj, ha⟩)
        constructor
        · intro m
          simp only [reduceCtorEq, false_iff, not_exists]
          rintro p ⟨hp, hacc, _⟩
          simp at hp
          subst hp
          exact hnacc (by simpa using hacc)
        · constructor
          · intro _ p hp
            simp at hp
            subst hp
            simpa using hnacc
          · intro _
            rfl
  | cons s rest ih =>
      intro len i
      rw [matchLazy_cons]
      have hmem : ∀ m', (m' ∈ (if accepting g i && !false then [len] else []) ++
          (eClosure g i).flatMap (lazyBranch g false rest len s)) ↔
          ((m' = len ∧ ∃ j ∈ eClosure g i, accepting g j = true) ∨
           (∃ j ∈ eClosure g i, ∃ k ∈ step g j (Label.sym s),
             matchLazy g false rest (len + 1) k = some m')) := by
        intro m'
        rw [mem_lazyLengths]
        constructor
        · rintro (⟨_, rfl, hj⟩ | h)
          · exact Or.inl ⟨rfl, hj⟩
          · exact Or.inr h
        · rintro (⟨rfl, hj⟩ | h)
          · exact Or.inl ⟨rfl, rfl, hj⟩
          · exact Or.inr h
      have factA : ∀ m', (m' ∈ (if accepting g i && !false then [len] else []) ++
          (eClosure g i).flatMap (lazyBranch g false rest len s)) →
          ∃ p, p ≤ (s :: rest).length ∧ Accepts g i ((s :: rest).take p) ∧
            m' = len + p := by
        intro m' hm'
        rcases (hmem m').mp hm' with ⟨rfl, j, hj, ha⟩ | ⟨j, hj, k, hk, hrec⟩
        · exact ⟨0, by simp, by simpa using accepts_nil_iff.mpr ⟨j, hj, ha⟩, by omega⟩
        · obtain ⟨p', hp', hacc', hm', _⟩ := ((ih (len + 1) k).1 m').mp hrec
          refine ⟨p' + 1, by simp; omega, ?_, by omega⟩
          rw [List.take_succ_cons]
          exact accepts_cons_iff.mpr ⟨j, hj, k, hk, hacc'⟩
      have factB : ∀ p, p ≤ (s :: rest).length → Accepts g i ((s :: rest).take p) →
          ∃ m', (m' ∈ (if accepting g i && !false then [len] else []) ++
            (eClosure g i).flatMap (lazyBranch g false rest len s)) ∧
            len + p ≤ m' := by
        intro p hp hacc
        cases p with
        | zero =>
            simp only [List.take_zero] at hacc
            rcases accepts_nil_iff.mp hacc with ⟨j, hj, ha⟩
            exact ⟨len, (hmem len).mpr (Or.inl ⟨rfl, j, hj, ha⟩), by omega⟩
        | succ p' =>
            rw [List.take_succ_cons] at hacc
            rcases accepts_cons_iff.mp hacc with ⟨j, hj, k, hk, hacc'⟩
            have hp' : p' ≤ rest.length := by simp at hp; omega
            rcases hr : matchLazy g false rest (len + 1) k with _ | m''
            · exact absurd hacc' (((ih (len + 1) k).2.mp hr) p' hp')
            · obtain ⟨pk, hpk, _, hmk, hmaxk⟩ := ((ih (len + 1) k).1 m'').mp hr
              have hple : p' ≤ pk := hmaxk p' hp' hacc'
              exact ⟨m'', (hmem m'').mpr (Or.inr ⟨j, hj, k, hk, hr⟩), by omega⟩
      rcases hmax : maxN ((if accepting g i && !false then [len] else []) ++
          (eClosure g i).flatMap (lazyBranch g false rest len s)) with _ | m₀
      · have hL := maxN_eq_none.mp hmax
        have hdef : accepting g i = false := by
          by_contra hcon
          have ha : accepting g i = true := by
            cases hc : accepting g i
            · exact absurd hc hcon
            · rfl
          have : len ∈ (if accepting g i && !false then [len] else []) ++
              (eClosure g i).flatMap (lazyBranch g false rest len s) :=
            (hmem len).mpr (Or.inl ⟨rfl, i, self_mem_eClosure g i, ha⟩)
          rw [hL] at this
          simp at this
        have hnoacc : ∀ p, p ≤ (s :: rest).length → ¬ Accepts g i ((s :: rest).take p) := by
          intro p hp hacc
          obtain ⟨m', hm', _⟩ := factB p hp hacc
          rw [hL] at hm'
          simp at hm'
        constructor
        · intro m
          simp only [hdef, Bool.false_and, if_false, reduceCtorEq, false_iff, not_exists]
          rintro p ⟨hp, hacc, _⟩
          exact hnoacc p hp hacc
        · constructor
          · intro _
            exact hnoacc
          · intro _
            simp [hdef]
      · have h1 := maxN_mem hmax
        obtain ⟨p₀, hp₀, hacc₀, hm₀⟩ := factA m₀ h1
        have hmaxx : ∀ q, q ≤ (s :: rest).length → Accepts g i ((s :: rest).take q) →
            q ≤ p₀ := by
          intro q hq hacc
          obtain ⟨m', hm', hge⟩ := factB q hq hacc
          have := maxN_ub hmax m' hm'
          omega
        constructor
        · intro m
          simp only [Option.some.injEq]
          constructor
          · rintro rfl
            exact ⟨p₀, hp₀, hacc₀, hm₀, hmaxx⟩
          · rintro ⟨p, hp, hacc, rfl, hmaxx'⟩
            have h2 : p₀ ≤ p := hmaxx' p₀ hp₀ hacc₀
            have h3 : p ≤ p₀ := hmaxx p hp hacc
            omega
        · simp only [reduceCtorEq, false_iff, not_forall]
          exact ⟨p₀, hp₀, by simpa using hacc₀⟩

/-- C3: with `full=False`, the (lazy) matcher returns the length of the
longest prefix of the input that is spelled by some path from the start state
(epsilon transitions interleaved freely) ending at an accepting state; in
particular it returns `0` when the start state's epsilon closure contains an
accepting state and no longer prefix is accepted, and it returns the
rejection sentinel `None` when no prefix (including the empty one) is
accepted. -/
theorem claim_C3_prefix_mode {σ : Type} [DecidableEq σ] (g : Graph σ) (i : Nat)
    (x : List σ) :
    (∀ n, matchLazy g false x 0 i = some n ↔
      (n ≤ x.length ∧ Accepts g i (x.take n) ∧
        ∀ q, q ≤ x.length → Accepts g i (x.take q) → q ≤ n)) ∧
    (matchLazy g false x 0 i = none ↔
      ∀ p, p ≤ x.length → ¬ Accepts g i (x.take p)) ∧
    ((∃ j ∈ eClosure g i, accepting g j = true) →
      (∀ q, 1 ≤ q → q ≤ x.length → ¬ Accepts g i (x.take q)) →
      matchLazy g false x 0 i = some 0) := by
  obtain ⟨hsome, hnone⟩ := matchLazy_pref_iff g x 0 i
  refine ⟨?_, hnone, ?_⟩
  · intro n
    rw [hsome n]
    constructor
    · rintro ⟨p, hp, hacc, hn, hmax⟩
      have : n = p := by omega
      subst this
      exact ⟨hp, hacc, hmax⟩
    · rintro ⟨hp, hacc, hmax⟩
      exact ⟨n, hp, hacc, by omega, hmax⟩
  · intro hcl hlong
    rw [hsome 0]
    refine ⟨0, by omega, by simpa using accepts_nil_iff.mpr hcl, by omega, ?_⟩
    intro q hq hacc
    by_contra hq0
    exact hlong q (by omega) hq hacc

/-- The compiled artefacts cached by `nfa.compile`: the ids marked accepting
(`compiled[id] = None`), the transition table (`compiled[(symbol, id)]`, a set
of successor ids), and the state list (`_states`). -/
structure Compiled (σ : Type) : Type where
  accepts : List Nat
  trans : List ((σ × Nat) × List Nat)
  states : List Nat

/-- `compiled[(symbol, id)] |= {id(nfa_)}`, creating the entry when absent. -/
def transAdd {σ : Type} [DecidableEq σ] (t : List ((σ × Nat) × List Nat))
    (key : σ × Nat) (w : Nat) : List ((σ × Nat) × List Nat) :=
  match lookupA t key with
  | some _ => t.map (fun e => if e.1 = key then (e.1, addNew e.2 w) else e)
  | none => t ++ [(key, [w])]

/-- The `(symbol, successor)` pairs scanned for one closure member `j`:
every non-epsilon key of `j` paired with each of its successors. -/
def symPairs {σ : Type} [DecidableEq σ] (g : Graph σ) (j : Nat) : List (σ × Nat) :=
  (symKeys g j).flatMap (fun L => (step g j (Label.sym L)).map (fun w => (L, w)))

/-- The body of `nfa.compile` for one visited state `i`: scan the epsilon
closure, mark `i` accepting when a closure member accepts, record every
closure member and one-symbol successor in the state list, and enter every
one-symbol transition of the closure into the table keyed by `i`. -/
def cvPairOp {σ : Type} [DecidableEq σ] (i : Nat) (c : Compiled σ)
    (p : σ × Nat) : Compiled σ :=
  { c with trans := transAdd c.trans (p.1, i) p.2,
           states := addNew c.states p.2 }

/-- Processing of one closure member `j` while visiting `i`: mark `i`
accepting when `j` accepts, record `j` in the state list, and enter every
one-symbol transition of `j` into the table keyed by `i`. -/
def cvNodeOp {σ : Type} [DecidableEq σ] (g : Graph σ) (i : Nat) (c : Compiled σ)
    (j : Nat) : Compiled σ :=
  let c := if accepting g j then { c with accepts := addNew c.accepts i } else c
  let c := { c with states := addNew c.states j }
  (symPairs g j).foldl (cvPairOp i) c

def compileVisit {σ : Type} [DecidableEq σ] (g : Graph σ) (i : Nat)
    (c : Compiled σ) : Compiled σ :=
  (eClosure g i).foldl (cvNodeOp g i) c

/-- The states reachable from `i` by consuming exactly one non-epsilon symbol
after any number of epsilon transitions: the successors recursed on by
`nfa.compile` (the recursion is skipped in the source when no transition was
added, which is exactly when this list is empty). -/
def symSucc {σ : Type} [DecidableEq σ] (g : Graph σ) (i : Nat) : List Nat :=
  (eClosure g i).flatMap (fun j =>
    (symKeys g j).flatMap (fun L => step g j (Label.sym L)))

/-- The recursive traversal of `nfa.compile`: visit `i` unless it already
occurs on the current path (`_ids`), then recurse on every one-symbol
successor with `i` appended to the path. -/
def compileAux {σ : Type} [DecidableEq σ] (g : Graph σ) :
    Nat → Nat → List Nat → Compiled σ → Compiled σ
  | 0, _, _, c => c
  | fuel + 1, i, ids, c =>
      if i ∈ ids then c
      else
        (symSucc g i).foldl (fun c w => compileAux g fuel w (ids ++ [i]) c)
          (compileVisit g i c)

/-- `nfa.compile()` at the root invocation: empty table, state list seeded
with the start state, empty path.  The fuel bounds the recursion depth, which
never exceeds the number of distinct ids (the path grows by a fresh id at
every level). -/
def compileNfa {σ : Type} [DecidableEq σ] (g : Graph σ) (i : Nat) : Compiled σ :=
  compileAux g ((allSucc g).length + 2) i [] ⟨[], [], [i]⟩

/-- A state id is marked accepting iff some member of its epsilon closure is
an accepting state. -/
def tAcc {σ : Type} [DecidableEq σ] (g : Graph σ) (u : Nat) : Prop :=
  ∃ j ∈ eClosure g u, accepting g j = true

/-- `w` is reached from `u` by one non-epsilon symbol `s` after any number of
epsilon transitions. -/
def tStep {σ : Type} [DecidableEq σ] (g : Graph σ) (u : Nat) (s : σ) (w : Nat) : Prop :=
  ∃ j ∈ eClosure g u, w ∈ step g j (Label.sym s)

/-- Reachability by one-symbol moves avoiding a forbidden id set. -/
inductive ReachAvoid {σ : Type} [DecidableEq σ] (g : Graph σ) :
    List Nat → Nat → Nat → Prop
  | refl (ids : List Nat) (i : Nat) : i ∉ ids → ReachAvoid g ids i i
  | step {ids : List Nat} {i u w : Nat} (s : σ) : ReachAvoid g ids i u →
      tStep g u s w → w ∉ ids → ReachAvoid g ids i w

/-- The states visited by the compile traversal from the root `i₀`. -/
def Visited {σ : Type} [DecidableEq σ] (g : Graph σ) (i₀ u : Nat) : Prop :=
  ReachAvoid g [] i₀ u

/-- `w ∈ compiled[(s, u)]`. -/
def memTrans {σ : Type} [DecidableEq σ] (c : Compiled σ) (key : σ × Nat)
    (w : Nat) : Prop :=
  ∃ ws, lookupA c.trans key = some ws ∧ w ∈ ws

/-- Entry-wise containment of compiled tables. -/
def cLe {σ : Type} [DecidableEq σ] (c c' : Compiled σ) : Prop :=
  (∀ u ∈ c.accepts, u ∈ c'.accepts) ∧
  (∀ key w, memTrans c key w → memTrans c' key w)

/-- The table entries that visiting state `u` contributes. -/
def contrib {σ : Type} [DecidableEq σ] (g : Graph σ) (u : Nat)
    (c : Compiled σ) : Prop :=
  (tAcc g u → u ∈ c.accepts) ∧ (∀ s w, tStep g u s w → memTrans c (s, u) w)

/-- Every table entry is justified: accept marks and transitions only for
visited states, with the closure-aware semantics. -/
def cSound {σ : Type} [DecidableEq σ] (g : Graph σ) (i₀ : Nat)
    (c : Compiled σ) : Prop :=
  (∀ u ∈ c.accepts, Visited g i₀ u ∧ tAcc g u) ∧
  (∀ s u w, memTrans c (s, u) w → Visited g i₀ u ∧ tStep g u s w)

theorem lookupA_append {α β : Type} [DecidableEq α] (t t' : List (α × β)) (a : α) :
    lookupA (t ++ t') a =
      match lookupA t a with
      | some v => some v
      | none => lookupA t' a := by
  induction t with
  | nil => simp [lookupA]
  | cons e r ih =>
      rcases e with ⟨k, v⟩
      by_cases hk : k = a
      · subst hk
        simp [lookupA]
      · simp only [List.cons_append, lookupA, if_neg hk]
        exact ih

theorem lookupA_map_upd {α β : Type} [DecidableEq α] (t : List (α × β)) (key a : α)
    (f : β → β) :
    lookupA (t.map (fun e => if e.1 = key then (e.1, f e.2) else e)) a =
      if a = key then (lookupA t a).map f else lookupA t a := by
  induction t with
  | nil => simp [lookupA]
  | cons e r ih =>
      rcases e with ⟨k, v⟩
      simp only [List.map_cons]
      by_cases hk : k = key
      · subst hk
        simp only [if_pos rfl]
        by_cases ha : a = k
        · subst ha
          simp [lookupA, ih]
        · have ha' : ¬ k = a := fun h => ha h.symm
          simp [lookupA, ha, ha', ih]
      · simp only [if_neg hk]
        by_cases ha : k = a
        · subst ha
          have hak : ¬ k = key := hk
          simp [lookupA, hak]
        · simp [lookupA, ha, ih]

theorem memTrans_transAdd {σ : Type} [DecidableEq σ] {t : List ((σ × Nat) × List Nat)}
    {key key' : σ × Nat} {w w' : Nat} :
    memTrans ⟨[], transAdd t key w, []⟩ key' w' ↔
      memTrans ⟨[], t, []⟩ key' w' ∨ (key' = key ∧ w' = w) := by
  unfold memTrans transAdd
  simp only
  split
  · rename_i ws hv
    rw [lookupA_map_upd t key key' (fun l => addNew l w)]
    by_cases hk : key' = key
    · subst hk
      simp [hv, mem_addNew]
      try tauto
    · simp [hk]
  · rename_i hv
    rw [lookupA_append]
    by_cases hk : key' = key
    · subst hk
      simp [hv, lookupA]
    · have hk2 : ¬ key = key' := fun h => hk h.symm
      rcases hv' : lookupA t key' with _ | ws' <;> simp [hv', lookupA, hk, hk2]

theorem mem_symKeys_of_step {σ : Type} [DecidableEq σ] {g : Graph σ} {j w : Nat}
    {s : σ} (h : w ∈ step g j (Label.sym s)) : s ∈ symKeys g j := by
  unfold step at h
  rcases hv : lookupA (getNode g j).entries (Label.sym s) with _ | v
  · rw [hv] at h
    simp at h
  · have hmem := lookupA_mem hv
    unfold symKeys
    rw [List.mem_filterMap]
    exact ⟨(Label.sym s, v), hmem, rfl⟩

theorem mem_symPairs {σ : Type} [DecidableEq σ] {g : Graph σ} {j w : Nat} {s : σ} :
    (s, w) ∈ symPairs g j ↔ w ∈ step g j (Label.sym s) := by
  unfold symPairs
  rw [List.mem_flatMap]
  constructor
  · rintro ⟨L, _, hw⟩
    rcases List.mem_map.mp hw with ⟨w', hw', heq⟩
    rcases Prod.mk.injEq .. ▸ heq with ⟨rfl, rfl⟩
    exact hw'
  · intro h
    exact ⟨s, mem_symKeys_of_step h, List.mem_map.mpr ⟨w, h, rfl⟩⟩

theorem mem_symSucc {σ : Type} [DecidableEq σ] {g : Graph σ} {i w : Nat} :
    w ∈ symSucc g i ↔ ∃ s : σ, tStep g i s w := by
  unfold symSucc tStep
  rw [List.mem_flatMap]
  constructor
  · rintro ⟨j, hj, hw⟩
    rcases List.mem_flatMap.mp hw with ⟨L, _, hstep⟩
    exact ⟨L, j, hj, hstep⟩
  · rintro ⟨s, j, hj, hstep⟩
    exact ⟨j, hj, List.mem_flatMap.mpr ⟨s, mem_symKeys_of_step hstep, hstep⟩⟩

theorem accepts_cvPairOp {σ : Type} [DecidableEq σ] (i : Nat) (c : Compiled σ)
    (p : σ × Nat) : (cvPairOp i c p).accepts = c.accepts := rfl

theorem accepts_cvPairFold {σ : Type} [DecidableEq σ] (i : Nat) :
    ∀ (ps : List (σ × Nat)) (c : Compiled σ),
      (ps.foldl (cvPairOp i) c).accepts = c.accepts := by
  intro ps
  induction ps with
  | nil => intro c; rfl
  | cons p t ih =>
      intro c
      show (t.foldl (cvPairOp i) (cvPairOp i c p)).accepts = _
      rw [ih, accepts_cvPairOp]

theorem accepts_cvNodeOp {σ : Type} [DecidableEq σ] (g : Graph σ) (i : Nat)
    (c : Compiled σ) (j : Nat) :
    (cvNodeOp g i c j).accepts =
      if accepting g j then addNew c.accepts i else c.accepts := by
  unfold cvNodeOp
  rw [accepts_cvPairFold]
  by_cases h : accepting g j <;> simp [h]

theorem memTrans_cvPairOp {σ : Type} [DecidableEq σ] {i : Nat} {c : Compiled σ}
    {p : σ × Nat} {key : σ × Nat} {w : Nat} :
    memTrans (cvPairOp i c p) key w ↔
      memTrans c key w ∨ (key = (p.1, i) ∧ w = p.2) :=
  memTrans_transAdd

theorem memTrans_cvPairFold {σ : Type} [DecidableEq σ] (i : Nat) {key : σ × Nat}
    {w : Nat} :
    ∀ (ps : List (σ × Nat)) (c : Compiled σ),
      memTrans (ps.foldl (cvPairOp i) c) key w ↔
        memTrans c key w ∨ ∃ p ∈ ps, key = (p.1, i) ∧ w = p.2 := by
  intro ps
  induction ps with
  | nil => intro c; simp
  | cons p t ih =>
      intro c
      show memTrans (t.foldl (cvPairOp i) (cvPairOp i c p)) key w ↔ _
      rw [ih, memTrans_cvPairOp]
      constructor
      · rintro ((h | h) | ⟨q, hq, h⟩)
        · exact Or.inl h
        · exact Or.inr ⟨p, by simp, h⟩
        · exact Or.inr ⟨q, by simp [hq], h⟩
      · rintro (h | ⟨q, hq, h⟩)
        · exact Or.inl (Or.inl h)
        · rcases List.mem_cons.mp hq with rfl | hq
          · exact Or.inl (Or.inr h)
          · exact Or.inr ⟨q, hq, h⟩

theorem memTrans_cvNodeOp {σ : Type} [DecidableEq σ] {g : Graph σ} {i : Nat}
    {c : Compiled σ} {j : Nat} {key : σ × Nat} {w : Nat} :
    memTrans (cvNodeOp g i c j) key w ↔
      memTrans c key w ∨ ∃ p ∈ symPairs g j, key = (p.1, i) ∧ w = p.2 := by
  unfold cvNodeOp
  rw [memTrans_cvPairFold]
  have h1 : ∀ (c' : Compiled σ),
      memTrans { c' with states := addNew c'.states j } key w ↔ memTrans c' key w :=
    fun c' => Iff.rfl
  by_cases h : accepting g j <;> simp [h] <;> rfl

theorem mem_accepts_compileVisit {σ : Type} [DecidableEq σ] {g : Graph σ}
    {i u : Nat} {c : Compiled σ} :
    u ∈ (compileVisit g i c).accepts ↔
      u ∈ c.accepts ∨ (u = i ∧ tAcc g i) := by
  unfold compileVisit tAcc
  have main : ∀ (l : List Nat) (c : Compiled σ),
      u ∈ (l.foldl (cvNodeOp g i) c).accepts ↔
        u ∈ c.accepts ∨ (u = i ∧ ∃ j ∈ l, accepting g j = true) := by
    intro l
    induction l with
    | nil => simp
    | cons j t ih =>
        intro c
        show u ∈ (t.foldl (cvNodeOp g i) (cvNodeOp g i c j)).accepts ↔ _
        rw [ih, accepts_cvNodeOp]
        by_cases h : accepting g j = true
        · rw [if_pos h]
          rw [mem_addNew]
          constructor
          · rintro ((hu | rfl) | ⟨rfl, j', hj', ha⟩)
            · exact Or.inl hu
            · exact Or.inr ⟨rfl, j, by simp, h⟩
            · exact Or.inr ⟨rfl, j', by simp [hj'], ha⟩
          · rintro (hu | ⟨rfl, j', hj', ha⟩)
            · exact Or.inl (Or.inl hu)
            · exact Or.inl (Or.inr rfl)
        · rw [if_neg h]
          constructor
          · rintro (hu | ⟨rfl, j', hj', ha⟩)
            · exact Or.inl hu
            · exact Or.inr ⟨rfl, j', by simp [hj'], ha⟩
          · rintro (hu | ⟨rfl, j', hj', ha⟩)
            · exact Or.inl hu
            · rcases List.mem_cons.mp hj' with rfl | hj'
              · exact absurd ha h
              · exact Or.inr ⟨rfl, j', hj', ha⟩
  exact main (eClosure g i) c

theorem memTrans_compileVisit {σ : Type} [DecidableEq σ] {g : Graph σ}
    {i : Nat} {c : Compiled σ} {key : σ × Nat} {w : Nat} :
    memTrans (compileVisit g i c) key w ↔
      memTrans c key w ∨ ∃ s : σ, key = (s, i) ∧ tStep g i s w := by
  unfold compileVisit
  have main : ∀ (l : List Nat) (c : Compiled σ),
      memTrans (l.foldl (cvNodeOp g i) c) key w ↔
        memTrans c key w ∨
          ∃ j ∈ l, ∃ p ∈ symPairs g j, key = (p.1, i) ∧ w = p.2 := by
    intro l
    induction l with
    | nil => simp
    | cons j t ih =>
        intro c
        show memTrans (t.foldl (cvNodeOp g i) (cvNodeOp g i c j)) key w ↔ _
        rw [ih, memTrans_cvNodeOp]
        constructor
        · rintro ((h | ⟨p, hp, h⟩) | ⟨j', hj', p, hp, h⟩)
          · exact Or.inl h
          · exact Or.inr ⟨j, by simp, p, hp, h⟩
          · exact Or.inr ⟨j', by simp [hj'], p, hp, h⟩
        · rintro (h | ⟨j', hj', p, hp, h⟩)
          · exact Or.inl (Or.inl h)
          · rcases List.mem_cons.mp hj' with rfl | hj'
            · exact Or.inl (Or.inr ⟨p, hp, h⟩)
            · exact Or.inr ⟨j', hj', p, hp, h⟩
  rw [main (eClosure g i) c]
  constructor
  · rintro (h | ⟨j, hj, p, hp, rfl, rfl⟩)
    · exact Or.inl h
    · exact Or.inr ⟨p.1, rfl, j, hj, by
        rcases p with ⟨L, w'⟩
        exact mem_symPairs.mp hp⟩
  · rintro (h | ⟨s, rfl, j, hj, hstep⟩)
    · exact Or.inl h
    · exact Or.inr ⟨j, hj, (s, w), mem_symPairs.mpr hstep, rfl, rfl⟩

theorem cLe_refl {σ : Type} [DecidableEq σ] (c : Compiled σ) : cLe c c :=
  ⟨fun _ h => h, fun _ _ h => h⟩

theorem cLe_trans {σ : Type} [DecidableEq σ] {a b c : Compiled σ}
    (h1 : cLe a b) (h2 : cLe b c) : cLe a c :=
  ⟨fun u hu => h2.1 u (h1.1 u hu), fun key w hw => h2.2 key w (h1.2 key w hw)⟩

theorem contrib_of_cLe {σ : Type} [DecidableEq σ] {g : Graph σ} {u : Nat}
    {c c' : Compiled σ} (h : contrib g u c) (hle : cLe c c') : contrib g u c' :=
  ⟨fun ha => hle.1 u (h.1 ha), fun s w hw => hle.2 (s, u) w (h.2 s w hw)⟩

theorem cLe_compileVisit {σ : Type} [DecidableEq σ] (g : Graph σ) (i : Nat)
    (c : Compiled σ) : cLe c (compileVisit g i c) :=
  ⟨fun _ hu => mem_accepts_compileVisit.mpr (Or.inl hu),
   fun _ _ hw => memTrans_compileVisit.mpr (Or.inl hw)⟩

theorem contrib_compileVisit {σ : Type} [DecidableEq σ] (g : Graph σ) (i : Nat)
    (c : Compiled σ) : contrib g i (compileVisit g i c) := by
  constructor
  · intro ha
    exact mem_accepts_compileVisit.mpr (Or.inr ⟨rfl, ha⟩)
  · intro s w hw
    exact memTrans_compileVisit.mpr (Or.inr ⟨s, rfl, hw⟩)

theorem cSound_compileVisit {σ : Type} [DecidableEq σ] {g : Graph σ} {i₀ i : Nat}
    {c : Compiled σ} (hvis : Visited g i₀ i) (hs : cSound g i₀ c) :
    cSound g i₀ (compileVisit g i c) := by
  constructor
  · intro u hu
    rcases mem_accepts_compileVisit.mp hu with h | ⟨rfl, ha⟩
    · exact hs.1 u h
    · exact ⟨hvis, ha⟩
  · intro s u w hw
    rcases memTrans_compileVisit.mp hw with h | ⟨s', heq, hstep⟩
    · exact hs.2 s u w h
    · rcases Prod.mk.injEq .. ▸ heq with ⟨rfl, rfl⟩
      exact ⟨hvis, hstep⟩

theorem reachAvoid_start_not_mem {σ : Type} [DecidableEq σ] {g : Graph σ}
    {ids : List Nat} {i u : Nat} (h : ReachAvoid g ids i u) : i ∉ ids := by
  induction h with
  | refl hni => exact hni
  | step _ _ _ _ ih => exact ih

theorem reachAvoid_congr {σ : Type} [DecidableEq σ] {g : Graph σ}
    {ids ids' : List Nat} {i u : Nat} (hmem : ∀ x, x ∈ ids ↔ x ∈ ids')
    (h : ReachAvoid g ids i u) : ReachAvoid g ids' i u := by
  induction h with
  | refl hni => exact ReachAvoid.refl _ _ (fun hc => hni ((hmem _).mpr hc))
  | step s _ hstep hnw ih =>
      exact ReachAvoid.step s ih hstep (fun hc => hnw ((hmem _).mpr hc))

theorem reachAvoid_dest {σ : Type} [DecidableEq σ] {g : Graph σ}
    {ids : List Nat} {i u : Nat} (h : ReachAvoid g ids i u) :
    u = i ∨ ∃ (s : σ) (w : Nat), tStep g i s w ∧ ReachAvoid g (i :: ids) w u := by
  induction h with
  | refl _ => exact Or.inl rfl
  | step s ra hstep hnw ih =>
      rename_i u' w'
      rcases ih with rfl | ⟨s', w'', hmove, ra'⟩
      · by_cases hwi : w' = u'
        · exact Or.inl hwi
        · exact Or.inr ⟨s, w', hstep, ReachAvoid.refl _ w' (by
            intro hc
            rcases List.mem_cons.mp hc with h | h
            · exact hwi h
            · exact hnw h)⟩
      · by_cases hwi : w' = i
        · exact Or.inl hwi
        · refine Or.inr ⟨s', w'', hmove, ReachAvoid.step s ra' hstep ?_⟩
          intro hc
          rcases List.mem_cons.mp hc with h | h
          · exact hwi h
          · exact hnw h

theorem cLe_foldl {σ : Type} [DecidableEq σ] (f : Compiled σ → Nat → Compiled σ)
    (hf : ∀ (c : Compiled σ) (w : Nat), cLe c (f c w)) :
    ∀ (ws : List Nat) (c : Compiled σ), cLe c (ws.foldl f c) := by
  intro ws
  induction ws with
  | nil => exact fun c => cLe_refl c
  | cons w t ih =>
      intro c
      show cLe c (t.foldl f (f c w))
      exact cLe_trans (hf c w) (ih (f c w))

theorem compileAux_mono {σ : Type} [DecidableEq σ] (g : Graph σ) :
    ∀ (fuel i : Nat) (ids : List Nat) (c : Compiled σ),
      cLe c (compileAux g fuel i ids c) := by
  intro fuel
  induction fuel with
  | zero => exact fun i ids c => cLe_refl c
  | succ fuel ih =>
      intro i ids c
      by_cases h : i ∈ ids
      · have hred : compileAux g (fuel + 1) i ids c = c := by simp [compileAux, h]
        rw [hred]
        exact cLe_refl c
      · have hred : compileAux g (fuel + 1) i ids c =
            (symSucc g i).foldl (fun c w => compileAux g fuel w (ids ++ [i]) c)
              (compileVisit g i c) := by
          simp [compileAux, h]
        rw [hred]
        exact cLe_trans (cLe_compileVisit g i c)
          (cLe_foldl _ (fun c' w => ih w (ids ++ [i]) c') _ _)

theorem foldl_pres {α β : Type} (P : β → Prop) (f : β → α → β) :
    ∀ (l : List α) (b : β), P b → (∀ b' a, a ∈ l → P b' → P (f b' a)) →
      P (l.foldl f b) := by
  intro l
  induction l with
  | nil => exact fun b hb _ => hb
  | cons a t ih =>
      intro b hb hstep
      show P (t.foldl f (f b a))
      exact ih (f b a) (hstep b a (by simp) hb)
        (fun b' a' ha' hb' => hstep b' a' (by simp [ha']) hb')

theorem visited_step {σ : Type} [DecidableEq σ] {g : Graph σ} {i₀ i w : Nat}
    {s : σ} (hv : Visited g i₀ i) (hstep : tStep g i s w) : Visited g i₀ w :=
  ReachAvoid.step s hv hstep (by simp)

theorem compileAux_sound {σ : Type} [DecidableEq σ] (g : Graph σ) (i₀ : Nat) :
    ∀ (fuel i : Nat) (ids : List Nat) (c : Compiled σ),
      Visited g i₀ i → cSound g i₀ c → cSound g i₀ (compileAux g fuel i ids c) := by
  intro fuel
  induction fuel with
  | zero => exact fun i ids c _ hs => hs
  | succ fuel ih =>
      intro i ids c hvis hs
      by_cases h : i ∈ ids
      · have hred : compileAux g (fuel + 1) i ids c = c := by simp [compileAux, h]
        rw [hred]
        exact hs
      · have hred : compileAux g (fuel + 1) i ids c =
            (symSucc g i).foldl (fun c w => compileAux g fuel w (ids ++ [i]) c)
              (compileVisit g i c) := by
          simp [compileAux, h]
        rw [hred]
        refine foldl_pres (cSound g i₀) _ (symSucc g i) (compileVisit g i c)
          (cSound_compileVisit hvis hs) ?_
        intro c' w hw hc'
        rcases mem_symSucc.mp hw with ⟨s, hstep⟩
        exact ih w (ids ++ [i]) c' (visited_step hvis hstep) hc'

theorem compileAux_complete {σ : Type} [DecidableEq σ] (g : Graph σ) (U : List Nat)
    (hU : ∀ (j : Nat) (s : σ) (w : Nat), tStep g j s w → w ∈ U) :
    ∀ (fuel i : Nat) (ids : List Nat) (c : Compiled σ),
      ids.Nodup → (∀ x ∈ ids, x ∈ U) → i ∈ U →
      U.dedup.length + 1 ≤ ids.length + fuel →
      (∀ v ∈ ids, contrib g v c) →
      ∀ u, ReachAvoid g ids i u → contrib g u (compileAux g fuel i ids c) := by
  intro fuel
  induction fuel with
  | zero =>
      intro i ids c hnd hsub _ hbound _ u _
      exact absurd (nodup_length_le_dedup hnd hsub) (by omega)
  | succ fuel ih =>
      intro i ids c hnd hsub hiU hbound hids u hra
      have hnin : i ∉ ids := reachAvoid_start_not_mem hra
      have hred : compileAux g (fuel + 1) i ids c =
          (symSucc g i).foldl (fun c w => compileAux g fuel w (ids ++ [i]) c)
            (compileVisit g i c) := by
        simp [compileAux, hnin]
      rw [hred]
      have hnd' : (ids ++ [i]).Nodup := by
        rw [List.nodup_append]
        refine ⟨hnd, by simp, ?_⟩
        intro a ha
        simp only [List.mem_singleton]
        intro hc
        subst hc
        exact hnin ha
      have hsub' : ∀ x ∈ ids ++ [i], x ∈ U := by
        intro x hx
        rcases List.mem_append.mp hx with h | h
        · exact hsub x h
        · rcases List.mem_singleton.mp h with rfl
          exact hiU
      have hbound' : U.dedup.length + 1 ≤ (ids ++ [i]).length + fuel := by
        simp only [List.length_append, List.length_singleton]
        omega
      have recLoop : ∀ (ws : List Nat) (c1 : Compiled σ),
          (∀ w ∈ ws, w ∈ U) →
          (∀ v ∈ ids ++ [i], contrib g v c1) →
          (∀ v ∈ ids ++ [i], contrib g v
            (ws.foldl (fun c w => compileAux g fuel w (ids ++ [i]) c) c1)) ∧
          (∀ w ∈ ws, ∀ v, ReachAvoid g (ids ++ [i]) w v →
            contrib g v
              (ws.foldl (fun c w => compileAux g fuel w (ids ++ [i]) c) c1)) := by
        intro ws
        induction ws with
        | nil =>
            intro c1 _ h1
            exact ⟨h1, by simp⟩
        | cons w t iht =>
            intro c1 hwsU h1
            simp only [List.foldl_cons]
            have hwU : w ∈ U := hwsU w (by simp)
            have htU : ∀ w' ∈ t, w' ∈ U := fun w' hw' => hwsU w' (by simp [hw'])
            have hcall := ih w (ids ++ [i]) c1 hnd' hsub' hwU hbound' h1
            have hmono := compileAux_mono g fuel w (ids ++ [i]) c1
            have h1' : ∀ v ∈ ids ++ [i],
                contrib g v (compileAux g fuel w (ids ++ [i]) c1) :=
              fun v hv => contrib_of_cLe (h1 v hv) hmono
            obtain ⟨ha, hb⟩ := iht (compileAux g fuel w (ids ++ [i]) c1) htU h1'
            refine ⟨ha, ?_⟩
            intro w' hw' v hrav
            rcases List.mem_cons.mp hw' with rfl | hw'
            · have hcv := hcall v hrav
              have hmono2 : cLe (compileAux g fuel w' (ids ++ [i]) c1)
                  (t.foldl (fun c w => compileAux g fuel w (ids ++ [i]) c)
                    (compileAux g fuel w' (ids ++ [i]) c1)) :=
                cLe_foldl _ (fun c' w'' => compileAux_mono g fuel w'' (ids ++ [i]) c') t _
              exact contrib_of_cLe hcv hmono2
            · exact hb w' hw' v hrav
      have hwsU : ∀ w ∈ symSucc g i, w ∈ U := by
        intro w hw
        rcases mem_symSucc.mp hw with ⟨s, hstep⟩
        exact hU i s w hstep
      have hidsCV : ∀ v ∈ ids ++ [i], contrib g v (compileVisit g i c) := by
        intro v hv
        rcases List.mem_append.mp hv with h | h
        · exact contrib_of_cLe (hids v h) (cLe_compileVisit g i c)
        · rcases List.mem_singleton.mp h with rfl
          exact contrib_compileVisit g _ c
      obtain ⟨hA, hB⟩ := recLoop (symSucc g i) (compileVisit g i c) hwsU hidsCV
      rcases reachAvoid_dest hra with heq | ⟨s, w, hmove, ra'⟩
      · subst heq
        exact hA u (by simp)
      · have hw : w ∈ symSucc g i := mem_symSucc.mpr ⟨s, hmove⟩
        have ra'' : ReachAvoid g (ids ++ [i]) w u := by
          refine reachAvoid_congr ?_ ra'
          intro x
          simp [List.mem_append, List.mem_cons]
          tauto
        exact hB w hw u ra''

theorem cSound_init {σ : Type} [DecidableEq σ] (g : Graph σ) (i₀ : Nat) :
    cSound g i₀ (⟨[], [], [i₀]⟩ : Compiled σ) := by
  constructor
  · intro u hu
    simp at hu
  · intro s u w hw
    rcases hw with ⟨ws, h1, _⟩
    cases h1

theorem visited_refl {σ : Type} [DecidableEq σ] (g : Graph σ) (i₀ : Nat) :
    Visited g i₀ i₀ :=
  ReachAvoid.refl [] i₀ (by simp)

theorem compileNfa_sound {σ : Type} [DecidableEq σ] (g : Graph σ) (i₀ : Nat) :
    cSound g i₀ (compileNfa g i₀) :=
  compileAux_sound g i₀ _ i₀ [] _ (visited_refl g i₀) (cSound_init g i₀)

theorem compileNfa_contrib {σ : Type} [DecidableEq σ] (g : Graph σ) {i₀ u : Nat}
    (h : Visited g i₀ u) : contrib g u (compileNfa g i₀) := by
  refine compileAux_complete g (i₀ :: allSucc g) ?_ ((allSucc g).length + 2) i₀ []
    (⟨[], [], [i₀]⟩ : Compiled σ) (by simp) (by simp) (by simp) ?_ (by simp) u h
  · intro j s w hstep
    rcases hstep with ⟨j', _, hw⟩
    exact List.mem_cons.mpr (Or.inr (step_subset_allSucc hw))
  · have := List.Sublist.length_le (List.dedup_sublist (i₀ :: allSucc g))
    simp at this ⊢
    omega

theorem compileNfa_accepts {σ : Type} [DecidableEq σ] (g : Graph σ) (i₀ u : Nat) :
    u ∈ (compileNfa g i₀).accepts ↔ Visited g i₀ u ∧ tAcc g u := by
  constructor
  · exact fun h => (compileNfa_sound g i₀).1 u h
  · rintro ⟨hvis, hacc⟩
    exact (compileNfa_contrib g hvis).1 hacc

theorem compileNfa_trans {σ : Type} [DecidableEq σ] (g : Graph σ) (i₀ u w : Nat)
    (s : σ) :
    memTrans (compileNfa g i₀) (s, u) w ↔ Visited g i₀ u ∧ tStep g u s w := by
  constructor
  · exact fun h => (compileNfa_sound g i₀).2 s u w h
  · rintro ⟨hvis, hstep⟩
    exact (compileNfa_contrib g hvis).2 s w hstep

/-- `compiled[(symbol, id)]`, empty when the key is absent. -/
def lookupTrans {σ : Type} [DecidableEq σ] (c : Compiled σ) (key : σ × Nat) :
    List Nat :=
  (lookupA c.trans key).getD []

/-- The compiled-table branch of `nfa.__call__` for inputs of non-epsilon
symbols: a working set of state ids is traversed breadth-first; at each
position the current length is recorded when some working id is marked
accepting and either a full match is not required or the input is exhausted;
reading a symbol replaces the working set by the union of the table rows,
returning when the union is empty or the input ends. -/
def matchCompiled {σ : Type} [DecidableEq σ] (c : Compiled σ) (full : Bool) :
    List σ → Nat → List Nat → List Nat → Option Nat
  | [], len, ids, lengths =>
      if ids.any (fun u => decide (u ∈ c.accepts)) then maxN (lengths ++ [len])
      else if full then none else maxN lengths
  | s :: rest, len, ids, lengths =>
      let lengths' :=
        if !full && ids.any (fun u => decide (u ∈ c.accepts)) then lengths ++ [len]
        else lengths
      let ids' := ids.foldl (fun acc u => addAll acc (lookupTrans c (s, u))) []
      if ids' = [] then (if full then none else maxN lengths')
      else matchCompiled c full rest (len + 1) ids' lengths'

theorem mem_lookupTrans {σ : Type} [DecidableEq σ] {c : Compiled σ}
    {key : σ × Nat} {x : Nat} : x ∈ lookupTrans c key ↔ memTrans c key x := by
  unfold lookupTrans memTrans
  rcases h : lookupA c.trans key with _ | ws
  · simp
  · simp

theorem foldl_addAll_mem {f : Nat → List Nat} :
    ∀ (l b : List Nat) (x : Nat),
      x ∈ l.foldl (fun acc u => addAll acc (f u)) b ↔ x ∈ b ∨ ∃ u ∈ l, x ∈ f u := by
  intro l
  induction l with
  | nil => simp
  | cons u t ih =>
      intro b x
      show x ∈ List.foldl _ (addAll b (f u)) t ↔ _
      rw [ih, mem_addAll]
      constructor
      · rintro ((h | h) | ⟨v, hv, hx⟩)
        · exact Or.inl h
        · exact Or.inr ⟨u, by simp, h⟩
        · exact Or.inr ⟨v, by simp [hv], hx⟩
      · rintro (h | ⟨v, hv, hx⟩)
        · exact Or.inl (Or.inl h)
        · rcases List.mem_cons.mp hv with rfl | hv
          · exact Or.inl (Or.inr hx)
          · exact Or.inr ⟨v, hv, hx⟩

theorem matchCompiled_nil {σ : Type} [DecidableEq σ] (c : Compiled σ) (full : Bool)
    (len : Nat) (ids lengths : List Nat) :
    matchCompiled c full [] len ids lengths =
      if ids.any (fun u => decide (u ∈ c.accepts)) then maxN (lengths ++ [len])
      else if full then none else maxN lengths := by
  simp [matchCompiled]

theorem matchCompiled_cons {σ : Type} [DecidableEq σ] (c : Compiled σ) (full : Bool)
    (s : σ) (rest : List σ) (len : Nat) (ids lengths : List Nat) :
    matchCompiled c full (s :: rest) len ids lengths =
      if ids.foldl (fun acc u => addAll acc (lookupTrans c (s, u))) [] = [] then
        (if full then none
         else maxN (if !full && ids.any (fun u => decide (u ∈ c.accepts)) then
            lengths ++ [len] else lengths))
      else
        matchCompiled c full rest (len + 1)
          (ids.foldl (fun acc u => addAll acc (lookupTrans c (s, u))) [])
          (if !full && ids.any (fun u => decide (u ∈ c.accepts)) then
            lengths ++ [len] else lengths) := by
  simp [matchCompiled]

theorem option_eq_of_some_iff {a b : Option Nat}
    (h : ∀ m, a = some m ↔ b = some m) : a = b := by
  cases a with
  | none =>
      cases b with
      | none => rfl
      | some m => exact ((h m).mpr rfl)
  | some m =>
      exact ((h m).mp rfl).symm

theorem any_accepts_iff {σ : Type} [DecidableEq σ] {g : Graph σ} {i₀ : Nat}
    {ids : List Nat} (hvis : ∀ u ∈ ids, Visited g i₀ u) :
    ids.any (fun u => decide (u ∈ (compileNfa g i₀).accepts)) = true ↔
      ∃ u ∈ ids, Accepts g u ([] : List σ) := by
  rw [List.any_eq_true]
  constructor
  · rintro ⟨u, hu, hdec⟩
    have hmem := of_decide_eq_true hdec
    have := (compileNfa_accepts g i₀ u).mp hmem
    exact ⟨u, hu, accepts_nil_iff.mpr this.2⟩
  · rintro ⟨u, hu, hacc⟩
    refine ⟨u, hu, decide_eq_true ?_⟩
    exact (compileNfa_accepts g i₀ u).mpr ⟨hvis u hu, accepts_nil_iff.mp hacc⟩

theorem mem_idsNext_iff {σ : Type} [DecidableEq σ] {g : Graph σ} {i₀ : Nat}
    {ids : List Nat} {s : σ} {k : Nat} (hvis : ∀ u ∈ ids, Visited g i₀ u) :
    (k ∈ ids.foldl (fun acc u => addAll acc (lookupTrans (compileNfa g i₀) (s, u))) []) ↔
      ∃ u ∈ ids, tStep g u s k := by
  rw [foldl_addAll_mem]
  simp only [List.not_mem_nil, false_or]
  constructor
  · rintro ⟨u, hu, hk⟩
    have := (compileNfa_trans g i₀ u k s).mp (mem_lookupTrans.mp hk)
    exact ⟨u, hu, this.2⟩
  · rintro ⟨u, hu, hk⟩
    exact ⟨u, hu, mem_lookupTrans.mpr
      ((compileNfa_trans g i₀ u k s).mpr ⟨hvis u hu, hk⟩)⟩

theorem visited_idsNext {σ : Type} [DecidableEq σ] {g : Graph σ} {i₀ : Nat}
    {ids : List Nat} {s : σ} {k : Nat}
    (hk : k ∈ ids.foldl (fun acc u => addAll acc (lookupTrans (compileNfa g i₀) (s, u))) []) :
    Visited g i₀ k := by
  rcases (foldl_addAll_mem ids [] k).mp hk with h | ⟨u, _, hk'⟩
  · simp at h
  · have := (compileNfa_trans g i₀ u k s).mp (mem_lookupTrans.mp hk')
    exact visited_step this.1 this.2

theorem matchCompiled_full_iff {σ : Type} [DecidableEq σ] (g : Graph σ) (i₀ : Nat) :
    ∀ (x : List σ) (len : Nat) (ids : List Nat),
      (∀ u ∈ ids, Visited g i₀ u) →
      ∀ m, matchCompiled (compileNfa g i₀) true x len ids [] = some m ↔
        (m = len + x.length ∧ ∃ u ∈ ids, Accepts g u x) := by
  intro x
  induction x with
  | nil =>
      intro len ids hvis m
      rw [matchCompiled_nil]
      by_cases hany : ids.any (fun u => decide (u ∈ (compileNfa g i₀).accepts)) = true
      · rw [if_pos hany]
        have hex := (any_accepts_iff hvis).mp hany
        simp only [List.nil_append]
        constructor
        · intro h
          have := maxN_mem h
          rcases List.mem_singleton.mp this with rfl
          exact ⟨by simp, hex⟩
        · rintro ⟨rfl, _⟩
          exact maxN_of_mem_ub (by simp) (by simp)
      · rw [if_neg hany, if_pos rfl]
        simp only [reduceCtorEq, false_iff]
        rintro ⟨_, hex⟩
        exact hany ((any_accepts_iff hvis).mpr hex)
  | cons s rest ih =>
      intro len ids hvis m
      rw [matchCompiled_cons]
      by_cases hstuck :
          ids.foldl (fun acc u => addAll acc (lookupTrans (compileNfa g i₀) (s, u))) [] = []
      · rw [if_pos hstuck, if_pos rfl]
        simp only [reduceCtorEq, false_iff]
        rintro ⟨_, u, hu, hacc⟩
        rcases accepts_cons_iff.mp hacc with ⟨j, hj, k, hk, _⟩
        have : k ∈ ids.foldl
            (fun acc u => addAll acc (lookupTrans (compileNfa g i₀) (s, u))) [] :=
          (mem_idsNext_iff hvis).mpr ⟨u, hu, j, hj, hk⟩
        rw [hstuck] at this
        simp at this
      · rw [if_neg hstuck]
        show matchCompiled (compileNfa g i₀) true rest (len + 1)
            (ids.foldl (fun acc u =>
              addAll acc (lookupTrans (compileNfa g i₀) (s, u))) []) [] = some m ↔ _
        rw [ih (len + 1) _ (fun k hk => visited_idsNext hk) m]
        constructor
        · rintro ⟨rfl, k, hk, hacc⟩
          refine ⟨by simp; omega, ?_⟩
          rcases (mem_idsNext_iff hvis).mp hk with ⟨u, hu, hstep⟩
          rcases hstep with ⟨j, hj, hsj⟩
          exact ⟨u, hu, accepts_cons_iff.mpr ⟨j, hj, k, hsj, hacc⟩⟩
        · rintro ⟨rfl, u, hu, hacc⟩
          rcases accepts_cons_iff.mp hacc with ⟨j, hj, k, hk, hacck⟩
          refine ⟨by simp; omega, k, ?_, hacck⟩
          exact (mem_idsNext_iff hvis).mpr ⟨u, hu, j, hj, hk⟩

/-- The candidate results of the compiled matcher in prefix mode: previously
recorded lengths, together with every position reachable by matching a prefix
from some working state and landing in reach of an accepting state. -/
def prefCand {σ : Type} [DecidableEq σ] (g : Graph σ) (x : List σ) (len : Nat)
    (ids lengths : List Nat) (q : Nat) : Prop :=
  q ∈ lengths ∨ ∃ p, p ≤ x.length ∧ q = len + p ∧ ∃ u ∈ ids, Accepts g u (x.take p)

theorem matchCompiled_pref_iff {σ : Type} [DecidableEq σ] (g : Graph σ) (i₀ : Nat) :
    ∀ (x : List σ) (len : Nat) (ids lengths : List Nat),
      (∀ u ∈ ids, Visited g i₀ u) →
      ∀ m, matchCompiled (compileNfa g i₀) false x len ids lengths = some m ↔
        (prefCand g x len ids lengths m ∧
          ∀ q, prefCand g x len ids lengths q → q ≤ m) := by
  intro x
  induction x with
  | nil =>
      intro len ids lengths hvis m
      rw [matchCompiled_nil]
      by_cases hany : ids.any
          (fun u => decide (u ∈ (compileNfa g i₀).accepts)) = true
      · rw [if_pos hany]
        have hex := (any_accepts_iff hvis).mp hany
        have hcand : ∀ q, prefCand g [] len ids lengths q ↔ q ∈ lengths ++ [len] := by
          intro q
          unfold prefCand
          rw [List.mem_append, List.mem_singleton]
          constructor
          · rintro (h | ⟨p, hp, rfl, _⟩)
            · exact Or.inl h
            · simp at hp
              subst hp
              exact Or.inr (by omega)
          · rintro (h | rfl)
            · exact Or.inl h
            · exact Or.inr ⟨0, by simp, by omega, hex⟩
        rw [maxN_eq_some]
        constructor
        · rintro ⟨h1, h2⟩
          exact ⟨(hcand m).mpr h1, fun q hq => h2 q ((hcand q).mp hq)⟩
        · rintro ⟨h1, h2⟩
          exact ⟨(hcand m).mp h1, fun q hq => h2 q ((hcand q).mpr hq)⟩
      · rw [if_neg hany, if_neg (by simp)]
        have hnex : ¬ ∃ u ∈ ids, Accepts g u ([] : List σ) :=
          fun h => hany ((any_accepts_iff hvis).mpr h)
        have hcand : ∀ q, prefCand g [] len ids lengths q ↔ q ∈ lengths := by
          intro q
          unfold prefCand
          constructor
          · rintro (h | ⟨p, hp, rfl, hex'⟩)
            · exact h
            · simp at hp
              subst hp
              exact absurd (by simpa using hex') hnex
          · exact Or.inl
        rw [maxN_eq_some]
        constructor
        · rintro ⟨h1, h2⟩
          exact ⟨(hcand m).mpr h1, fun q hq => h2 q ((hcand q).mp hq)⟩
        · rintro ⟨h1, h2⟩
          exact ⟨(hcand m).mp h1, fun q hq => h2 q ((hcand q).mpr hq)⟩
  | cons s rest ih =>
      intro len ids lengths hvis m
      rw [matchCompiled_cons]
      have hlen' : (if !false && ids.any
          (fun u => decide (u ∈ (compileNfa g i₀).accepts)) then
          lengths ++ [len] else lengths) =
          (if ids.any (fun u => decide (u ∈ (compileNfa g i₀).accepts)) then
            lengths ++ [len] else lengths) := by
        simp
      have hmemlen' : ∀ q, (q ∈ (if ids.any
          (fun u => decide (u ∈ (compileNfa g i₀).accepts)) then
          lengths ++ [len] else lengths)) ↔
          (q ∈ lengths ∨ (q = len ∧ ∃ u ∈ ids, Accepts g u ([] : List σ))) := by
        intro q
        by_cases hany : ids.any
            (fun u => decide (u ∈ (compileNfa g i₀).accepts)) = true
        · rw [if_pos hany, List.mem_append, List.mem_singleton]
          have hex := (any_accepts_iff hvis).mp hany
          constructor
          · rintro (h | rfl)
            · exact Or.inl h
            · exact Or.inr ⟨rfl, hex⟩
          · rintro (h | ⟨rfl, _⟩)
            · exact Or.inl h
            · exact Or.inr rfl
        · rw [if_neg hany]
          constructor
          · exact Or.inl
          · rintro (h | ⟨rfl, hex⟩)
            · exact h
            · exact absurd ((any_accepts_iff hvis).mpr hex) hany
      have hcanddec : ∀ q, prefCand g (s :: rest) len ids lengths q ↔
          (q ∈ lengths ∨ (q = len ∧ ∃ u ∈ ids, Accepts g u ([] : List σ)) ∨
            ∃ p, p ≤ rest.length ∧ q = (len + 1) + p ∧
              ∃ u ∈ ids, Accepts g u (s :: rest.take p)) := by
        intro q
        unfold prefCand
        constructor
        · rintro (h | ⟨p, hp, rfl, hex⟩)
          · exact Or.inl h
          · cases p with
            | zero => exact Or.inr (Or.inl ⟨by omega, by simpa using hex⟩)
            | succ p' =>
                refine Or.inr (Or.inr ⟨p', by simp at hp; omega, by omega, ?_⟩)
                rw [List.take_succ_cons] at hex
                exact hex
        · rintro (h | ⟨rfl, hex⟩ | ⟨p, hp, rfl, hex⟩)
          · exact Or.inl h
          · exact Or.inr ⟨0, by simp, by omega, by simpa using hex⟩
          · exact Or.inr ⟨p + 1, by simp; omega, by omega, by
              rw [List.take_succ_cons]
              exact hex⟩
      rw [hlen']
      by_cases hstuck :
          ids.foldl (fun acc u => addAll acc (lookupTrans (compileNfa g i₀) (s, u))) [] = []
      · rw [if_pos hstuck, if_neg (by simp)]
        have hnostep : ∀ p, p ≤ rest.length →
            ¬ ∃ u ∈ ids, Accepts g u (s :: rest.take p) := by
          rintro p _ ⟨u, hu, hacc⟩
          rcases accepts_cons_iff.mp hacc with ⟨j, hj, k, hk, _⟩
          have : k ∈ ids.foldl
              (fun acc u => addAll acc (lookupTrans (compileNfa g i₀) (s, u))) [] :=
            (mem_idsNext_iff hvis).mpr ⟨u, hu, j, hj, hk⟩
          rw [hstuck] at this
          simp at this
        have hcand : ∀ q, prefCand g (s :: rest) len ids lengths q ↔
            (q ∈ (if ids.any (fun u => decide (u ∈ (compileNfa g i₀).accepts)) then
              lengths ++ [len] else lengths)) := by
          intro q
          rw [hcanddec q, hmemlen' q]
          constructor
          · rintro (h | h | ⟨p, hp, rfl, hex⟩)
            · exact Or.inl h
            · exact Or.inr h
            · exact absurd hex (hnostep p hp)
          · rintro (h | h)
            · exact Or.inl h
            · exact Or.inr (Or.inl h)
        rw [maxN_eq_some]
        constructor
        · rintro ⟨h1, h2⟩
          exact ⟨(hcand m).mpr h1, fun q hq => h2 q ((hcand q).mp hq)⟩
        · rintro ⟨h1, h2⟩
          exact ⟨(hcand m).mp h1, fun q hq => h2 q ((hcand q).mpr hq)⟩
      · rw [if_neg hstuck]
        have hvis' : ∀ k ∈ ids.foldl
            (fun acc u => addAll acc (lookupTrans (compileNfa g i₀) (s, u))) [],
            Visited g i₀ k := fun k hk => visited_idsNext hk
        rw [ih (len + 1) _ _ hvis' m]
        have hcand : ∀ q, prefCand g rest (len + 1)
            (ids.foldl (fun acc u => addAll acc (lookupTrans (compileNfa g i₀) (s, u))) [])
            (if ids.any (fun u => decide (u ∈ (compileNfa g i₀).accepts)) then
              lengths ++ [len] else lengths) q ↔
            prefCand g (s :: rest) len ids lengths q := by
          intro q
          rw [hcanddec q]
          unfold prefCand
          rw [hmemlen' q]
          constructor
          · rintro ((h | h) | ⟨p, hp, rfl, k, hk, hacc⟩)
            · exact Or.inl h
            · exact Or.inr (Or.inl h)
            · rcases (mem_idsNext_iff hvis).mp hk with ⟨u, hu, j, hj, hsj⟩
              exact Or.inr (Or.inr ⟨p, hp, rfl, u, hu,
                accepts_cons_iff.mpr ⟨j, hj, k, hsj, hacc⟩⟩)
          · rintro (h | ⟨rfl, hex⟩ | ⟨p, hp, rfl, u, hu, hacc⟩)
            · exact Or.inl (Or.inl h)
            · exact Or.inl (Or.inr ⟨rfl, hex⟩)
            · rcases accepts_cons_iff.mp hacc with ⟨j, hj, k, hk, hacck⟩
              exact Or.inr ⟨p, hp, rfl, k,
                (mem_idsNext_iff hvis).mpr ⟨u, hu, j, hj, hk⟩, hacck⟩
        constructor
        · rintro ⟨h1, h2⟩
          exact ⟨(hcand m).mp h1, fun q hq => h2 q ((hcand q).mpr hq)⟩
        · rintro ⟨h1, h2⟩
          exact ⟨(hcand m).mpr h1, fun q hq => h2 q ((hcand q).mp hq)⟩

/-- C1: back-end agreement.  For every automaton graph, every input of
non-epsilon symbols and both values of `full`, the lazy recursive matcher
started at the root returns exactly what the compiled-table matcher returns
after `compile()` has cached the transition table for the same root (same
longest-match length, or rejection in both). -/
theorem claim_C1_backend_agreement {σ : Type} [DecidableEq σ] (g : Graph σ)
    (i₀ : Nat) (x : List σ) (full : Bool) :
    matchLazy g full x 0 i₀ = matchCompiled (compileNfa g i₀) full x 0 [i₀] [] := by
  have hvis : ∀ u ∈ [i₀], Visited g i₀ u := by
    intro u hu
    rcases List.mem_singleton.mp hu with rfl
    exact visited_refl g u
  apply option_eq_of_some_iff
  intro m
  cases full with
  | true =>
      rw [matchLazy_full_iff g x 0 i₀ m, matchCompiled_full_iff g i₀ x 0 [i₀] hvis m]
      constructor
      · rintro ⟨rfl, hacc⟩
        exact ⟨rfl, i₀, by simp, hacc⟩
      · rintro ⟨rfl, u, hu, hacc⟩
        rcases List.mem_singleton.mp hu with rfl
        exact ⟨rfl, hacc⟩
  | false =>
      rw [(matchLazy_pref_iff g x 0 i₀).1 m, matchCompiled_pref_iff g i₀ x 0 [i₀] [] hvis m]
      unfold prefCand
      constructor
      · rintro ⟨p, hp, hacc, rfl, hmax⟩
        refine ⟨Or.inr ⟨p, hp, rfl, i₀, by simp, hacc⟩, ?_⟩
        rintro q (hq | ⟨p', hp', rfl, u, hu, hacc'⟩)
        · simp at hq
        · rcases List.mem_singleton.mp hu with rfl
          have := hmax p' hp' hacc'
          omega
      · rintro ⟨hm, hub⟩
        rcases hm with hm | ⟨p, hp, rfl, u, hu, hacc⟩
        · simp at hm
        · rcases List.mem_singleton.mp hu with rfl
          refine ⟨p, hp, hacc, rfl, ?_⟩
          intro q hq hacc'
          have := hub q (Or.inr ⟨q, hq, by omega, u, by simp, hacc'⟩)
          omega

/-- An id larger than every id bound in the graph, standing for the fresh
Python object identity of a newly constructed instance. -/
def freshId {σ : Type} (g : Graph σ) : Nat :=
  g.foldr (fun p m => max p.1 m) 0 + 1

/-- `nfa.__pos__`: `nfa_ = nfa(self.items()); nfa_._accept = True` — a fresh
shallow copy whose dict entries are the same objects, force-accepted. -/
def posOp {σ : Type} [DecidableEq σ] (g : Graph σ) (i : Nat) : Graph σ × Nat :=
  (((freshId g, ⟨(getNode g i).entries, some true⟩) : Nat × Node σ) :: g, freshId g)

/-- `nfa.__neg__`: the shallow copy is force-rejected. -/
def negOp {σ : Type} [DecidableEq σ] (g : Graph σ) (i : Nat) : Graph σ × Nat :=
  (((freshId g, ⟨(getNode g i).entries, some false⟩) : Nat × Node σ) :: g, freshId g)

/-- `nfa.__invert__`: the shallow copy's accepting status is `not bool(self)`,
evaluated on the original instance. -/
def invOp {σ : Type} [DecidableEq σ] (g : Graph σ) (i : Nat) : Graph σ × Nat :=
  (((freshId g, ⟨(getNode g i).entries, some (!accepting g i)⟩) : Nat × Node σ) :: g,
    freshId g)

theorem mem_le_foldr_max {σ : Type} (g : Graph σ) :
    ∀ p ∈ g, p.1 ≤ g.foldr (fun p m => max p.1 m) 0 := by
  induction g with
  | nil => simp
  | cons e t ih =>
      intro p hp
      rcases List.mem_cons.mp hp with rfl | hp
      · simp only [List.foldr_cons]
        omega
      · have := ih p hp
        simp only [List.foldr_cons]
        omega

theorem freshId_not_bound {σ : Type} (g : Graph σ) : ∀ p ∈ g, p.1 ≠ freshId g := by
  intro p hp
  have := mem_le_foldr_max g p hp
  unfold freshId
  omega

theorem getNode_cons_ne {σ : Type} [DecidableEq σ] (g : Graph σ) (nd : Node σ)
    (n j : Nat) (h : j ≠ n) : getNode ((n, nd) :: g) j = getNode g j := by
  unfold getNode
  show ((if n = j then some nd else lookupA g j).getD _) = _
  rw [if_neg (fun hc => h hc.symm)]

theorem getNode_cons_self {σ : Type} [DecidableEq σ] (g : Graph σ) (nd : Node σ)
    (n : Nat) : getNode ((n, nd) :: g) n = nd := by
  unfold getNode lookupA
  simp

theorem accepting_congr {σ : Type} [DecidableEq σ] {g g' : Graph σ} {j : Nat}
    (h : getNode g' j = getNode g j) : accepting g' j = accepting g j := by
  unfold accepting
  rw [h]

theorem accepting_of_accept_some {σ : Type} [DecidableEq σ] {g : Graph σ} {j : Nat}
    {nd : Node σ} {b : Bool} (h : getNode g j = nd) (hb : nd.accept = some b) :
    accepting g j = b := by
  unfold accepting
  rw [h, hb]

/-- C6: each accept mutator (`+s`, `-s`, `~s`) returns a fresh shallow-copy
state carrying the corresponding accept override, leaves every existing state
(in particular `s`) completely unchanged — same transitions and same
accepting status — and the copy's entry list is the very entry list of `s`
(successor states and successor lists shared by reference, no recursive
copy). -/
theorem claim_C6_accept_mutators {σ : Type} [DecidableEq σ] (g : Graph σ) (i : Nat) :
    ((∀ p ∈ g, p.1 ≠ (posOp g i).2) ∧
      (∀ j, j ≠ (posOp g i).2 → getNode (posOp g i).1 j = getNode g j ∧
        accepting (posOp g i).1 j = accepting g j) ∧
      (getNode (posOp g i).1 (posOp g i).2).entries = (getNode g i).entries ∧
      accepting (posOp g i).1 (posOp g i).2 = true) ∧
    ((∀ p ∈ g, p.1 ≠ (negOp g i).2) ∧
      (∀ j, j ≠ (negOp g i).2 → getNode (negOp g i).1 j = getNode g j ∧
        accepting (negOp g i).1 j = accepting g j) ∧
      (getNode (negOp g i).1 (negOp g i).2).entries = (getNode g i).entries ∧
      accepting (negOp g i).1 (negOp g i).2 = false) ∧
    ((∀ p ∈ g, p.1 ≠ (invOp g i).2) ∧
      (∀ j, j ≠ (invOp g i).2 → getNode (invOp g i).1 j = getNode g j ∧
        accepting (invOp g i).1 j = accepting g j) ∧
      (getNode (invOp g i).1 (invOp g i).2).entries = (getNode g i).entries ∧
      accepting (invOp g i).1 (invOp g i).2 = !accepting g i) := by
  refine ⟨⟨freshId_not_bound g, ?_, ?_, ?_⟩,
          ⟨freshId_not_bound g, ?_, ?_, ?_⟩,
          ⟨freshId_not_bound g, ?_, ?_, ?_⟩⟩
  · intro j hj
    have h : getNode (posOp g i).1 j = getNode g j :=
      getNode_cons_ne g ⟨(getNode g i).entries, some true⟩ (freshId g) j hj
    exact ⟨h, accepting_congr h⟩
  · show (getNode ((freshId g,
        (⟨(getNode g i).entries, some true⟩ : Node σ)) :: g) (freshId g)).entries =
      (getNode g i).entries
    rw [getNode_cons_self]
  · exact accepting_of_accept_some
      (getNode_cons_self g ⟨(getNode g i).entries, some true⟩ (freshId g)) rfl
  · intro j hj
    have h : getNode (negOp g i).1 j = getNode g j :=
      getNode_cons_ne g ⟨(getNode g i).entries, some false⟩ (freshId g) j hj
    exact ⟨h, accepting_congr h⟩
  · show (getNode ((freshId g,
        (⟨(getNode g i).entries, some false⟩ : Node σ)) :: g) (freshId g)).entries =
      (getNode g i).entries
    rw [getNode_cons_self]
  · exact accepting_of_accept_some
      (getNode_cons_self g ⟨(getNode g i).entries, some false⟩ (freshId g)) rfl
  · intro j hj
    have h : getNode (invOp g i).1 j = getNode g j :=
      getNode_cons_ne g ⟨(getNode g i).entries, some (!accepting g i)⟩ (freshId g) j hj
    exact ⟨h, accepting_congr h⟩
  · show (getNode ((freshId g,
        (⟨(getNode g i).entries, some (!accepting g i)⟩ : Node σ)) :: g) (freshId g)).entries =
      (getNode g i).entries
    rw [getNode_cons_self]
  · exact accepting_of_accept_some
      (getNode_cons_self g ⟨(getNode g i).entries, some (!accepting g i)⟩ (freshId g)) rfl

/-- The Python classes relevant to comparisons with the epsilon marker: the
`epsilon` singleton class, plain `object`, and representative user-symbol
types (`int`, `str`, `dict` and the `nfa` subclass of `dict`). -/
inductive PyClass : Type
  | objectC
  | epsilonC
  | intC
  | strC
  | dictC
  | nfaC
deriving DecidableEq

/-- Method-resolution ancestors: every class inherits from `object`, and
`nfa` derives from `dict`. -/
def ancestors : PyClass → List PyClass
  | .objectC => [.objectC]
  | .epsilonC => [.epsilonC, .objectC]
  | .intC => [.intC, .objectC]
  | .strC => [.strC, .objectC]
  | .dictC => [.dictC, .objectC]
  | .nfaC => [.nfaC, .dictC, .objectC]

/-- A Python runtime value: its class and its object identity. -/
structure PyObj : Type where
  cls : PyClass
  ident : Nat
deriving DecidableEq

/-- `isinstance(x, c)`. -/
def isinstance (x : PyObj) (c : PyClass) : Bool :=
  decide (c ∈ ancestors x.cls)

/-- The sole instance of the epsilon class exported by the module. -/
def epsObj : PyObj := ⟨PyClass.epsilonC, 0⟩

/-- `epsilon.__eq__(other)`: `isinstance(self, type(other))`, where `self`
is the epsilon singleton. -/
def epsilonEq (other : PyObj) : Bool :=
  isinstance epsObj other.cls

/-- `v == epsilon` under Python dispatch: `v.__eq__(epsilon)` is consulted
first; an instance of the epsilon class answers with its own `__eq__`, while
the default and value-based `__eq__` of the other modelled classes return
`NotImplemented` against the epsilon marker, so the comparison is reflected
back to `epsilon.__eq__(v)`. -/
def pyEqVepsilon (v : PyObj) : Bool :=
  match v.cls with
  | .epsilonC => isinstance v PyClass.epsilonC
  | _ => epsilonEq v

/-- C8 fails on the code: a bare direct instance of `object` — a legitimate,
hashable user symbol distinct from the epsilon singleton — compares equal to
epsilon in both directions, because `epsilon.__eq__` tests
`isinstance(self, type(other))` and every object is an instance of `object`. -/
theorem claim_C8_counterexample :
    (⟨PyClass.objectC, 1⟩ : PyObj) ≠ epsObj ∧
    epsilonEq ⟨PyClass.objectC, 1⟩ = true ∧
    pyEqVepsilon ⟨PyClass.objectC, 1⟩ = true := by
  refine ⟨?_, rfl, rfl⟩
  intro h
  cases h

/-- C8 (amended): `epsilon == v` (in either direction of the comparison)
holds exactly when the type of `v` is the epsilon class itself or is plain
`object`; for every value of any proper user-symbol type (`int`, `str`,
`dict`, `nfa`, ...) both comparisons are false, and `epsilon == epsilon` is
true. -/
theorem claim_C8_amended (v : PyObj) :
    (epsilonEq v = true ↔ (v.cls = PyClass.epsilonC ∨ v.cls = PyClass.objectC)) ∧
    pyEqVepsilon v = epsilonEq v ∧
    epsilonEq epsObj = true := by
  rcases v with ⟨c, n⟩
  cases c <;> simp [epsilonEq, pyEqVepsilon, isinstance, epsObj, ancestors]

/-- A value occurring in a constructor argument: an `nfa` instance, a Python
list or tuple of such values, or any other object. -/
inductive CtorVal : Type
  | state (ident : Nat)
  | listOf (vs : List CtorVal)
  | tupleOf (vs : List CtorVal)
  | prim (ident : Nat)

/-- One item of a collection passed to the constructor: a key-value pair, or
an item that `dict` cannot interpret as a pair (making it raise `TypeError`,
which the constructor catches and re-raises as the values error). -/
inductive CtorItem (σ : Type) : Type
  | pair (k : Label σ) (v : CtorVal)
  | nonPair (ident : Nat)

/-- The constructor argument: `None`, a non-`Collection` object (generator,
zip object, ...), or a re-iterable collection of items. -/
inductive CtorArg (σ : Type) : Type
  | noneArg
  | notCollection
  | coll (items : List (CtorItem σ))

/-- One `d[k] = v` assignment during `dict(argument)`: a later pair with an
existing key overrides the stored value in place, a new key is appended. -/
def dictUpd {σ : Type} [DecidableEq σ] (d : List (Label σ × CtorVal))
    (k : Label σ) (v : CtorVal) : List (Label σ × CtorVal) :=
  if (lookupA d k).isSome then d.map (fun e => if e.1 = k then (e.1, v) else e)
  else d ++ [(k, v)]

/-- `dict(argument)` over the items in order; `none` models the `TypeError`
raised on an item that is not a key-value pair. -/
def toDictAux {σ : Type} [DecidableEq σ] (d : List (Label σ × CtorVal)) :
    List (CtorItem σ) → Option (List (Label σ × CtorVal))
  | [] => some d
  | .pair k v :: t => toDictAux (dictUpd d k v) t
  | .nonPair _ :: _ => none

def toDict {σ : Type} [DecidableEq σ] (items : List (CtorItem σ)) :
    Option (List (Label σ × CtorVal)) :=
  toDictAux [] items

def isStateVal : CtorVal → Bool
  | .state _ => true
  | _ => false

/-- `isinstance(value, nfa)` or a non-empty list/tuple of `nfa` instances. -/
def validVal : CtorVal → Bool
  | .state _ => true
  | .listOf vs => !vs.isEmpty && vs.all isStateVal
  | .tupleOf vs => !vs.isEmpty && vs.all isStateVal
  | .prim _ => false

/-- `nfa.__new__`: reject a non-collection argument, convert the argument to
a dict (re-raising the values error when that fails), and check every value
of the resulting dict. -/
def nfaNew {σ : Type} [DecidableEq σ] : CtorArg σ →
    Except String (List (Label σ × CtorVal))
  | .noneArg => .ok []
  | .notCollection => .error "argument must be a collection"
  | .coll items =>
      match toDict items with
      | none =>
          .error "values must be nfa instances or non-empty lists/tuples of nfa instances"
      | some d =>
          if d.all (fun e => validVal e.2) then .ok d
          else .error
            "values must be nfa instances or non-empty lists/tuples of nfa instances"

/-- The value of the last pair with key `k` among the items (the binding that
survives `dict` conversion). -/
def lastBinding {σ : Type} [DecidableEq σ] (items : List (CtorItem σ))
    (k : Label σ) : Option CtorVal :=
  items.foldl (fun acc it =>
    match it with
    | .pair k' v => if k' = k then some v else acc
    | .nonPair _ => acc) none

/-- C5 fails on the code: a collection that binds the same key first to an
invalid value (not an `nfa` instance) and then to an `nfa` instance is
accepted, because `dict` conversion keeps only the last binding per key and
the value check runs on the converted dict — yet by the claim the presence
of the invalid value should make construction fail with the values error. -/
theorem claim_C5_counterexample :
    nfaNew (CtorArg.coll
      [CtorItem.pair (Label.sym (0 : Nat)) (CtorVal.prim 0),
       CtorItem.pair (Label.sym 0) (CtorVal.state 1)]) =
      Except.ok [(Label.sym 0, CtorVal.state 1)] ∧
    validVal (CtorVal.prim 0) = false := by
  exact ⟨rfl, rfl⟩

theorem lookupA_eq_none_iff {α β : Type} [DecidableEq α] {d : List (α × β)} {k : α} :
    lookupA d k = none ↔ k ∉ d.map Prod.fst := by
  induction d with
  | nil => simp [lookupA]
  | cons e t ih =>
      rcases e with ⟨k', v⟩
      by_cases hk : k' = k
      · subst hk
        simp [lookupA]
      · simp only [lookupA, if_neg hk, List.map_cons, List.mem_cons]
        rw [ih]
        constructor
        · rintro h (hc | hc)
          · exact hk hc.symm
          · exact h hc
        · intro h hc
          exact h (Or.inr hc)

theorem map_upd_keys {α β : Type} [DecidableEq α] (d : List (α × β)) (k : α) (v : β) :
    (d.map (fun e => if e.1 = k then (e.1, v) else e)).map Prod.fst =
      d.map Prod.fst := by
  induction d with
  | nil => rfl
  | cons e t ih =>
      rcases e with ⟨k', v'⟩
      by_cases hk : k' = k <;> simp [hk, ih]

theorem dictUpd_keysNodup {σ : Type} [DecidableEq σ] {d : List (Label σ × CtorVal)}
    {k : Label σ} {v : CtorVal} (h : (d.map Prod.fst).Nodup) :
    ((dictUpd d k v).map Prod.fst).Nodup := by
  unfold dictUpd
  by_cases hs : (lookupA d k).isSome
  · rw [if_pos hs, map_upd_keys]
    exact h
  · rw [if_neg hs]
    have hk : k ∉ d.map Prod.fst := by
      rw [← lookupA_eq_none_iff]
      rcases hv : lookupA d k with _ | v'
      · rfl
      · rw [hv] at hs
        simp at hs
    rw [List.map_append, List.nodup_append]
    refine ⟨h, by simp, ?_⟩
    intro a ha
    simp only [List.map_cons, List.map_nil, List.mem_singleton]
    intro hc
    subst hc
    exact hk ha

theorem dictUpd_lookup {σ : Type} [DecidableEq σ] (d : List (Label σ × CtorVal))
    (k' k : Label σ) (v : CtorVal) :
    lookupA (dictUpd d k' v) k = if k' = k then some v else lookupA d k := by
  unfold dictUpd
  by_cases hs : (lookupA d k').isSome
  · rw [if_pos hs, lookupA_map_upd d k' k (fun _ => v)]
    by_cases hk : k = k'
    · subst hk
      rw [if_pos rfl, if_pos rfl]
      rcases hv : lookupA d k with _ | v'
      · rw [hv] at hs
        simp at hs
      · simp
    · rw [if_neg hk, if_neg (fun h : k' = k => hk h.symm)]
  · rw [if_neg hs, lookupA_append]
    have hnone : lookupA d k' = none := by
      rcases hv : lookupA d k' with _ | v'
      · rfl
      · rw [hv] at hs
        simp at hs
    by_cases hk : k' = k
    · subst hk
      rw [hnone]
      simp [lookupA]
    · rcases hv : lookupA d k with _ | v' <;> simp [hv, lookupA, hk]

theorem toDictAux_keysNodup {σ : Type} [DecidableEq σ] :
    ∀ (items : List (CtorItem σ)) (d₀ d : List (Label σ × CtorVal)),
      toDictAux d₀ items = some d → (d₀.map Prod.fst).Nodup →
      (d.map Prod.fst).Nodup := by
  intro items
  induction items with
  | nil =>
      intro d₀ d h hnd
      rcases h with ⟨⟩
      exact hnd
  | cons it t ih =>
      intro d₀ d h hnd
      cases it with
      | pair k v => exact ih (dictUpd d₀ k v) d h (dictUpd_keysNodup hnd)
      | nonPair n => cases h

theorem toDictAux_lookup {σ : Type} [DecidableEq σ] (k : Label σ) :
    ∀ (items : List (CtorItem σ)) (d₀ d : List (Label σ × CtorVal)),
      toDictAux d₀ items = some d →
      lookupA d k = items.foldl (fun acc it =>
        match it with
        | .pair k' v => if k' = k then some v else acc
        | .nonPair _ => acc) (lookupA d₀ k) := by
  intro items
  induction items with
  | nil =>
      intro d₀ d h
      rcases h with ⟨⟩
      rfl
  | cons it t ih =>
      intro d₀ d h
      cases it with
      | pair k' v =>
          have := ih (dictUpd d₀ k' v) d h
          rw [this, dictUpd_lookup]
          rfl
      | nonPair n => cases h

theorem toDict_lookup {σ : Type} [DecidableEq σ] {items : List (CtorItem σ)}
    {d : List (Label σ × CtorVal)} (h : toDict items = some d) (k : Label σ) :
    lookupA d k = lastBinding items k :=
  toDictAux_lookup k items [] d h

theorem toDictAux_none_iff {σ : Type} [DecidableEq σ] :
    ∀ (items : List (CtorItem σ)) (d₀ : List (Label σ × CtorVal)),
      toDictAux d₀ items = none ↔ ∃ n, CtorItem.nonPair n ∈ items := by
  intro items
  induction items with
  | nil =>
      intro d₀
      simp [toDictAux]
  | cons it t ih =>
      intro d₀
      cases it with
      | pair k v =>
          show toDictAux (dictUpd d₀ k v) t = none ↔ _
          rw [ih]
          constructor
          · rintro ⟨n, hn⟩
            exact ⟨n, by simp [hn]⟩
          · rintro ⟨n, hn⟩
            rcases List.mem_cons.mp hn with hc | hc
            · cases hc
            · exact ⟨n, hc⟩
      | nonPair n =>
          show (none : Option (List (Label σ × CtorVal))) = none ↔ _
          simp

theorem lookupA_of_keysNodup {α β : Type} [DecidableEq α]
    {d : List (α × β)} {k : α} {v : β} (hnd : (d.map Prod.fst).Nodup)
    (h : (k, v) ∈ d) : lookupA d k = some v := by
  induction d with
  | nil => simp at h
  | cons e t ih =>
      rcases e with ⟨k', v'⟩
      rcases List.mem_cons.mp h with hc | hc
      · rcases Prod.mk.injEq .. ▸ hc with ⟨rfl, rfl⟩
        simp [lookupA]
      · have hk : k' ≠ k := by
          intro hk
          subst hk
          rw [List.map_cons] at hnd
          have := (List.nodup_cons.mp hnd).1
          exact this (List.mem_map.mpr ⟨(k', v), hc, rfl⟩)
        simp only [lookupA, if_neg hk]
        exact ih (List.nodup_cons.mp (List.map_cons .. ▸ hnd)).2 hc

/-- C5 (amended): the constructor fails with `InvalidArgument` for every
non-collection argument and succeeds on `None`; for a collection of items it
fails with the `InvalidValue` error when some item is not a key-value pair,
and otherwise its behaviour is decided by the *dict conversion* of the items,
in which a later duplicate key overrides an earlier binding: it fails with
`InvalidValue` when some surviving binding holds an invalid value, and
succeeds — returning exactly the converted dict — when every surviving
binding holds an `nfa` instance or a non-empty list/tuple of `nfa`
instances.  (The original claim, quantifying over every value occurring in
the collection, is refuted by `claim_C5_counterexample`.) -/
theorem claim_C5_amended {σ : Type} [DecidableEq σ] (items : List (CtorItem σ)) :
    (nfaNew (CtorArg.notCollection : CtorArg σ) =
      Except.error "argument must be a collection") ∧
    (nfaNew (CtorArg.noneArg : CtorArg σ) = Except.ok []) ∧
    ((∃ n, CtorItem.nonPair n ∈ items) →
      nfaNew (CtorArg.coll items) = Except.error
        "values must be nfa instances or non-empty lists/tuples of nfa instances") ∧
    ((¬ ∃ n, CtorItem.nonPair n ∈ items) →
      ((∃ k v, lastBinding items k = some v ∧ validVal v = false) →
        nfaNew (CtorArg.coll items) = Except.error
          "values must be nfa instances or non-empty lists/tuples of nfa instances") ∧
      ((∀ k v, lastBinding items k = some v → validVal v = true) →
        ∃ d, nfaNew (CtorArg.coll items) = Except.ok d ∧
          ∀ k, lookupA d k = lastBinding items k)) := by
  refine ⟨rfl, rfl, ?_, ?_⟩
  · intro hnp
    have hnone : toDict items = none := (toDictAux_none_iff items []).mpr hnp
    show (match toDict items with
          | none => Except.error
              "values must be nfa instances or non-empty lists/tuples of nfa instances"
          | some d =>
              if d.all (fun e => validVal e.2) then Except.ok d
              else Except.error
                "values must be nfa instances or non-empty lists/tuples of nfa instances") = _
    rw [hnone]
  · intro hnp
    rcases hd : toDict items with _ | d
    · exact absurd ((toDictAux_none_iff items []).mp hd) hnp
    · have hnd : (d.map Prod.fst).Nodup :=
        toDictAux_keysNodup items [] d hd (by simp)
      constructor
      · rintro ⟨k, v, hlb, hbad⟩
        have hmem : (k, v) ∈ d := lookupA_mem (by rw [toDict_lookup hd k, hlb])
        have hall : d.all (fun e => validVal e.2) = false := by
          rcases hcase : d.all (fun e => validVal e.2) with _ | _
          · rfl
          · have := List.all_eq_true.mp hcase (k, v) hmem
            rw [this] at hbad
            cases hbad
        show (match toDict items with
              | none => Except.error
                  "values must be nfa instances or non-empty lists/tuples of nfa instances"
              | some d =>
                  if d.all (fun e => validVal e.2) then Except.ok d
                  else Except.error
                    "values must be nfa instances or non-empty lists/tuples of nfa instances") = _
        rw [hd]
        simp only [hall, Bool.false_eq_true, if_false]
      · intro hgood
        refine ⟨d, ?_, fun k => toDict_lookup hd k⟩
        have hall : d.all (fun e => validVal e.2) = true := by
          rw [List.all_eq_true]
          rintro ⟨k, v⟩ hmem
          have hlk : lookupA d k = some v := lookupA_of_keysNodup hnd hmem
          rw [toDict_lookup hd k] at hlk
          exact hgood k v hlk
        show (match toDict items with
              | none => Except.error
                  "values must be nfa instances or non-empty lists/tuples of nfa instances"
              | some d =>
                  if d.all (fun e => validVal e.2) then Except.ok d
                  else Except.error
                    "values must be nfa instances or non-empty lists/tuples of nfa instances") = _
        rw [hd]
        simp only [hall, if_true]

/-- The lazy branch of `nfa.__call__` over raw inputs that may contain the
epsilon marker: examining an input position that holds epsilon raises
`ValueError('input cannot contain epsilon')`, which propagates out of the
recursion (modelled by the `Except` error short-circuiting the scan). -/
def matchLazyE {σ : Type} [DecidableEq σ] (g : Graph σ) (full : Bool) :
    List (Label σ) → Nat → Nat → Except String (Option Nat)
  | [], len, i =>
      .ok (if (eClosure g i).any (fun j => accepting g j) then some len else none)
  | l :: rest, len, i =>
      if l = Label.eps then .error "input cannot contain epsilon"
      else
        match (eClosure g i).mapM (fun j =>
          (match (if hasKey g j l then
              (step g j l).mapM (fun k => matchLazyE g full rest (len + 1) k)
            else Except.ok []) with
          | Except.error e => Except.error e
          | Except.ok recs =>
              Except.ok ((if accepting g j && !full then [len] else []) ++
                recs.flatMap Option.toList) : Except String (List Nat))) with
        | .error e => .error e
        | .ok parts =>
            .ok (match maxN ((if accepting g i && !full then [len] else []) ++
                parts.flatMap id) with
              | some m => some m
              | none => if accepting g i && !full then some 0 else none)
termination_by x _ _ => x.length

/-- Table lookup by raw label: the compiled table is keyed by non-epsilon
symbols only, so looking up the epsilon marker finds nothing. -/
def lookupTransE {σ : Type} [DecidableEq σ] (c : Compiled σ) (l : Label σ)
    (u : Nat) : List Nat :=
  match l with
  | .eps => []
  | .sym s => lookupTrans c (s, u)

/-- The compiled branch of `nfa.__call__` over raw inputs: it performs no
epsilon check, treating the marker as an ordinary unmatched key. -/
def matchCompiledE {σ : Type} [DecidableEq σ] (c : Compiled σ) (full : Bool) :
    List (Label σ) → Nat → List Nat → List Nat → Option Nat
  | [], len, ids, lengths =>
      if ids.any (fun u => decide (u ∈ c.accepts)) then maxN (lengths ++ [len])
      else if full then none else maxN lengths
  | l :: rest, len, ids, lengths =>
      let lengths' :=
        if !full && ids.any (fun u => decide (u ∈ c.accepts)) then lengths ++ [len]
        else lengths
      let ids' := ids.foldl (fun acc u => addAll acc (lookupTransE c l u)) []
      if ids' = [] then (if full then none else maxN lengths')
      else matchCompiledE c full rest (len + 1) ids' lengths'

/-- An `nfa` instance viewed as a machine: its state graph, its own id, and
the optional cached `_compiled`/`_states` attributes. -/
structure Machine (σ : Type) : Type where
  graph : Graph σ
  start : Nat
  compiled : Option (Compiled σ)

/-- `nfa.__call__`: use the compiled table when one is cached on the
instance, otherwise fall back to the recursive lazy traversal. -/
def callStd {σ : Type} [DecidableEq σ] (m : Machine σ) (x : List (Label σ))
    (full : Bool) : Except String (Option Nat) :=
  match m.compiled with
  | some c => .ok (matchCompiledE c full x 0 [m.start] [])
  | none => matchLazyE m.graph full x 0 m.start

theorem mapM_ok {α β : Type} (f : α → Except String β) (gf : α → β) :
    ∀ (l : List α), (∀ a ∈ l, f a = .ok (gf a)) → l.mapM f = .ok (l.map gf) := by
  intro l
  induction l with
  | nil => intro _; rfl
  | cons a t ih =>
      intro h
      rw [List.mapM_cons, h a (by simp), ih (fun a' ha' => h a' (by simp [ha']))]
      rfl

theorem flatMap_map_toList {α : Type} (f : α → Option Nat) (l : List α) :
    (l.map f).flatMap Option.toList = l.flatMap (fun a => (f a).toList) := by
  induction l with
  | nil => rfl
  | cons a t ih =>
      simp only [List.map_cons, List.flatMap_cons, ih]

theorem flatMap_id_map {α : Type} (f : α → List Nat) (l : List α) :
    (l.map f).flatMap id = l.flatMap f := by
  induction l with
  | nil => rfl
  | cons a t ih =>
      simp only [List.map_cons, List.flatMap_cons, ih]
      rfl

theorem matchLazyE_nil {σ : Type} [DecidableEq σ] (g : Graph σ) (full : Bool)
    (len i : Nat) :
    matchLazyE g full [] len i =
      .ok (if (eClosure g i).any (fun j => accepting g j) then some len else none) := by
  simp [matchLazyE]

theorem matchLazyE_cons {σ : Type} [DecidableEq σ] (g : Graph σ) (full : Bool)
    (l : Label σ) (rest : List (Label σ)) (len i : Nat) :
    matchLazyE g full (l :: rest) len i =
      if l = Label.eps then .error "input cannot contain epsilon"
      else
        match (eClosure g i).mapM (fun j =>
          (match (if hasKey g j l then
              (step g j l).mapM (fun k => matchLazyE g full rest (len + 1) k)
            else Except.ok []) with
          | Except.error e => Except.error e
          | Except.ok recs =>
              Except.ok ((if accepting g j && !full then [len] else []) ++
                recs.flatMap Option.toList) : Except String (List Nat))) with
        | .error e => .error e
        | .ok parts =>
            .ok (match maxN ((if accepting g i && !full then [len] else []) ++
                parts.flatMap id) with
              | some m => some m
              | none => if accepting g i && !full then some 0 else none) := by
  rw [matchLazyE]

theorem matchLazyE_sym {σ : Type} [DecidableEq σ] (g : Graph σ) (full : Bool) :
    ∀ (x : List σ) (len i : Nat),
      matchLazyE g full (x.map Label.sym) len i = .ok (matchLazy g full x len i) := by
  intro x
  induction x with
  | nil =>
      intro len i
      rw [matchLazy_nil]
      exact matchLazyE_nil g full len i
  | cons s rest ih =>
      intro len i
      rw [matchLazy_cons]
      show matchLazyE g full (Label.sym s :: rest.map Label.sym) len i = _
      rw [matchLazyE_cons]
      rw [if_neg (by intro h; cases h)]
      have hmapm : (eClosure g i).mapM (fun j =>
          (match (if hasKey g j (Label.sym s) then
              (step g j (Label.sym s)).mapM
                (fun k => matchLazyE g full (rest.map Label.sym) (len + 1) k)
            else Except.ok []) with
          | Except.error e => Except.error e
          | Except.ok recs =>
              Except.ok ((if accepting g j && !full then [len] else []) ++
                recs.flatMap Option.toList) : Except String (List Nat))) =
          .ok ((eClosure g i).map (lazyBranch g full rest len s)) := by
        refine mapM_ok _ _ (eClosure g i) ?_
        intro j _
        by_cases hk : hasKey g j (Label.sym s) = true
        · rw [if_pos hk]
          rw [mapM_ok _ (fun k => matchLazy g full rest (len + 1) k) _
            (fun k _ => ih (len + 1) k)]
          show Except.ok ((if accepting g j && !full then [len] else []) ++
            (List.map (fun k => matchLazy g full rest (len + 1) k)
              (step g j (Label.sym s))).flatMap Option.toList) = _
          unfold lazyBranch
          rw [if_pos hk, flatMap_map_toList]
        · rw [if_neg hk]
          show Except.ok ((if accepting g j && !full then [len] else []) ++
            ([] : List (Option Nat)).flatMap Option.toList) = _
          unfold lazyBranch
          rw [if_neg hk]
          simp
      rw [hmapm]
      show Except.ok (match maxN ((if accepting g i && !full then [len] else []) ++
          (List.map (lazyBranch g full rest len s) (eClosure g i)).flatMap id) with
        | some m => some m
        | none => if accepting g i && !full then some 0 else none) = _
      rw [flatMap_id_map]

theorem matchCompiledE_sym {σ : Type} [DecidableEq σ] (c : Compiled σ) (full : Bool) :
    ∀ (x : List σ) (len : Nat) (ids lengths : List Nat),
      matchCompiledE c full (x.map Label.sym) len ids lengths =
        matchCompiled c full x len ids lengths := by
  intro x
  induction x with
  | nil =>
      intro len ids lengths
      rw [matchCompiled_nil]
      rfl
  | cons s rest ih =>
      intro len ids lengths
      rw [matchCompiled_cons]
      show (if ids.foldl (fun acc u => addAll acc (lookupTransE c (Label.sym s) u)) [] = []
          then (if full then none
            else maxN (if !full && ids.any (fun u => decide (u ∈ c.accepts)) then
              lengths ++ [len] else lengths))
          else matchCompiledE c full (rest.map Label.sym) (len + 1)
            (ids.foldl (fun acc u => addAll acc (lookupTransE c (Label.sym s) u)) [])
            (if !full && ids.any (fun u => decide (u ∈ c.accepts)) then
              lengths ++ [len] else lengths)) = _
      have hlk : ∀ u, lookupTransE c (Label.sym s) u = lookupTrans c (s, u) :=
        fun u => rfl
      have hfold : (ids.foldl (fun acc u => addAll acc (lookupTransE c (Label.sym s) u)) []) =
          ids.foldl (fun acc u => addAll acc (lookupTrans c (s, u))) [] := rfl
      rw [hfold, ih]

/-- C4 fails on the code: with a cached compiled table the matcher performs
no epsilon check at all (the marker is treated as an ordinary symbol that
matches no table key), and even the lazy back-end raises only when its
traversal actually examines the input position holding the marker — an
epsilon after the position where matching gets stuck goes unnoticed.  Both
facts are exhibited on concrete machines, where the call returns an ordinary
result instead of failing. -/
theorem claim_C4_counterexample :
    callStd (⟨[(0, ⟨[(Label.sym (0 : Nat), Val.one 1)], none⟩), (1, ⟨[], none⟩)],
        0, some (compileNfa [(0, ⟨[(Label.sym (0 : Nat), Val.one 1)], none⟩),
          (1, ⟨[], none⟩)] 0)⟩ : Machine Nat)
      [Label.eps] true = Except.ok none ∧
    callStd (⟨[(0, ⟨[], none⟩)], 0, none⟩ : Machine Nat)
      [Label.sym 5, Label.eps] true = Except.ok none := by
  constructor
  · rfl
  · show matchLazyE [(0, ⟨[], none⟩)] true [Label.sym 5, Label.eps] 0 0 = Except.ok none
    rw [matchLazyE_cons]
    rfl

/-- C4 (amended): when no compiled table is cached, the lazy back-end raises
`ValueError('input cannot contain epsilon')` as soon as the position it
examines holds the epsilon marker — in particular, for every graph, every
start state, both values of `full` and any suffix, an input beginning with
the epsilon marker makes the call fail. -/
theorem claim_C4_amended {σ : Type} [DecidableEq σ] (g : Graph σ) (i : Nat)
    (rest : List (Label σ)) (full : Bool) :
    callStd (⟨g, i, none⟩ : Machine σ) (Label.eps :: rest) full =
      Except.error "input cannot contain epsilon" := by
  show matchLazyE g full (Label.eps :: rest) 0 i = _
  rw [matchLazyE_cons]
  rw [if_pos rfl]

/-- `nfa.states()` with no argument: compile first when the `_states`
attribute is absent, then return the cached state list. -/
def statesMeth {σ : Type} [DecidableEq σ] (m : Machine σ) : Machine σ × List Nat :=
  match m.compiled with
  | some c => (m, c.states)
  | none =>
      let c := compileNfa m.graph m.start
      ({ m with compiled := some c }, c.states)

/-- `nfa.symbols()`: compile first when the `_compiled` attribute is absent,
then collect the first coordinates of the tuple keys of the table. -/
def symbolsMeth {σ : Type} [DecidableEq σ] (m : Machine σ) : Machine σ × List σ :=
  match m.compiled with
  | some c => (m, (c.trans.map (fun e => e.1.1)).dedup)
  | none =>
      let c := compileNfa m.graph m.start
      ({ m with compiled := some c }, (c.trans.map (fun e => e.1.1)).dedup)

/-- C9: calling `states()` with no argument (or `symbols()`) on an instance
that has no cached table compiles the automaton as a side effect — the
returned instance carries the compiled table (and state list) for its own
start state, its graph and start are untouched, and every subsequent match
call on it takes the compiled-table branch of `__call__` instead of the lazy
branch, even though `compile()` was never invoked explicitly. -/
theorem claim_C9_states_symbols_compile {σ : Type} [DecidableEq σ]
    (m : Machine σ) (h : m.compiled = none) :
    ((statesMeth m).1.compiled = some (compileNfa m.graph m.start) ∧
      (statesMeth m).1.graph = m.graph ∧ (statesMeth m).1.start = m.start ∧
      (statesMeth m).2 = (compileNfa m.graph m.start).states ∧
      ∀ (x : List (Label σ)) (full : Bool),
        callStd (statesMeth m).1 x full =
          Except.ok (matchCompiledE (compileNfa m.graph m.start) full x 0 [m.start] [])) ∧
    ((symbolsMeth m).1.compiled = some (compileNfa m.graph m.start) ∧
      (symbolsMeth m).1.graph = m.graph ∧ (symbolsMeth m).1.start = m.start ∧
      ∀ (x : List (Label σ)) (full : Bool),
        callStd (symbolsMeth m).1 x full =
          Except.ok (matchCompiledE (compileNfa m.graph m.start) full x 0 [m.start] [])) := by
  have hs : statesMeth m =
      ({ m with compiled := some (compileNfa m.graph m.start) },
        (compileNfa m.graph m.start).states) := by
    unfold statesMeth
    rw [h]
  have hy : symbolsMeth m =
      ({ m with compiled := some (compileNfa m.graph m.start) },
        ((compileNfa m.graph m.start).trans.map (fun e => e.1.1)).dedup) := by
    unfold symbolsMeth
    rw [h]
  rw [hs, hy]
  exact ⟨⟨rfl, rfl, rfl, rfl, fun x full => rfl⟩, ⟨rfl, rfl, rfl, fun x full => rfl⟩⟩

/-- Witness for C9 on a concrete one-transition machine with no cached
table. -/
theorem claim_C9_witness :
    ((⟨[(0, ⟨[(Label.sym (7 : Nat), Val.one 1)], none⟩), (1, ⟨[], none⟩)], 0,
        none⟩ : Machine Nat).compiled = none) ∧
    (statesMeth (⟨[(0, ⟨[(Label.sym (7 : Nat), Val.one 1)], none⟩),
        (1, ⟨[], none⟩)], 0, none⟩ : Machine Nat)).1.compiled =
      some (compileNfa [(0, ⟨[(Label.sym (7 : Nat), Val.one 1)], none⟩),
        (1, ⟨[], none⟩)] 0) := by
  exact ⟨rfl, (claim_C9_states_symbols_compile _ rfl).1.1⟩

/-- The traversal state of `nfa.copy`: the `_memo` mapping from original id
to copy id, the graph of copies built so far, and the next fresh id. -/
structure CopySt (σ : Type) : Type where
  memo : List (Nat × Nat)
  out : Graph σ
  next : Nat

/-- `nfa.copy(_memo)`: return the memoized copy when the node was already
copied; otherwise allocate a fresh instance, record it in the memo *before*
descending (so cycles terminate), copy the `_accept` attribute, and rebuild
every entry — a scalar value by a recursive copy, a list or tuple value as a
*tuple* of recursive copies.  The fuel bounds the recursion depth, which
never exceeds the number of distinct reachable ids (the memo grows at every
level). -/
def copyAux {σ : Type} [DecidableEq σ] (g : Graph σ) :
    Nat → CopySt σ → Nat → CopySt σ × Nat
  | 0, st, _ => (st, 0)
  | fuel + 1, st, i =>
      match lookupA st.memo i with
      | some n => (st, n)
      | none =>
          let n := st.next
          let st1 : CopySt σ := ⟨st.memo ++ [(i, n)], st.out, st.next + 1⟩
          let r := (getNode g i).entries.foldl
            (fun (acc : CopySt σ × List (Label σ × Val)) e =>
              match e.2 with
              | Val.one j =>
                  let r1 := copyAux g fuel acc.1 j
                  (r1.1, acc.2 ++ [(e.1, Val.one r1.2)])
              | Val.lst js =>
                  let r1 := js.foldl (fun (acc2 : CopySt σ × List Nat) j =>
                      let r2 := copyAux g fuel acc2.1 j
                      (r2.1, acc2.2 ++ [r2.2])) (acc.1, [])
                  (r1.1, acc.2 ++ [(e.1, Val.tup r1.2)])
              | Val.tup js =>
                  let r1 := js.foldl (fun (acc2 : CopySt σ × List Nat) j =>
                      let r2 := copyAux g fuel acc2.1 j
                      (r2.1, acc2.2 ++ [r2.2])) (acc.1, [])
                  (r1.1, acc.2 ++ [(e.1, Val.tup r1.2)])) (st1, [])
          (⟨r.1.memo, r.1.out ++ [(n, ⟨r.2, (getNode g i).accept⟩)], r.1.next⟩, n)

/-- Copying a list of successors in order, threading the traversal state. -/
def copyList {σ : Type} [DecidableEq σ] (g : Graph σ) (fuel : Nat)
    (st : CopySt σ) (js : List Nat) : CopySt σ × List Nat :=
  js.foldl (fun (acc2 : CopySt σ × List Nat) j =>
    let r2 := copyAux g fuel acc2.1 j
    (r2.1, acc2.2 ++ [r2.2])) (st, [])

/-- Rebuilding the entry list of one node, threading the traversal state. -/
def copyEntries {σ : Type} [DecidableEq σ] (g : Graph σ) (fuel : Nat)
    (st : CopySt σ) (entries : List (Label σ × Val)) :
    CopySt σ × List (Label σ × Val) :=
  entries.foldl
    (fun (acc : CopySt σ × List (Label σ × Val)) e =>
      match e.2 with
      | Val.one j =>
          let r1 := copyAux g fuel acc.1 j
          (r1.1, acc.2 ++ [(e.1, Val.one r1.2)])
      | Val.lst js =>
          let r1 := copyList g fuel acc.1 js
          (r1.1, acc.2 ++ [(e.1, Val.tup r1.2)])
      | Val.tup js =>
          let r1 := copyList g fuel acc.1 js
          (r1.1, acc.2 ++ [(e.1, Val.tup r1.2)])) (st, [])

/-- `nfa.copy()` at the root: empty memo, fresh ids, adequate fuel. -/
def copyNfa {σ : Type} [DecidableEq σ] (g : Graph σ) (i : Nat) : Graph σ × Nat :=
  let r := copyAux g ((allSucc g).length + 2) ⟨[], [], 0⟩ i
  (r.1.out, r.2)

/-- How `copy` renames one dict value: scalar successors stay scalar, list
and tuple successors are both rebuilt as tuples. -/
def mapValCopy (f : Nat → Nat) : Val → Val
  | .one j => .one (f j)
  | .lst js => .tup (js.map f)
  | .tup js => .tup (js.map f)

/-- The successor ids stored in one node. -/
def nodeSucc {σ : Type} (g : Graph σ) (i : Nat) : List Nat :=
  (getNode g i).entries.flatMap (fun e => valIds e.2)

theorem copyAux_succ {σ : Type} [DecidableEq σ] (g : Graph σ) (fuel : Nat)
    (st : CopySt σ) (i : Nat) :
    copyAux g (fuel + 1) st i =
      match lookupA st.memo i with
      | some n => (st, n)
      | none =>
          let r := copyEntries g fuel ⟨st.memo ++ [(i, st.next)], st.out, st.next + 1⟩
            (getNode g i).entries
          (⟨r.1.memo, r.1.out ++ [(st.next, ⟨r.2, (getNode g i).accept⟩)], r.1.next⟩,
            st.next) := by
  rfl

theorem mem_allSucc_of_nodeSucc {σ : Type} {g : Graph σ} {j x : Nat}
    (h : x ∈ nodeSucc g j) : x ∈ allSucc g := by
  unfold nodeSucc at h
  rcases List.mem_flatMap.mp h with ⟨e, he, hx⟩
  rcases hn : lookupA g j with _ | nd
  · unfold getNode at he
    rw [hn] at he
    simp at he
  · have hng : (j, nd) ∈ g := lookupA_mem hn
    unfold getNode at he
    rw [hn] at he
    unfold allSucc
    rw [List.mem_flatMap]
    exact ⟨(j, nd), hng, List.mem_flatMap.mpr ⟨e, he, hx⟩⟩

/-- Well-formedness of the copy state: memo keys and values are
duplicate-free and all values are below the fresh-id counter. -/
def CWf {σ : Type} (st : CopySt σ) : Prop :=
  (st.memo.map Prod.fst).Nodup ∧ (st.memo.map Prod.snd).Nodup ∧
  (∀ v ∈ st.memo.map Prod.snd, v < st.next)

/-- Extension of the copy state: the memo only grows at the end, the counter
only increases, and every new node id in the output lies in the fresh
interval. -/
def CExt {σ : Type} (st st' : CopySt σ) : Prop :=
  (∃ t, st'.memo = st.memo ++ t) ∧ st.next ≤ st'.next ∧
  (∀ n ∈ st'.out.map Prod.fst,
    n ∈ st.out.map Prod.fst ∨ (st.next ≤ n ∧ n < st'.next))

theorem cExt_refl {σ : Type} (st : CopySt σ) : CExt st st :=
  ⟨⟨[], by simp⟩, le_refl _, fun n hn => Or.inl hn⟩

theorem cExt_trans {σ : Type} {a b c : CopySt σ} (h1 : CExt a b) (h2 : CExt b c) :
    CExt a c := by
  obtain ⟨⟨t1, ht1⟩, hn1, ho1⟩ := h1
  obtain ⟨⟨t2, ht2⟩, hn2, ho2⟩ := h2
  refine ⟨⟨t1 ++ t2, by rw [ht2, ht1, List.append_assoc]⟩, le_trans hn1 hn2, ?_⟩
  intro n hn
  rcases ho2 n hn with h | ⟨hl, hr⟩
  · rcases ho1 n h with h' | ⟨hl', hr'⟩
    · exact Or.inl h'
    · exact Or.inr ⟨hl', lt_of_lt_of_le hr' hn2⟩
  · exact Or.inr ⟨le_trans hn1 hl, hr⟩

theorem lookup_stable {α β : Type} [DecidableEq α] {m m' : List (α × β)} {k : α}
    {v : β} (h : lookupA m k = some v) (hext : ∃ t, m' = m ++ t) :
    lookupA m' k = some v := by
  obtain ⟨t, rfl⟩ := hext
  rw [lookupA_append, h]

theorem snd_nodup_inj {α β : Type} {m : List (α × β)}
    (hnd : (m.map Prod.snd).Nodup) {a b : α} {v : β}
    (ha : (a, v) ∈ m) (hb : (b, v) ∈ m) : a = b := by
  induction m with
  | nil => simp at ha
  | cons e t ih =>
      rcases e with ⟨k, w⟩
      rw [List.map_cons] at hnd
      have hnd' := List.nodup_cons.mp hnd
      rcases List.mem_cons.mp ha with hc | hc <;> rcases List.mem_cons.mp hb with hc' | hc'
      · injection hc with h1 h2
        injection hc' with h3 h4
        rw [h1, h3]
      · injection hc with h1 h2
        subst h2
        exact absurd (List.mem_map.mpr ⟨(b, v), hc', rfl⟩) hnd'.1
      · injection hc' with h1 h2
        subst h2
        exact absurd (List.mem_map.mpr ⟨(a, v), hc, rfl⟩) hnd'.1
      · exact ih hnd'.2 hc hc'

/-- Relation between an original dict value and its copy, relative to a
memo: scalar successors are mapped through the memo, list and tuple
successors become tuples of memo images. -/
def ValCopyRel (m : List (Nat × Nat)) : Val → Val → Prop
  | .one j, .one nj => lookupA m j = some nj
  | .lst js, .tup njs => List.Forall₂ (fun j nj => lookupA m j = some nj) js njs
  | .tup js, .tup njs => List.Forall₂ (fun j nj => lookupA m j = some nj) js njs
  | _, _ => False

theorem copyList_acc {σ : Type} [DecidableEq σ] (g : Graph σ) (fuel : Nat)
    (js : List Nat) : ∀ (st : CopySt σ) (acc0 : List Nat),
    js.foldl (fun (acc2 : CopySt σ × List Nat) j =>
        let r2 := copyAux g fuel acc2.1 j
        (r2.1, acc2.2 ++ [r2.2])) (st, acc0)
      = ((copyList g fuel st js).1, acc0 ++ (copyList g fuel st js).2) := by
  induction js with
  | nil => intro st acc0; simp [copyList]
  | cons j js ih =>
      intro st acc0
      rw [List.foldl_cons]
      unfold copyList
      rw [List.foldl_cons]
      rw [ih, ih ((copyAux g fuel st j).1) ([] ++ [(copyAux g fuel st j).2])]
      simp

theorem copyList_cons {σ : Type} [DecidableEq σ] (g : Graph σ) (fuel : Nat)
    (st : CopySt σ) (j : Nat) (js : List Nat) :
    copyList g fuel st (j :: js) =
      ((copyList g fuel (copyAux g fuel st j).1 js).1,
        (copyAux g fuel st j).2 :: (copyList g fuel (copyAux g fuel st j).1 js).2) := by
  conv_lhs => unfold copyList
  rw [List.foldl_cons]
  rw [copyList_acc]
  simp

theorem copyEntries_acc {σ : Type} [DecidableEq σ] (g : Graph σ) (fuel : Nat)
    (es : List (Label σ × Val)) : ∀ (st : CopySt σ) (acc0 : List (Label σ × Val)),
    es.foldl
      (fun (acc : CopySt σ × List (Label σ × Val)) e =>
        match e.2 with
        | Val.one j =>
            let r1 := copyAux g fuel acc.1 j
            (r1.1, acc.2 ++ [(e.1, Val.one r1.2)])
        | Val.lst js =>
            let r1 := copyList g fuel acc.1 js
            (r1.1, acc.2 ++ [(e.1, Val.tup r1.2)])
        | Val.tup js =>
            let r1 := copyList g fuel acc.1 js
            (r1.1, acc.2 ++ [(e.1, Val.tup r1.2)])) (st, acc0)
      = ((copyEntries g fuel st es).1, acc0 ++ (copyEntries g fuel st es).2) := by
  induction es with
  | nil => intro st acc0; simp [copyEntries]
  | cons e es ih =>
      intro st acc0
      rw [List.foldl_cons]
      unfold copyEntries
      rw [List.foldl_cons]
      rcases e with ⟨lab, v⟩
      rcases v with j | js | js <;>
        simp only [] <;> rw [ih, ih] <;> simp

/-- The memo maps an original id to a copy id. -/
def memImg (m : List (Nat × Nat)) (j nj : Nat) : Prop := lookupA m j = some nj

/-- One rebuilt entry: same label, value related through the memo. -/
def entImg {σ : Type} [DecidableEq σ] (m : List (Nat × Nat))
    (e e' : Label σ × Val) : Prop :=
  e'.1 = e.1 ∧ ValCopyRel m e.2 e'.2

theorem memImg_stable {m m' : List (Nat × Nat)} {j nj : Nat}
    (h : memImg m j nj) (hext : ∃ t, m' = m ++ t) : memImg m' j nj :=
  lookup_stable h hext

theorem valCopyRel_stable {m m' : List (Nat × Nat)}
    {v v' : Val} (h : ValCopyRel m v v') (hext : ∃ t, m' = m ++ t) :
    ValCopyRel m' v v' := by
  rcases v with j | js | js <;> rcases v' with nj | njs | njs <;>
    simp only [ValCopyRel] at h ⊢ <;> first
    | exact lookup_stable h hext
    | exact h.imp (fun a b hj => lookup_stable hj hext)

theorem entImg_stable {σ : Type} [DecidableEq σ] {m m' : List (Nat × Nat)}
    {e e' : Label σ × Val} (h : entImg m e e') (hext : ∃ t, m' = m ++ t) :
    entImg m' e e' :=
  ⟨h.1, valCopyRel_stable h.2 hext⟩

theorem copyEntries_cons {σ : Type} [DecidableEq σ] (g : Graph σ) (fuel : Nat)
    (st : CopySt σ) (e : Label σ × Val) (es : List (Label σ × Val)) :
    copyEntries g fuel st (e :: es) =
      (match e.2 with
        | Val.one j =>
            let r := copyAux g fuel st j
            ((copyEntries g fuel r.1 es).1,
              (e.1, Val.one r.2) :: (copyEntries g fuel r.1 es).2)
        | Val.lst js =>
            let r := copyList g fuel st js
            ((copyEntries g fuel r.1 es).1,
              (e.1, Val.tup r.2) :: (copyEntries g fuel r.1 es).2)
        | Val.tup js =>
            let r := copyList g fuel st js
            ((copyEntries g fuel r.1 es).1,
              (e.1, Val.tup r.2) :: (copyEntries g fuel r.1 es).2)) := by
  conv_lhs => unfold copyEntries
  rw [List.foldl_cons]
  rcases e with ⟨lab, v⟩
  rcases v with j | js | js <;> simp only [] <;> rw [copyEntries_acc] <;> simp

theorem bound_mono {σ : Type} {st st' : CopySt σ} {U : List Nat} {fuel : Nat}
    (hext : ∃ t, st'.memo = st.memo ++ t)
    (hb : U.dedup.length + 1 ≤ (st.memo.map Prod.fst).length + fuel) :
    U.dedup.length + 1 ≤ (st'.memo.map Prod.fst).length + fuel := by
  obtain ⟨t, ht⟩ := hext
  rw [ht]
  simp only [List.map_append, List.length_append]
  omega

theorem forall₂_mem_left {α β : Type} {R : α → β → Prop} {l : List α} {l' : List β}
    (h : List.Forall₂ R l l') {a : α} (ha : a ∈ l) : ∃ b ∈ l', R a b := by
  induction h with
  | nil => simp at ha
  | cons hab _ ih =>
      rcases List.mem_cons.mp ha with rfl | ha'
      · exact ⟨_, List.mem_cons_self .., hab⟩
      · rcases ih ha' with ⟨b, hb, hr⟩
        exact ⟨b, List.mem_cons_of_mem _ hb, hr⟩

theorem forall₂_memImg_map {m : List (Nat × Nat)} {js njs : List Nat}
    (h : List.Forall₂ (memImg m) js njs) :
    njs = js.map (fun j => (lookupA m j).getD 0) := by
  induction h with
  | nil => rfl
  | cons hab _ ih =>
      unfold memImg at hab
      simp [ih, hab]

theorem forall₂_entImg_map {σ : Type} [DecidableEq σ] {m : List (Nat × Nat)}
    {es es' : List (Label σ × Val)} (h : List.Forall₂ (entImg m) es es') :
    es' = es.map
      (fun e => (e.1, mapValCopy (fun j => (lookupA m j).getD 0) e.2)) := by
  induction h with
  | nil => rfl
  | cons hab _ ih =>
      rename_i e e' es es' _
      rcases hab with ⟨hlab, hval⟩
      rw [List.map_cons, ← ih]
      have he2 : e'.2 = mapValCopy (fun j => (lookupA m j).getD 0) e.2 := by
        rcases hv : e.2 with j | js | js <;> rcases hv' : e'.2 with nj | njs | njs <;>
          rw [hv, hv'] at hval <;> simp only [ValCopyRel] at hval <;>
          simp only [mapValCopy]
        · rw [hval]
          rfl
        · rw [forall₂_memImg_map hval]
        · rw [forall₂_memImg_map hval]
      calc e' :: es' = (e'.1, e'.2) :: es' := by rw [Prod.mk.eta]
        _ = (e.1, mapValCopy (fun j => (lookupA m j).getD 0) e.2) :: es' := by
            rw [hlab, he2]

theorem forall₂_entImg_lookup {σ : Type} [DecidableEq σ] {m : List (Nat × Nat)}
    {es es' : List (Label σ × Val)} (h : List.Forall₂ (entImg m) es es')
    {j : Nat} (hj : j ∈ es.flatMap (fun e => valIds e.2)) :
    ∃ nj, lookupA m j = some nj := by
  rcases List.mem_flatMap.mp hj with ⟨e, he, hje⟩
  rcases forall₂_mem_left h he with ⟨e', _, ⟨_, hval⟩⟩
  rcases hv : e.2 with k | js | js <;> rcases hv' : e'.2 with nk | njs | njs <;>
    rw [hv, hv'] at hval <;> simp only [ValCopyRel] at hval <;>
    rw [hv] at hje <;> simp only [valIds] at hje
  · rcases List.mem_singleton.mp hje with rfl
    exact ⟨nk, hval⟩
  · rcases forall₂_mem_left hval hje with ⟨nj, _, hr⟩
    exact ⟨nj, hr⟩
  · rcases forall₂_mem_left hval hje with ⟨nj, _, hr⟩
    exact ⟨nj, hr⟩

theorem forall₂_memImg_stable {m m' : List (Nat × Nat)} {js njs : List Nat}
    (h : List.Forall₂ (memImg m) js njs) (hext : ∃ t, m' = m ++ t) :
    List.Forall₂ (memImg m') js njs :=
  h.imp (fun _ _ hab => memImg_stable hab hext)

theorem copyList_spec {σ : Type} [DecidableEq σ] (g : Graph σ) (U : List Nat)
    (fuel : Nat)
    (IH : ∀ (st : CopySt σ) (i : Nat), CWf st →
      (∀ k ∈ st.memo.map Prod.fst, k ∈ U) → i ∈ U →
      U.dedup.length + 1 ≤ (st.memo.map Prod.fst).length + fuel →
      CWf (copyAux g fuel st i).1 ∧ CExt st (copyAux g fuel st i).1 ∧
      (∀ k ∈ (copyAux g fuel st i).1.memo.map Prod.fst, k ∈ U) ∧
      lookupA (copyAux g fuel st i).1.memo i = some (copyAux g fuel st i).2) :
    ∀ (js : List Nat) (st : CopySt σ), CWf st →
      (∀ k ∈ st.memo.map Prod.fst, k ∈ U) → (∀ j ∈ js, j ∈ U) →
      U.dedup.length + 1 ≤ (st.memo.map Prod.fst).length + fuel →
      CWf (copyList g fuel st js).1 ∧ CExt st (copyList g fuel st js).1 ∧
      (∀ k ∈ (copyList g fuel st js).1.memo.map Prod.fst, k ∈ U) ∧
      List.Forall₂ (memImg (copyList g fuel st js).1.memo) js
        (copyList g fuel st js).2 := by
  intro js
  induction js with
  | nil =>
      intro st hwf hkeys _ _
      exact ⟨hwf, cExt_refl st, hkeys, List.Forall₂.nil⟩
  | cons j js ih =>
      intro st hwf hkeys hjs hb
      obtain ⟨hwf1, hext1, hkeys1, hlook1⟩ :=
        IH st j hwf hkeys (hjs j (List.mem_cons_self ..)) hb
      have hb1 := bound_mono hext1.1 hb
      obtain ⟨hwf2, hext2, hkeys2, hfa2⟩ :=
        ih (copyAux g fuel st j).1 hwf1 hkeys1
          (fun x hx => hjs x (List.mem_cons_of_mem _ hx)) hb1
      rw [copyList_cons]
      exact ⟨hwf2, cExt_trans hext1 hext2, hkeys2,
        List.Forall₂.cons (memImg_stable hlook1 hext2.1) hfa2⟩

theorem copyEntries_spec {σ : Type} [DecidableEq σ] (g : Graph σ) (U : List Nat)
    (fuel : Nat)
    (IH : ∀ (st : CopySt σ) (i : Nat), CWf st →
      (∀ k ∈ st.memo.map Prod.fst, k ∈ U) → i ∈ U →
      U.dedup.length + 1 ≤ (st.memo.map Prod.fst).length + fuel →
      CWf (copyAux g fuel st i).1 ∧ CExt st (copyAux g fuel st i).1 ∧
      (∀ k ∈ (copyAux g fuel st i).1.memo.map Prod.fst, k ∈ U) ∧
      lookupA (copyAux g fuel st i).1.memo i = some (copyAux g fuel st i).2) :
    ∀ (es : List (Label σ × Val)) (st : CopySt σ), CWf st →
      (∀ k ∈ st.memo.map Prod.fst, k ∈ U) →
      (∀ e ∈ es, ∀ j ∈ valIds e.2, j ∈ U) →
      U.dedup.length + 1 ≤ (st.memo.map Prod.fst).length + fuel →
      CWf (copyEntries g fuel st es).1 ∧ CExt st (copyEntries g fuel st es).1 ∧
      (∀ k ∈ (copyEntries g fuel st es).1.memo.map Prod.fst, k ∈ U) ∧
      List.Forall₂ (entImg (copyEntries g fuel st es).1.memo) es
        (copyEntries g fuel st es).2 := by
  intro es
  induction es with
  | nil =>
      intro st hwf hkeys _ _
      exact ⟨hwf, cExt_refl st, hkeys, List.Forall₂.nil⟩
  | cons e es ih =>
      intro st hwf hkeys hes hb
      rcases e with ⟨lab, v⟩
      have hes' : ∀ e ∈ es, ∀ j ∈ valIds e.2, j ∈ U :=
        fun e he j hj => hes e (List.mem_cons_of_mem _ he) j hj
      rcases v with j | js | js
      · obtain ⟨hwf1, hext1, hkeys1, hlook1⟩ :=
          IH st j hwf hkeys
            (hes (lab, Val.one j) (List.mem_cons_self ..) j (by simp [valIds])) hb
        obtain ⟨hwf2, hext2, hkeys2, hfa2⟩ :=
          ih (copyAux g fuel st j).1 hwf1 hkeys1 hes' (bound_mono hext1.1 hb)
        rw [copyEntries_cons]
        exact ⟨hwf2, cExt_trans hext1 hext2, hkeys2,
          List.Forall₂.cons ⟨rfl, memImg_stable hlook1 hext2.1⟩ hfa2⟩
      · obtain ⟨hwf1, hext1, hkeys1, hfa1⟩ :=
          copyList_spec g U fuel IH js st hwf hkeys
            (fun x hx => hes (lab, Val.lst js) (List.mem_cons_self ..) x hx) hb
        obtain ⟨hwf2, hext2, hkeys2, hfa2⟩ :=
          ih (copyList g fuel st js).1 hwf1 hkeys1 hes' (bound_mono hext1.1 hb)
        rw [copyEntries_cons]
        exact ⟨hwf2, cExt_trans hext1 hext2, hkeys2,
          List.Forall₂.cons ⟨rfl, forall₂_memImg_stable hfa1 hext2.1⟩ hfa2⟩
      · obtain ⟨hwf1, hext1, hkeys1, hfa1⟩ :=
          copyList_spec g U fuel IH js st hwf hkeys
            (fun x hx => hes (lab, Val.tup js) (List.mem_cons_self ..) x hx) hb
        obtain ⟨hwf2, hext2, hkeys2, hfa2⟩ :=
          ih (copyList g fuel st js).1 hwf1 hkeys1 hes' (bound_mono hext1.1 hb)
        rw [copyEntries_cons]
        exact ⟨hwf2, cExt_trans hext1 hext2, hkeys2,
          List.Forall₂.cons ⟨rfl, forall₂_memImg_stable hfa1 hext2.1⟩ hfa2⟩

theorem copyAux_spec {σ : Type} [DecidableEq σ] (g : Graph σ) (U : List Nat)
    (hU : ∀ j x, x ∈ nodeSucc g j → x ∈ U) :
    ∀ (fuel : Nat) (st : CopySt σ) (i : Nat), CWf st →
      (∀ k ∈ st.memo.map Prod.fst, k ∈ U) → i ∈ U →
      U.dedup.length + 1 ≤ (st.memo.map Prod.fst).length + fuel →
      CWf (copyAux g fuel st i).1 ∧ CExt st (copyAux g fuel st i).1 ∧
      (∀ k ∈ (copyAux g fuel st i).1.memo.map Prod.fst, k ∈ U) ∧
      lookupA (copyAux g fuel st i).1.memo i = some (copyAux g fuel st i).2 := by
  intro fuel
  induction fuel with
  | zero =>
      intro st i hwf hkeys hi hb
      exact absurd (nodup_length_le_dedup hwf.1 hkeys) (by omega)
  | succ fuel ih =>
      intro st i hwf hkeys hi hb
      rcases hm : lookupA st.memo i with _ | n
      · -- memo miss: allocate, record, rebuild entries, append the new node
        have hnotkey : i ∉ st.memo.map Prod.fst := lookupA_eq_none_iff.mp hm
        have hwf1 : CWf (⟨st.memo ++ [(i, st.next)], st.out, st.next + 1⟩ :
            CopySt σ) := by
          refine ⟨?_, ?_, ?_⟩
          · rw [List.map_append]
            exact hwf.1.append (List.nodup_singleton i)
              (by intro a ha hb'
                  rcases List.mem_singleton.mp hb' with rfl
                  exact hnotkey ha)
          · rw [List.map_append]
            refine (hwf.2.1).append (List.nodup_singleton st.next) ?_
            intro a ha hb'
            rcases List.mem_singleton.mp hb' with rfl
            exact absurd (hwf.2.2 _ ha) (lt_irrefl _)
          · intro v hv
            rw [List.map_append] at hv
            rcases List.mem_append.mp hv with hv | hv
            · exact lt_trans (hwf.2.2 v hv) (Nat.lt_succ_self _)
            · rcases List.mem_singleton.mp hv with rfl
              exact Nat.lt_succ_self _
        have hkeys1 : ∀ k ∈ ((⟨st.memo ++ [(i, st.next)], st.out, st.next + 1⟩ :
            CopySt σ).memo.map Prod.fst), k ∈ U := by
          intro k hk
          rw [List.map_append] at hk
          rcases List.mem_append.mp hk with hk | hk
          · exact hkeys k hk
          · rcases List.mem_singleton.mp hk with rfl
            exact hi
        have hb1 : U.dedup.length + 1 ≤
            ((⟨st.memo ++ [(i, st.next)], st.out, st.next + 1⟩ :
              CopySt σ).memo.map Prod.fst).length + fuel := by
          simp only [List.map_append, List.length_append, List.length_map,
            List.length_singleton]
          simp only [List.length_map] at hb
          omega
        have hes : ∀ e ∈ (getNode g i).entries, ∀ j ∈ valIds e.2, j ∈ U := by
          intro e he j hj
          exact hU i j (List.mem_flatMap.mpr ⟨e, he, hj⟩)
        obtain ⟨hwf2, hext2, hkeys2, hfa2⟩ :=
          copyEntries_spec g U fuel ih (getNode g i).entries
            ⟨st.memo ++ [(i, st.next)], st.out, st.next + 1⟩
            hwf1 hkeys1 hes hb1
        have hlook1 : lookupA ((⟨st.memo ++ [(i, st.next)], st.out,
            st.next + 1⟩ : CopySt σ).memo) i = some st.next := by
          rw [lookupA_append, hm]
          simp [lookupA]
        rw [copyAux_succ, hm]
        refine ⟨⟨hwf2.1, hwf2.2.1, hwf2.2.2⟩, ?_, hkeys2, ?_⟩
        · obtain ⟨t, ht⟩ := hext2.1
          refine ⟨⟨[(i, st.next)] ++ t, by rw [ht]; simp⟩, ?_, ?_⟩
          · exact le_trans (Nat.le_succ _) hext2.2.1
          · intro x hx
            simp only [List.map_append, List.mem_append] at hx
            rcases hx with hx | hx
            · rcases hext2.2.2 x hx with hx' | ⟨hl, hr⟩
              · exact Or.inl hx'
              · exact Or.inr ⟨le_trans (Nat.le_succ _) hl, hr⟩
            · rcases List.mem_singleton.mp hx with rfl
              exact Or.inr ⟨le_refl _,
                lt_of_lt_of_le (Nat.lt_succ_self _) hext2.2.1⟩
        · exact lookup_stable hlook1 hext2.1
      · -- memo hit: return the recorded copy unchanged
        have : copyAux g (fuel + 1) st i = (st, n) := by
          rw [copyAux_succ, hm]
        rw [this]
        exact ⟨hwf, cExt_refl st, hkeys, hm⟩

theorem getNode_append_fresh {σ : Type} (g' : Graph σ) (n : Nat) (nd : Node σ)
    (h : lookupA g' n = none) : getNode (g' ++ [(n, nd)]) n = nd := by
  unfold getNode
  rw [lookupA_append, h]
  simp [lookupA]

theorem copyNfa_spec {σ : Type} [DecidableEq σ] (g : Graph σ) (i : Nat) :
    ∃ (m : List (Nat × Nat)) (es' : List (Label σ × Val)),
      (m.map Prod.snd).Nodup ∧
      List.Forall₂ (entImg m) (getNode g i).entries es' ∧
      getNode (copyNfa g i).1 (copyNfa g i).2 =
        ⟨es', (getNode g i).accept⟩ := by
  have hU : ∀ j x, x ∈ nodeSucc g j → x ∈ i :: allSucc g :=
    fun j x hx => List.mem_cons_of_mem _ (mem_allSucc_of_nodeSucc hx)
  have hwf1 : CWf (⟨[(i, 0)], [], 1⟩ : CopySt σ) := by
    refine ⟨by simp, by simp, ?_⟩
    intro v hv
    simp at hv
    show v < 1
    omega
  have hkeys1 : ∀ k ∈ ((⟨[(i, 0)], [], 1⟩ : CopySt σ).memo.map Prod.fst),
      k ∈ i :: allSucc g := by
    intro k hk
    simp at hk
    simp [hk]
  have hes : ∀ e ∈ (getNode g i).entries, ∀ j ∈ valIds e.2,
      j ∈ i :: allSucc g := by
    intro e he j hj
    exact hU i j (List.mem_flatMap.mpr ⟨e, he, hj⟩)
  have hb1 : (i :: allSucc g).dedup.length + 1 ≤
      ((⟨[(i, 0)], [], 1⟩ : CopySt σ).memo.map Prod.fst).length +
        ((allSucc g).length + 1) := by
    have := (List.dedup_sublist (i :: allSucc g)).length_le
    simp only [List.length_cons] at this
    show (i :: allSucc g).dedup.length + 1 ≤ 1 + ((allSucc g).length + 1)
    omega
  obtain ⟨hwf2, hext2, hkeys2, hfa2⟩ :=
    copyEntries_spec g (i :: allSucc g) ((allSucc g).length + 1)
      (copyAux_spec g (i :: allSucc g) hU ((allSucc g).length + 1))
      (getNode g i).entries ⟨[(i, 0)], [], 1⟩ hwf1 hkeys1 hes hb1
  have hroot : copyAux g ((allSucc g).length + 2) ⟨[], [], 0⟩ i =
      (⟨(copyEntries g ((allSucc g).length + 1) ⟨[(i, 0)], [], 1⟩
          (getNode g i).entries).1.memo,
        (copyEntries g ((allSucc g).length + 1) ⟨[(i, 0)], [], 1⟩
          (getNode g i).entries).1.out ++
          [(0, ⟨(copyEntries g ((allSucc g).length + 1) ⟨[(i, 0)], [], 1⟩
            (getNode g i).entries).2, (getNode g i).accept⟩)],
        (copyEntries g ((allSucc g).length + 1) ⟨[(i, 0)], [], 1⟩
          (getNode g i).entries).1.next⟩, 0) := by
    rw [copyAux_succ]
    rfl
  have hnot0 : lookupA (copyEntries g ((allSucc g).length + 1) ⟨[(i, 0)], [], 1⟩
      (getNode g i).entries).1.out (0 : Nat) = none := by
    rw [lookupA_eq_none_iff]
    intro h0
    rcases hext2.2.2 0 h0 with h | ⟨hl, _⟩
    · simp at h
    · exact Nat.not_succ_le_zero 0 hl
  refine ⟨(copyEntries g ((allSucc g).length + 1) ⟨[(i, 0)], [], 1⟩
      (getNode g i).entries).1.memo,
    (copyEntries g ((allSucc g).length + 1) ⟨[(i, 0)], [], 1⟩
      (getNode g i).entries).2, hwf2.2.1, hfa2, ?_⟩
  show getNode (copyAux g ((allSucc g).length + 2) ⟨[], [], 0⟩ i).1.out
      (copyAux g ((allSucc g).length + 2) ⟨[], [], 0⟩ i).2 = _
  rw [hroot]
  exact getNode_append_fresh _ 0 _ hnot0

/-- C10: for every node, `copy` produces a node whose entry list is the
original one with every label kept, every successor renamed through the
memo (injectively on the node's successors, preserving sharing), every
list-of-successors value rebuilt as a *tuple* (`mapValCopy` sends both
`Val.lst` and `Val.tup` to `Val.tup`), order and multiplicity preserved by
`map`, and the `_accept` override copied unchanged. -/
theorem claim_C10_copy_tuple {σ : Type} [DecidableEq σ] (g : Graph σ) (i : Nat) :
    ∃ f : Nat → Nat,
      (getNode (copyNfa g i).1 (copyNfa g i).2).entries =
        (getNode g i).entries.map (fun e => (e.1, mapValCopy f e.2)) ∧
      (getNode (copyNfa g i).1 (copyNfa g i).2).accept = (getNode g i).accept ∧
      ∀ j₁ ∈ nodeSucc g i, ∀ j₂ ∈ nodeSucc g i, f j₁ = f j₂ → j₁ = j₂ := by
  obtain ⟨m, es', hnd, hfa, hnode⟩ := copyNfa_spec g i
  refine ⟨fun j => (lookupA m j).getD 0, ?_, ?_, ?_⟩
  · rw [hnode]
    exact forall₂_entImg_map hfa
  · rw [hnode]
  · intro j₁ h₁ j₂ h₂ hf
    obtain ⟨n₁, hn₁⟩ := forall₂_entImg_lookup hfa h₁
    obtain ⟨n₂, hn₂⟩ := forall₂_entImg_lookup hfa h₂
    simp only [hn₁, hn₂, Option.getD_some] at hf
    subst hf
    exact snd_nodup_inj hnd (lookupA_mem hn₁) (lookupA_mem hn₂)

/-- The deterministic successor of a set of NFA ids under one symbol: the
union of the compiled-table rows `t_nfa[(symbol, i)]` over the members `i`
of the set that have such a row (`nfa.to_dfa`, construction of `state_`). -/
def dfaSucc {σ : Type} [DecidableEq σ] (c : Compiled σ) (s : σ)
    (S : Finset Nat) : Finset Nat :=
  S.biUnion (fun i => (lookupTrans c (s, i)).toFinset)

/-- The DFA transition table under construction: `t_dfa`, an association
list from `(symbol, state-set)` to the accumulated target set. -/
abbrev TDfa (σ : Type) : Type := List ((σ × Finset Nat) × Finset Nat)

/-- Appending a set to a list representing a Python `set` of frozensets. -/
def addNewF (l : List (Finset Nat)) (a : Finset Nat) : List (Finset Nat) :=
  if a ∈ l then l else l ++ [a]

/-- In-place update of one entry of `t_dfa` (`t_dfa[(symbol, state)] |= state_`). -/
def updEntry {σ : Type} [DecidableEq σ] (td : TDfa σ) (key : σ × Finset Nat)
    (v : Finset Nat) : TDfa σ :=
  td.map (fun e => if e.1 = key then (e.1, v) else e)

/-- The body of the `to_dfa` construction loop for one pending state and one
symbol: compute the deterministic successor, create the table entry with an
empty set when absent, and when the successor is not already contained in
the entry, merge it in, add it to the next round's pending set, and raise
the `updated` flag. -/
def dfaProc {σ : Type} [DecidableEq σ] (c : Compiled σ)
    (acc : TDfa σ × List (Finset Nat) × Bool) (S : Finset Nat) (s : σ) :
    TDfa σ × List (Finset Nat) × Bool :=
  let T := dfaSucc c s S
  let td := match lookupA acc.1 (s, S) with
    | some _ => acc.1
    | none => acc.1 ++ [((s, S), ∅)]
  let cur := (lookupA td (s, S)).getD ∅
  if T ⊆ cur then (td, acc.2.1, acc.2.2)
  else (updEntry td (s, S) (cur ∪ T), addNewF acc.2.1 T, true)

/-- One pending state processed against every symbol. -/
def dfaRoundState {σ : Type} [DecidableEq σ] (c : Compiled σ) (syms : List σ)
    (acc : TDfa σ × List (Finset Nat) × Bool) (S : Finset Nat) :
    TDfa σ × List (Finset Nat) × Bool :=
  syms.foldl (fun a s => dfaProc c a S s) acc

/-- One round of the `while updated` loop: process every pending state,
collecting the next round's pending states and the `updated` flag. -/
def dfaRound {σ : Type} [DecidableEq σ] (c : Compiled σ) (syms : List σ)
    (td : TDfa σ) (states : List (Finset Nat)) :
    TDfa σ × List (Finset Nat) × Bool :=
  states.foldl (dfaRoundState c syms) (td, [], false)

/-- The `while updated` loop of `to_dfa`, fuelled: run a round, and repeat on
the new pending set while the flag is raised.  The fuel bounds the number of
rounds, which never exceeds the number of possible table keys (every
flag-raising round creates at least one key). -/
def dfaLoop {σ : Type} [DecidableEq σ] (c : Compiled σ) (syms : List σ) :
    Nat → TDfa σ → List (Finset Nat) → TDfa σ
  | 0, td, _ => td
  | fuel + 1, td, states =>
      let r := dfaRound c syms td states
      if r.2.2 then dfaLoop c syms fuel r.1 r.2.1 else r.1

/-- The trimming step of `to_dfa`: drop the transitions that lead to the
empty set. -/
def tdTrim {σ : Type} [DecidableEq σ] (td : TDfa σ) : TDfa σ :=
  td.filter (fun e => decide (e.2 ≠ ∅))

/-- The symbol list read by `self.symbols()` inside `to_dfa`: the first
coordinates of the tuple keys of the compiled table. -/
def symsOf {σ : Type} [DecidableEq σ] (c : Compiled σ) : List σ :=
  (c.trans.map (fun e => e.1.1)).dedup

/-- The state sets of the resulting DFA: the initial singleton, the targets,
and the key states of the trimmed table (`states` after the loop). -/
def dfaStates {σ : Type} [DecidableEq σ] (td : TDfa σ) (i₀ : Nat) :
    List (Finset Nat) :=
  (({i₀} : Finset Nat) :: (td.map (fun e => e.2) ++ td.map (fun e => e.1.2))).dedup

/-- The DFA node built for one state set: accepting exactly when some member
is marked accepting in the compiled table (`+nfa()` versus `-nfa()`, both of
which set the `_accept` override), with one entry per key of the trimmed
table whose state component is this set, pointing at the node of the target
set. -/
def dfaNode {σ : Type} [DecidableEq σ] (c : Compiled σ) (td : TDfa σ)
    (sts : List (Finset Nat)) (S : Finset Nat) : Node σ :=
  ⟨td.filterMap (fun e =>
      if e.1.2 = S then some (Label.sym e.1.1, Val.one (sts.indexOf e.2))
      else none),
    some (decide (∃ u ∈ S, u ∈ c.accepts))⟩

/-- The table produced by the `while updated` loop of `to_dfa`. -/
def tdLoopOf {σ : Type} [DecidableEq σ] (c : Compiled σ) (i₀ : Nat) : TDfa σ :=
  dfaLoop c (symsOf c)
    ((symsOf c).length * 2 ^ (i₀ :: c.trans.flatMap (fun e => e.2)).length + 2)
    [] [{i₀}]

/-- The trimmed table of `to_dfa`. -/
def tdOf {σ : Type} [DecidableEq σ] (c : Compiled σ) (i₀ : Nat) : TDfa σ :=
  tdTrim (tdLoopOf c i₀)

/-- The DFA state list of `to_dfa`. -/
def stsOf {σ : Type} [DecidableEq σ] (c : Compiled σ) (i₀ : Nat) :
    List (Finset Nat) :=
  dfaStates (tdOf c i₀) i₀

/-- `nfa.to_dfa` on a compiled table: build the deterministic table, trim it,
collect the state sets, build one node per state set (its id being its
position in the state list), and return the graph with the node of the
initial singleton. -/
def toDfaGraph {σ : Type} [DecidableEq σ] (c : Compiled σ) (i₀ : Nat) :
    Graph σ × Nat :=
  ((stsOf c i₀).map (fun S =>
      ((stsOf c i₀).indexOf S, dfaNode c (tdOf c i₀) (stsOf c i₀) S)),
    (stsOf c i₀).indexOf {i₀})

/-- `nfa.to_dfa()`: compile the NFA first (when no table is cached), then
run the subset construction on the compiled table. -/
def toDfaNfa {σ : Type} [DecidableEq σ] (g : Graph σ) (i₀ : Nat) :
    Graph σ × Nat :=
  toDfaGraph (compileNfa g i₀) i₀

/-- Acceptance through the compiled table, read set-wise: the empty input is
accepted when some current id is marked accepting, and a symbol moves to the
deterministic successor set. -/
def tblAccepts {σ : Type} [DecidableEq σ] (c : Compiled σ) :
    Finset Nat → List σ → Prop
  | S, [] => ∃ u ∈ S, u ∈ c.accepts
  | S, s :: w => tblAccepts c (dfaSucc c s S) w

theorem mem_dfaSucc {σ : Type} [DecidableEq σ] {c : Compiled σ} {s : σ}
    {S : Finset Nat} {k : Nat} :
    k ∈ dfaSucc c s S ↔ ∃ u ∈ S, k ∈ lookupTrans c (s, u) := by
  unfold dfaSucc
  simp [Finset.mem_biUnion]

theorem symsOf_complete {σ : Type} [DecidableEq σ] {c : Compiled σ} {s : σ}
    (h : s ∉ symsOf c) (S : Finset Nat) : dfaSucc c s S = ∅ := by
  rw [Finset.eq_empty_iff_forall_not_mem]
  intro k hk
  rcases mem_dfaSucc.mp hk with ⟨u, _, hmem⟩
  unfold lookupTrans at hmem
  rcases hl : lookupA c.trans (s, u) with _ | ws
  · rw [hl] at hmem
    simp at hmem
  · refine h ?_
    unfold symsOf
    rw [List.mem_dedup]
    exact List.mem_map.mpr ⟨((s, u), ws), lookupA_mem hl, rfl⟩

theorem mem_addNewF {l : List (Finset Nat)} {a x : Finset Nat} :
    x ∈ addNewF l a ↔ x ∈ l ∨ x = a := by
  unfold addNewF
  split
  · rename_i h
    constructor
    · exact fun hx => Or.inl hx
    · rintro (hx | rfl)
      · exact hx
      · exact h
  · simp [List.mem_append]

theorem self_mem_addNewF (l : List (Finset Nat)) (a : Finset Nat) :
    a ∈ addNewF l a :=
  mem_addNewF.mpr (Or.inr rfl)

theorem dfaProc_spec {σ : Type} [DecidableEq σ] (c : Compiled σ) (td : TDfa σ)
    (fr : List (Finset Nat)) (upd : Bool) (S : Finset Nat) (s : σ)
    (hv : ∀ e ∈ td, e.2 = dfaSucc c e.1.1 e.1.2) :
    dfaProc c (td, fr, upd) S s =
      if (s, S) ∈ td.map Prod.fst then (td, fr, upd)
      else if dfaSucc c s S = ∅ then (td ++ [((s, S), ∅)], fr, upd)
      else (td ++ [((s, S), dfaSucc c s S)], addNewF fr (dfaSucc c s S), true) := by
  unfold dfaProc
  rcases hk : lookupA td (s, S) with _ | V
  · have hmem : (s, S) ∉ td.map Prod.fst := lookupA_eq_none_iff.mp hk
    rw [if_neg hmem]
    have hlook : lookupA (td ++ [((s, S), (∅ : Finset Nat))]) (s, S) =
        some ∅ := by
      rw [lookupA_append, hk]
      simp [lookupA]
    simp only [hk, hlook, Option.getD_some]
    by_cases hT : dfaSucc c s S = ∅
    · rw [if_pos (by rw [hT]), if_pos hT]
    · rw [if_neg (fun hsub => hT (Finset.subset_empty.mp hsub)), if_neg hT]
      have hupd : updEntry (td ++ [((s, S), (∅ : Finset Nat))]) (s, S)
          (∅ ∪ dfaSucc c s S) = td ++ [((s, S), dfaSucc c s S)] := by
        unfold updEntry
        rw [List.map_append]
        have h1 : td.map (fun e => if e.1 = (s, S) then (e.1, ∅ ∪ dfaSucc c s S)
            else e) = td := by
          refine List.map_congr_left ?_ |>.trans (List.map_id td)
          intro e he
          have : e.1 ≠ (s, S) := by
            intro hc
            exact hmem (List.mem_map.mpr ⟨e, he, hc⟩)
          simp [this]
        rw [h1]
        simp [Finset.empty_union]
      rw [hupd]
  · have hVmem : ((s, S), V) ∈ td := lookupA_mem hk
    have hV : V = dfaSucc c s S := hv _ hVmem
    rw [if_pos (List.mem_map.mpr ⟨((s, S), V), hVmem, rfl⟩)]
    simp only [hk, Option.getD_some]
    rw [if_pos (by rw [hV])]

/-- The construction invariant of `t_dfa`: every entry's value equals the
deterministic successor of its key, and the keys are duplicate-free. -/
def TInv {σ : Type} [DecidableEq σ] (c : Compiled σ) (td : TDfa σ) : Prop :=
  (∀ e ∈ td, e.2 = dfaSucc c e.1.1 e.1.2) ∧ (td.map Prod.fst).Nodup

/-- A state set whose table row is complete: every symbol is keyed. -/
def FullKeyed {σ : Type} [DecidableEq σ] (syms : List σ) (td : TDfa σ)
    (S : Finset Nat) : Prop :=
  ∀ s ∈ syms, (s, S) ∈ td.map Prod.fst

/-- Every nonempty successor of a keyed state is fully keyed or pending. -/
def Pending {σ : Type} [DecidableEq σ] (c : Compiled σ) (syms : List σ)
    (td : TDfa σ) (fr : List (Finset Nat)) : Prop :=
  ∀ s S, (s, S) ∈ td.map Prod.fst → dfaSucc c s S ≠ ∅ →
    FullKeyed syms td (dfaSucc c s S) ∨ dfaSucc c s S ∈ fr

/-- Every key draws its symbol from the symbol list and its state set from
the id universe. -/
def KeyBound {σ : Type} [DecidableEq σ] (U : Finset Nat) (syms : List σ)
    (td : TDfa σ) : Prop :=
  ∀ e ∈ td, e.1.1 ∈ syms ∧ e.1.2 ⊆ U

theorem fullKeyed_mono {σ : Type} [DecidableEq σ] {syms : List σ}
    {td td' : TDfa σ} {S : Finset Nat}
    (hsub : ∀ k ∈ td.map Prod.fst, k ∈ td'.map Prod.fst)
    (h : FullKeyed syms td S) : FullKeyed syms td' S :=
  fun s hs => hsub _ (h s hs)


theorem dfaProc_inv {σ : Type} [DecidableEq σ] (c : Compiled σ) (syms : List σ)
    (U : Finset Nat) (hU : ∀ (s : σ) (u k : Nat), k ∈ lookupTrans c (s, u) → k ∈ U)
    (es : List (Finset Nat))
    {td : TDfa σ} {fr : List (Finset Nat)} {upd : Bool}
    {S : Finset Nat} {s : σ}
    (ht : TInv c td) (hb : KeyBound U syms td)
    (hp : Pending c syms td (fr ++ es))
    (hfr : ∀ F ∈ fr, F ⊆ U) (hs : s ∈ syms) (hS : S ⊆ U) :
    TInv c (dfaProc c (td, fr, upd) S s).1 ∧
    KeyBound U syms (dfaProc c (td, fr, upd) S s).1 ∧
    Pending c syms (dfaProc c (td, fr, upd) S s).1
      ((dfaProc c (td, fr, upd) S s).2.1 ++ es) ∧
    (∀ F ∈ (dfaProc c (td, fr, upd) S s).2.1, F ⊆ U) ∧
    (∀ k ∈ td.map Prod.fst, k ∈ (dfaProc c (td, fr, upd) S s).1.map Prod.fst) ∧
    (s, S) ∈ (dfaProc c (td, fr, upd) S s).1.map Prod.fst ∧
    (∀ F ∈ fr, F ∈ (dfaProc c (td, fr, upd) S s).2.1) ∧
    ((dfaProc c (td, fr, upd) S s).2.2 = false → upd = false ∧
      (dfaProc c (td, fr, upd) S s).2.1 = fr) ∧
    (upd = true → (dfaProc c (td, fr, upd) S s).2.2 = true) ∧
    td.length ≤ (dfaProc c (td, fr, upd) S s).1.length ∧
    ((dfaProc c (td, fr, upd) S s).2.2 = true → upd = true ∨
      td.length < (dfaProc c (td, fr, upd) S s).1.length) := by
  rw [dfaProc_spec c td fr upd S s ht.1]
  by_cases hkey : (s, S) ∈ td.map Prod.fst
  · rw [if_pos hkey]
    exact ⟨ht, hb, hp, hfr, fun k hk => hk, hkey, fun F hF => hF,
      fun h => ⟨h, rfl⟩, fun h => h, le_refl _, fun h => Or.inl h⟩
  · rw [if_neg hkey]
    have hTU : dfaSucc c s S ⊆ U := by
      intro k hk
      rcases mem_dfaSucc.mp hk with ⟨u, _, hmem⟩
      exact hU s u k hmem
    by_cases hT : dfaSucc c s S = ∅
    · rw [if_pos hT]
      have hkeys' : (td ++ [((s, S), (∅ : Finset Nat))]).map Prod.fst =
          td.map Prod.fst ++ [(s, S)] := by simp
      have hmono : ∀ k ∈ td.map Prod.fst,
          k ∈ (td ++ [((s, S), (∅ : Finset Nat))]).map Prod.fst := by
        intro k hk
        rw [hkeys']
        exact List.mem_append.mpr (Or.inl hk)
      refine ⟨⟨?_, ?_⟩, ?_, ?_, hfr, hmono, ?_, fun F hF => hF,
        fun h => ⟨h, rfl⟩, fun h => h, by simp, fun h => Or.inl h⟩
      · intro e he
        rcases List.mem_append.mp he with he | he
        · exact ht.1 e he
        · rcases List.mem_singleton.mp he with rfl
          exact hT.symm
      · rw [hkeys']
        exact ht.2.append (List.nodup_singleton _)
          (by intro a ha hb'
              rcases List.mem_singleton.mp hb' with rfl
              exact hkey ha)
      · intro e he
        rcases List.mem_append.mp he with he | he
        · exact hb e he
        · rcases List.mem_singleton.mp he with rfl
          exact ⟨hs, hS⟩
      · intro s' S' hk' hne
        rw [hkeys'] at hk'
        rcases List.mem_append.mp hk' with hk' | hk'
        · rcases hp s' S' hk' hne with h | h
          · exact Or.inl (fullKeyed_mono hmono h)
          · exact Or.inr h
        · rcases List.mem_singleton.mp hk' with heq
          rcases Prod.mk.injEq .. ▸ heq with ⟨rfl, rfl⟩
          exact absurd hT hne
      · rw [hkeys']
        exact List.mem_append.mpr (Or.inr (by simp))
    · rw [if_neg hT]
      have hkeys' : (td ++ [((s, S), dfaSucc c s S)]).map Prod.fst =
          td.map Prod.fst ++ [(s, S)] := by simp
      have hmono : ∀ k ∈ td.map Prod.fst,
          k ∈ (td ++ [((s, S), dfaSucc c s S)]).map Prod.fst := by
        intro k hk
        rw [hkeys']
        exact List.mem_append.mpr (Or.inl hk)
      refine ⟨⟨?_, ?_⟩, ?_, ?_, ?_, hmono, ?_, ?_, ?_, fun _ => rfl, by simp, ?_⟩
      · intro e he
        rcases List.mem_append.mp he with he | he
        · exact ht.1 e he
        · rcases List.mem_singleton.mp he with rfl
          rfl
      · rw [hkeys']
        exact ht.2.append (List.nodup_singleton _)
          (by intro a ha hb'
              rcases List.mem_singleton.mp hb' with rfl
              exact hkey ha)
      · intro e he
        rcases List.mem_append.mp he with he | he
        · exact hb e he
        · rcases List.mem_singleton.mp he with rfl
          exact ⟨hs, hS⟩
      · intro s' S' hk' hne
        rw [hkeys'] at hk'
        rcases List.mem_append.mp hk' with hk' | hk'
        · rcases hp s' S' hk' hne with h | h
          · exact Or.inl (fullKeyed_mono hmono h)
          · rcases List.mem_append.mp h with h | h
            · exact Or.inr (List.mem_append.mpr
                (Or.inl (mem_addNewF.mpr (Or.inl h))))
            · exact Or.inr (List.mem_append.mpr (Or.inr h))
        · rcases List.mem_singleton.mp hk' with heq
          rcases Prod.mk.injEq .. ▸ heq with ⟨rfl, rfl⟩
          exact Or.inr (List.mem_append.mpr (Or.inl (self_mem_addNewF fr _)))
      · intro F hF
        rcases mem_addNewF.mp hF with hF | rfl
        · exact hfr F hF
        · exact hTU
      · rw [hkeys']
        exact List.mem_append.mpr (Or.inr (by simp))
      · intro F hF
        exact mem_addNewF.mpr (Or.inl hF)
      · intro h
        cases h
      · intro h
        refine Or.inr ?_
        simp

theorem dfaProcFold_inv {σ : Type} [DecidableEq σ] (c : Compiled σ)
    (syms : List σ) (U : Finset Nat)
    (hU : ∀ (s : σ) (u k : Nat), k ∈ lookupTrans c (s, u) → k ∈ U)
    (es : List (Finset Nat)) (S : Finset Nat) (hS : S ⊆ U) :
    ∀ (ls : List σ), (∀ s ∈ ls, s ∈ syms) →
    ∀ (td : TDfa σ) (fr : List (Finset Nat)) (upd : Bool),
      TInv c td → KeyBound U syms td → Pending c syms td (fr ++ es) →
      (∀ F ∈ fr, F ⊆ U) →
      TInv c (ls.foldl (fun a s => dfaProc c a S s) (td, fr, upd)).1 ∧
      KeyBound U syms (ls.foldl (fun a s => dfaProc c a S s) (td, fr, upd)).1 ∧
      Pending c syms (ls.foldl (fun a s => dfaProc c a S s) (td, fr, upd)).1
        ((ls.foldl (fun a s => dfaProc c a S s) (td, fr, upd)).2.1 ++ es) ∧
      (∀ F ∈ (ls.foldl (fun a s => dfaProc c a S s) (td, fr, upd)).2.1, F ⊆ U) ∧
      (∀ k ∈ td.map Prod.fst,
        k ∈ (ls.foldl (fun a s => dfaProc c a S s) (td, fr, upd)).1.map Prod.fst) ∧
      (∀ s ∈ ls,
        (s, S) ∈ (ls.foldl (fun a s => dfaProc c a S s) (td, fr, upd)).1.map Prod.fst) ∧
      (∀ F ∈ fr, F ∈ (ls.foldl (fun a s => dfaProc c a S s) (td, fr, upd)).2.1) ∧
      ((ls.foldl (fun a s => dfaProc c a S s) (td, fr, upd)).2.2 = false →
        upd = false ∧
        (ls.foldl (fun a s => dfaProc c a S s) (td, fr, upd)).2.1 = fr) ∧
      (upd = true → (ls.foldl (fun a s => dfaProc c a S s) (td, fr, upd)).2.2 = true) ∧
      td.length ≤ (ls.foldl (fun a s => dfaProc c a S s) (td, fr, upd)).1.length ∧
      ((ls.foldl (fun a s => dfaProc c a S s) (td, fr, upd)).2.2 = true →
        upd = true ∨
        td.length < (ls.foldl (fun a s => dfaProc c a S s) (td, fr, upd)).1.length) := by
  intro ls
  induction ls with
  | nil =>
      intro _ td fr upd ht hb hp hfr
      exact ⟨ht, hb, hp, hfr, fun k hk => hk, by simp, fun F hF => hF,
        fun h => ⟨h, rfl⟩, fun h => h, le_refl _, fun h => Or.inl h⟩
  | cons s ls ih =>
      intro hls td fr upd ht hb hp hfr
      obtain ⟨ht1, hb1, hp1, hfr1, hmono1, hkey1, hfrm1, hflag1, hflagm1,
        hlen1, hlenf1⟩ :=
        @dfaProc_inv σ _ c syms U hU es td fr upd S s ht hb hp hfr
          (hls s (List.mem_cons_self ..)) hS
      rw [List.foldl_cons]
      obtain ⟨ht2, hb2, hp2, hfr2, hmono2, hkey2, hfrm2, hflag2, hflagm2,
        hlen2, hlenf2⟩ :=
        ih (fun x hx => hls x (List.mem_cons_of_mem _ hx))
          (dfaProc c (td, fr, upd) S s).1 (dfaProc c (td, fr, upd) S s).2.1
          (dfaProc c (td, fr, upd) S s).2.2 ht1 hb1 hp1 hfr1
      refine ⟨ht2, hb2, hp2, hfr2, fun k hk => hmono2 _ (hmono1 _ hk), ?_,
        fun F hF => hfrm2 _ (hfrm1 _ hF), ?_, ?_, le_trans hlen1 hlen2, ?_⟩
      · intro s' hs'
        rcases List.mem_cons.mp hs' with rfl | hs'
        · exact hmono2 _ hkey1
        · exact hkey2 s' hs'
      · intro h
        obtain ⟨hmid, hfreq⟩ := hflag2 h
        obtain ⟨hup, hfreq1⟩ := hflag1 hmid
        exact ⟨hup, hfreq.trans hfreq1⟩
      · intro h
        exact hflagm2 (hflagm1 h)
      · intro h
        rcases hlenf2 h with hmid | hlt
        · rcases hlenf1 hmid with hup | hlt1
          · exact Or.inl hup
          · exact Or.inr (lt_of_lt_of_le hlt1 hlen2)
        · exact Or.inr (lt_of_le_of_lt hlen1 hlt)

theorem pending_drop {σ : Type} [DecidableEq σ] {c : Compiled σ}
    {syms : List σ} {td : TDfa σ} {fr es : List (Finset Nat)} {S : Finset Nat}
    (hfk : FullKeyed syms td S) (hp : Pending c syms td (fr ++ S :: es)) :
    Pending c syms td (fr ++ es) := by
  intro s S' hk hne
  rcases hp s S' hk hne with h | h
  · exact Or.inl h
  · rcases List.mem_append.mp h with h | h
    · exact Or.inr (List.mem_append.mpr (Or.inl h))
    · rcases List.mem_cons.mp h with heq | h
      · exact Or.inl (heq ▸ hfk)
      · exact Or.inr (List.mem_append.mpr (Or.inr h))

theorem dfaStatesFold_inv {σ : Type} [DecidableEq σ] (c : Compiled σ)
    (syms : List σ) (U : Finset Nat)
    (hU : ∀ (s : σ) (u k : Nat), k ∈ lookupTrans c (s, u) → k ∈ U) :
    ∀ (Ss : List (Finset Nat)), (∀ S ∈ Ss, S ⊆ U) →
    ∀ (td : TDfa σ) (fr : List (Finset Nat)) (upd : Bool),
      TInv c td → KeyBound U syms td → Pending c syms td (fr ++ Ss) →
      (∀ F ∈ fr, F ⊆ U) →
      TInv c (Ss.foldl (dfaRoundState c syms) (td, fr, upd)).1 ∧
      KeyBound U syms (Ss.foldl (dfaRoundState c syms) (td, fr, upd)).1 ∧
      Pending c syms (Ss.foldl (dfaRoundState c syms) (td, fr, upd)).1
        (Ss.foldl (dfaRoundState c syms) (td, fr, upd)).2.1 ∧
      (∀ F ∈ (Ss.foldl (dfaRoundState c syms) (td, fr, upd)).2.1, F ⊆ U) ∧
      (∀ k ∈ td.map Prod.fst,
        k ∈ (Ss.foldl (dfaRoundState c syms) (td, fr, upd)).1.map Prod.fst) ∧
      (∀ S ∈ Ss,
        FullKeyed syms (Ss.foldl (dfaRoundState c syms) (td, fr, upd)).1 S) ∧
      ((Ss.foldl (dfaRoundState c syms) (td, fr, upd)).2.2 = false →
        upd = false ∧
        (Ss.foldl (dfaRoundState c syms) (td, fr, upd)).2.1 = fr) ∧
      td.length ≤ (Ss.foldl (dfaRoundState c syms) (td, fr, upd)).1.length ∧
      ((Ss.foldl (dfaRoundState c syms) (td, fr, upd)).2.2 = true →
        upd = true ∨
        td.length < (Ss.foldl (dfaRoundState c syms) (td, fr, upd)).1.length) := by
  intro Ss
  induction Ss with
  | nil =>
      intro _ td fr upd ht hb hp hfr
      rw [List.append_nil] at hp
      exact ⟨ht, hb, hp, hfr, fun k hk => hk, by simp, fun h => ⟨h, rfl⟩,
        le_refl _, fun h => Or.inl h⟩
  | cons S Ss ih =>
      intro hSs td fr upd ht hb hp hfr
      obtain ⟨ht1, hb1, hp1, hfr1, hmono1, hkey1, hfrm1, hflag1, hflagm1,
        hlen1, hlenf1⟩ :=
        dfaProcFold_inv c syms U hU (S :: Ss) S (hSs S (List.mem_cons_self ..))
          syms (fun x hx => hx) td fr upd ht hb hp hfr
      have hfk1 : FullKeyed syms
          (dfaRoundState c syms (td, fr, upd) S).1 S := fun x hx => hkey1 x hx
      have hp1' : Pending c syms (dfaRoundState c syms (td, fr, upd) S).1
          ((dfaRoundState c syms (td, fr, upd) S).2.1 ++ Ss) :=
        pending_drop hfk1 hp1
      rw [List.foldl_cons]
      obtain ⟨ht2, hb2, hp2, hfr2, hmono2, hkey2, hflag2, hlen2, hlenf2⟩ :=
        ih (fun x hx => hSs x (List.mem_cons_of_mem _ hx))
          (dfaRoundState c syms (td, fr, upd) S).1
          (dfaRoundState c syms (td, fr, upd) S).2.1
          (dfaRoundState c syms (td, fr, upd) S).2.2 ht1 hb1 hp1' hfr1
      refine ⟨ht2, hb2, hp2, hfr2, fun k hk => hmono2 _ (hmono1 _ hk), ?_, ?_,
        le_trans hlen1 hlen2, ?_⟩
      · intro S' hS'
        rcases List.mem_cons.mp hS' with rfl | hS'
        · exact fullKeyed_mono hmono2 hfk1
        · exact hkey2 S' hS'
      · intro h
        obtain ⟨hmid, hfreq⟩ := hflag2 h
        obtain ⟨hup, hfreq1⟩ := hflag1 hmid
        exact ⟨hup, hfreq.trans hfreq1⟩
      · intro h
        rcases hlenf2 h with hmid | hlt
        · rcases hlenf1 hmid with hup | hlt1
          · exact Or.inl hup
          · exact Or.inr (lt_of_lt_of_le hlt1 hlen2)
        · exact Or.inr (lt_of_le_of_lt hlen1 hlt)

theorem nodup_length_le_card {α : Type} [DecidableEq α] {l : List α}
    {F : Finset α} (hn : l.Nodup) (hs : ∀ x ∈ l, x ∈ F) : l.length ≤ F.card := by
  have h1 : l.toFinset.card = l.length := by
    have h : l.toFinset.card = l.dedup.length := rfl
    rw [h, hn.dedup]
  have h3 : l.toFinset ⊆ F := fun x hx => hs x (List.mem_toFinset.mp hx)
  have := Finset.card_le_card h3
  omega

theorem dfaLoop_succ {σ : Type} [DecidableEq σ] (c : Compiled σ) (syms : List σ)
    (fuel : Nat) (td : TDfa σ) (states : List (Finset Nat)) :
    dfaLoop c syms (fuel + 1) td states =
      if (dfaRound c syms td states).2.2 then
        dfaLoop c syms fuel (dfaRound c syms td states).1
          (dfaRound c syms td states).2.1
      else (dfaRound c syms td states).1 := rfl

theorem dfaLoop_spec {σ : Type} [DecidableEq σ] (c : Compiled σ) (syms : List σ)
    (U : Finset Nat)
    (hU : ∀ (s : σ) (u k : Nat), k ∈ lookupTrans c (s, u) → k ∈ U) :
    ∀ (fuel : Nat) (td : TDfa σ) (states : List (Finset Nat)),
      TInv c td → KeyBound U syms td → Pending c syms td states →
      (∀ S ∈ states, S ⊆ U) →
      syms.toFinset.card * 2 ^ U.card + 1 ≤ td.length + fuel →
      TInv c (dfaLoop c syms fuel td states) ∧
      (∀ k ∈ td.map Prod.fst,
        k ∈ (dfaLoop c syms fuel td states).map Prod.fst) ∧
      (∀ S ∈ states, FullKeyed syms (dfaLoop c syms fuel td states) S) ∧
      (∀ (s : σ) (S : Finset Nat),
        (s, S) ∈ (dfaLoop c syms fuel td states).map Prod.fst →
        dfaSucc c s S ≠ ∅ →
        FullKeyed syms (dfaLoop c syms fuel td states) (dfaSucc c s S)) := by
  intro fuel
  induction fuel with
  | zero =>
      intro td states ht hb _ _ hfuel
      exfalso
      have hkeys : td.length ≤ syms.toFinset.card * 2 ^ U.card := by
        have hlen : (td.map Prod.fst).length ≤
            (syms.toFinset ×ˢ U.powerset).card := by
          refine nodup_length_le_card ht.2 ?_
          intro k hk
          rcases List.mem_map.mp hk with ⟨e, he, rfl⟩
          obtain ⟨hsy, hSU⟩ := hb e he
          rw [Finset.mem_product]
          exact ⟨List.mem_toFinset.mpr hsy, Finset.mem_powerset.mpr hSU⟩
        rw [Finset.card_product, Finset.card_powerset] at hlen
        simpa using hlen
      omega
  | succ fuel ih =>
      intro td states ht hb hp hstates hfuel
      obtain ⟨ht1, hb1, hp1, hfr1, hmono1, hkey1, hflag1, hlen1, hlenf1⟩ :=
        dfaStatesFold_inv c syms U hU states hstates td [] false ht hb hp
          (by simp)
      rw [dfaLoop_succ]
      by_cases hflag : (dfaRound c syms td states).2.2 = true
      · rw [if_pos hflag]
        have hlt : td.length < (dfaRound c syms td states).1.length := by
          rcases hlenf1 hflag with h | h
          · cases h
          · exact h
        obtain ⟨ht2, hmono2, hkey2, hclose2⟩ :=
          ih (dfaRound c syms td states).1 (dfaRound c syms td states).2.1
            ht1 hb1 hp1 hfr1 (by omega)
        refine ⟨ht2, fun k hk => hmono2 _ (hmono1 _ hk), ?_, hclose2⟩
        intro S hS
        exact fullKeyed_mono hmono2 (hkey1 S hS)
      · rw [if_neg hflag]
        have hflag' : (dfaRound c syms td states).2.2 = false := by
          simp at hflag
          exact hflag
        have hfr0 := (hflag1 hflag').2
        refine ⟨ht1, hmono1, hkey1, ?_⟩
        intro s S hk hne
        rcases hp1 s S hk hne with h | h
        · exact h
        · rw [hfr0] at h
          cases h

theorem toDfaGraph_eq {σ : Type} [DecidableEq σ] (c : Compiled σ) (i₀ : Nat) :
    toDfaGraph c i₀ =
      ((stsOf c i₀).map (fun S =>
          ((stsOf c i₀).indexOf S, dfaNode c (tdOf c i₀) (stsOf c i₀) S)),
        (stsOf c i₀).indexOf {i₀}) := rfl

theorem lookupTrans_bound {σ : Type} [DecidableEq σ] {c : Compiled σ} {i₀ : Nat}
    {s : σ} {u k : Nat} (h : k ∈ lookupTrans c (s, u)) :
    k ∈ (i₀ :: c.trans.flatMap (fun e => e.2)).toFinset := by
  unfold lookupTrans at h
  rcases hl : lookupA c.trans (s, u) with _ | ws
  · rw [hl] at h
    simp at h
  · rw [hl] at h
    simp only [Option.getD_some] at h
    rw [List.mem_toFinset]
    refine List.mem_cons_of_mem _ ?_
    exact List.mem_flatMap.mpr ⟨((s, u), ws), lookupA_mem hl, h⟩

theorem tdLoopOf_spec {σ : Type} [DecidableEq σ] (c : Compiled σ) (i₀ : Nat) :
    TInv c (tdLoopOf c i₀) ∧
    FullKeyed (symsOf c) (tdLoopOf c i₀) ({i₀} : Finset Nat) ∧
    (∀ (s : σ) (S : Finset Nat),
      (s, S) ∈ (tdLoopOf c i₀).map Prod.fst → dfaSucc c s S ≠ ∅ →
      FullKeyed (symsOf c) (tdLoopOf c i₀) (dfaSucc c s S)) := by
  have hU : ∀ (s : σ) (u k : Nat), k ∈ lookupTrans c (s, u) →
      k ∈ (i₀ :: c.trans.flatMap (fun e => e.2)).toFinset :=
    fun s u k h => lookupTrans_bound h
  have hfuel : (symsOf c).toFinset.card *
      2 ^ (i₀ :: c.trans.flatMap (fun e => e.2)).toFinset.card + 1 ≤
      ([] : TDfa σ).length +
        ((symsOf c).length * 2 ^ (i₀ :: c.trans.flatMap (fun e => e.2)).length
          + 2) := by
    have h1 : (symsOf c).toFinset.card ≤ (symsOf c).length :=
      List.toFinset_card_le _
    have h2 : (i₀ :: c.trans.flatMap (fun e => e.2)).toFinset.card ≤
        (i₀ :: c.trans.flatMap (fun e => e.2)).length :=
      List.toFinset_card_le _
    have h3 : (2 : Nat) ^ (i₀ :: c.trans.flatMap (fun e => e.2)).toFinset.card ≤
        2 ^ (i₀ :: c.trans.flatMap (fun e => e.2)).length :=
      Nat.pow_le_pow_right (by omega) h2
    have h4 : (symsOf c).toFinset.card *
        2 ^ (i₀ :: c.trans.flatMap (fun e => e.2)).toFinset.card ≤
        (symsOf c).length * 2 ^ (i₀ :: c.trans.flatMap (fun e => e.2)).length :=
      Nat.mul_le_mul h1 h3
    simp only [List.length_nil]
    omega
  obtain ⟨ht, _, hkey, hclose⟩ :=
    dfaLoop_spec c (symsOf c) (i₀ :: c.trans.flatMap (fun e => e.2)).toFinset hU
      ((symsOf c).length * 2 ^ (i₀ :: c.trans.flatMap (fun e => e.2)).length + 2)
      [] [{i₀}]
      ⟨by simp, by simp⟩ (by intro e he; simp at he)
      (by intro s S h _; simp at h)
      (by intro S hS
          rcases List.mem_singleton.mp hS with rfl
          intro u hu
          rcases Finset.mem_singleton.mp hu with rfl
          rw [List.mem_toFinset]
          exact List.mem_cons_self ..)
      hfuel
  exact ⟨ht, hkey _ (List.mem_singleton.mpr rfl), hclose⟩

theorem tdOf_val {σ : Type} [DecidableEq σ] {c : Compiled σ} {i₀ : Nat} :
    ∀ e ∈ tdOf c i₀, e.2 = dfaSucc c e.1.1 e.1.2 ∧ e.2 ≠ ∅ := by
  intro e he
  unfold tdOf tdTrim at he
  rw [List.mem_filter] at he
  exact ⟨(tdLoopOf_spec c i₀).1.1 e he.1, of_decide_eq_true he.2⟩

theorem tdOf_keysNodup {σ : Type} [DecidableEq σ] (c : Compiled σ) (i₀ : Nat) :
    ((tdOf c i₀).map Prod.fst).Nodup := by
  refine List.Nodup.sublist ?_ (tdLoopOf_spec c i₀).1.2
  exact List.Sublist.map Prod.fst (List.filter_sublist _)

theorem mem_tdOf_keys {σ : Type} [DecidableEq σ] {c : Compiled σ} {i₀ : Nat}
    {s : σ} {S : Finset Nat} :
    (s, S) ∈ (tdOf c i₀).map Prod.fst ↔
      (s, S) ∈ (tdLoopOf c i₀).map Prod.fst ∧ dfaSucc c s S ≠ ∅ := by
  constructor
  · intro h
    rcases List.mem_map.mp h with ⟨e, he, hfst⟩
    obtain ⟨hval, hne⟩ := tdOf_val e he
    have h1 : e.1.1 = s := by rw [hfst]
    have h2 : e.1.2 = S := by rw [hfst]
    unfold tdOf tdTrim at he
    rw [List.mem_filter] at he
    refine ⟨List.mem_map.mpr ⟨e, he.1, hfst⟩, ?_⟩
    rw [hval, h1, h2] at hne
    exact hne
  · rintro ⟨h, hne⟩
    rcases List.mem_map.mp h with ⟨e, he, hfst⟩
    have hval : e.2 = dfaSucc c e.1.1 e.1.2 := (tdLoopOf_spec c i₀).1.1 e he
    have h1 : e.1.1 = s := by rw [hfst]
    have h2 : e.1.2 = S := by rw [hfst]
    refine List.mem_map.mpr ⟨e, ?_, hfst⟩
    unfold tdOf tdTrim
    rw [List.mem_filter]
    refine ⟨he, decide_eq_true ?_⟩
    rw [hval, h1, h2]
    exact hne
  
/-- The DFA state sets the `to_dfa` matcher can actually reach: the initial
singleton and, through keys of the trimmed table, their successors. -/
inductive DReach {σ : Type} [DecidableEq σ] (c : Compiled σ) (i₀ : Nat) :
    Finset Nat → Prop
  | start : DReach c i₀ {i₀}
  | step {S : Finset Nat} (s : σ) : DReach c i₀ S →
      (s, S) ∈ (tdOf c i₀).map Prod.fst → DReach c i₀ (dfaSucc c s S)

theorem dReach_fullKeyed {σ : Type} [DecidableEq σ] {c : Compiled σ} {i₀ : Nat}
    {S : Finset Nat} (h : DReach c i₀ S) :
    FullKeyed (symsOf c) (tdLoopOf c i₀) S := by
  induction h with
  | start => exact (tdLoopOf_spec c i₀).2.1
  | step s _ hkey _ =>
      obtain ⟨hloop, hne⟩ := mem_tdOf_keys.mp hkey
      exact (tdLoopOf_spec c i₀).2.2 s _ hloop hne

theorem dReach_keyed_iff {σ : Type} [DecidableEq σ] {c : Compiled σ} {i₀ : Nat}
    {S : Finset Nat} (h : DReach c i₀ S) (s : σ) :
    (s, S) ∈ (tdOf c i₀).map Prod.fst ↔ dfaSucc c s S ≠ ∅ := by
  constructor
  · intro hk
    exact (mem_tdOf_keys.mp hk).2
  · intro hne
    by_cases hs : s ∈ symsOf c
    · exact mem_tdOf_keys.mpr ⟨dReach_fullKeyed h s hs, hne⟩
    · exact absurd (symsOf_complete hs S) hne

theorem dReach_mem_sts {σ : Type} [DecidableEq σ] {c : Compiled σ} {i₀ : Nat}
    {S : Finset Nat} (h : DReach c i₀ S) : S ∈ stsOf c i₀ := by
  unfold stsOf dfaStates
  rw [List.mem_dedup]
  induction h with
  | start => exact List.mem_cons_self ..
  | step s hre hkey ih =>
      rename_i S'
      refine List.mem_cons_of_mem _ (List.mem_append.mpr (Or.inl ?_))
      rcases List.mem_map.mp hkey with ⟨e, he, hfst⟩
      have hval := (tdOf_val e he).1
      have h1 : e.1.1 = s := by rw [hfst]
      have h2 : e.1.2 = S' := by rw [hfst]
      refine List.mem_map.mpr ⟨e, he, ?_⟩
      rw [hval, h1, h2]

theorem stsOf_nodup {σ : Type} [DecidableEq σ] (c : Compiled σ) (i₀ : Nat) :
    (stsOf c i₀).Nodup :=
  List.nodup_dedup _

theorem start_mem_stsOf {σ : Type} [DecidableEq σ] (c : Compiled σ) (i₀ : Nat) :
    ({i₀} : Finset Nat) ∈ stsOf c i₀ := by
  unfold stsOf dfaStates
  rw [List.mem_dedup]
  exact List.mem_cons_self ..

theorem getNode_toDfa {σ : Type} [DecidableEq σ] {c : Compiled σ} {i₀ : Nat}
    {S : Finset Nat} (hS : S ∈ stsOf c i₀) :
    getNode (toDfaGraph c i₀).1 ((stsOf c i₀).indexOf S) =
      dfaNode c (tdOf c i₀) (stsOf c i₀) S := by
  have hnd : (((stsOf c i₀).map (fun S' =>
      ((stsOf c i₀).indexOf S', dfaNode c (tdOf c i₀) (stsOf c i₀) S'))).map
        Prod.fst).Nodup := by
    rw [List.map_map]
    refine List.Nodup.map_on ?_ (stsOf_nodup c i₀)
    intro x hx y hy hxy
    exact (List.indexOf_inj hx hy).mp hxy
  have hmem : (((stsOf c i₀).indexOf S),
      dfaNode c (tdOf c i₀) (stsOf c i₀) S) ∈
      (stsOf c i₀).map (fun S' =>
        ((stsOf c i₀).indexOf S', dfaNode c (tdOf c i₀) (stsOf c i₀) S')) :=
    List.mem_map.mpr ⟨S, hS, rfl⟩
  show getNode ((stsOf c i₀).map (fun S' =>
      ((stsOf c i₀).indexOf S', dfaNode c (tdOf c i₀) (stsOf c i₀) S')))
    ((stsOf c i₀).indexOf S) = _
  unfold getNode
  rw [lookupA_of_keysNodup hnd hmem]
  rfl

theorem stepEps_toDfa {σ : Type} [DecidableEq σ] (c : Compiled σ) (i₀ : Nat) :
    ∀ n, step (toDfaGraph c i₀).1 n Label.eps = [] := by
  intro n
  unfold step
  rcases hl : lookupA (toDfaGraph c i₀).1 n with _ | nd
  · unfold getNode
    rw [hl]
    simp [lookupA]
  · have hmem := lookupA_mem hl
    rw [toDfaGraph_eq] at hmem
    rcases List.mem_map.mp hmem with ⟨S', _, heq⟩
    have hnd : nd = dfaNode c (tdOf c i₀) (stsOf c i₀) S' := by
      have := congrArg Prod.snd heq
      exact this.symm
    have hent : lookupA (getNode (toDfaGraph c i₀).1 n).entries
        (Label.eps : Label σ) = none := by
      rw [lookupA_eq_none_iff]
      intro hc
      rcases List.mem_map.mp hc with ⟨en, hen, hfst⟩
      have : (getNode (toDfaGraph c i₀).1 n).entries =
          (dfaNode c (tdOf c i₀) (stsOf c i₀) S').entries := by
        unfold getNode
        rw [hl, hnd]
        rfl
      rw [this] at hen
      unfold dfaNode at hen
      rcases List.mem_filterMap.mp hen with ⟨e, _, hfe⟩
      by_cases he2 : e.1.2 = S'
      · rw [if_pos he2] at hfe
        rcases Option.some.injEq .. ▸ hfe with heq'
        have := congrArg Prod.fst heq'
        rw [← this] at hfst
        cases hfst
      · rw [if_neg he2] at hfe
        cases hfe
    rw [hent]

theorem lookup_dfaNodeEntries {σ : Type} [DecidableEq σ] (c : Compiled σ)
    (sts : List (Finset Nat)) (S : Finset Nat) (s : σ) :
    ∀ (td : TDfa σ), ((td.map Prod.fst).Nodup) →
      (∀ e ∈ td, e.2 = dfaSucc c e.1.1 e.1.2) →
      lookupA (td.filterMap (fun e =>
        if e.1.2 = S then some (Label.sym e.1.1, Val.one (sts.indexOf e.2))
        else none)) (Label.sym s) =
        if (s, S) ∈ td.map Prod.fst then
          some (Val.one (sts.indexOf (dfaSucc c s S)))
        else none := by
  intro td
  induction td with
  | nil =>
      intro _ _
      simp [lookupA]
  | cons e td ih =>
      intro hnd hval
      rw [List.map_cons] at hnd
      have hnd' := List.nodup_cons.mp hnd
      have ihv := ih hnd'.2 (fun e' he' => hval e' (List.mem_cons_of_mem _ he'))
      by_cases he2 : e.1.2 = S
      · rw [List.filterMap_cons, if_pos he2]
        by_cases he1 : e.1.1 = s
        · show (if Label.sym e.1.1 = Label.sym s then
              some (Val.one (sts.indexOf e.2)) else _) = _
          rw [if_pos (by rw [he1])]
          have hkey : e.1 = (s, S) := by
            rw [Prod.ext_iff]
            exact ⟨he1, he2⟩
          rw [if_pos (List.mem_map.mpr ⟨e, List.mem_cons_self .., hkey⟩)]
          have : e.2 = dfaSucc c s S := by
            rw [hval e (List.mem_cons_self ..), he1, he2]
          rw [this]
        · show (if Label.sym e.1.1 = Label.sym s then
              some (Val.one (sts.indexOf e.2)) else _) = _
          rw [if_neg (by intro hc; exact he1 (Label.sym.injEq .. ▸ hc))]
          rw [ihv]
          have hne : (s, S) ≠ e.1 := by
            intro hc
            exact he1 (by rw [← hc])
          rw [List.map_cons]
          by_cases hmem : (s, S) ∈ td.map Prod.fst
          · rw [if_pos hmem, if_pos (List.mem_cons_of_mem _ hmem)]
          · rw [if_neg hmem, if_neg ?_]
            intro hc
            rcases List.mem_cons.mp hc with hc | hc
            · exact hne hc
            · exact hmem hc
      · rw [List.filterMap_cons, if_neg he2]
        rw [ihv]
        have hne : (s, S) ≠ e.1 := by
          intro hc
          exact he2 (by rw [← hc])
        rw [List.map_cons]
        by_cases hmem : (s, S) ∈ td.map Prod.fst
        · rw [if_pos hmem, if_pos (List.mem_cons_of_mem _ hmem)]
        · rw [if_neg hmem, if_neg ?_]
          intro hc
          rcases List.mem_cons.mp hc with hc | hc
          · exact hne hc
          · exact hmem hc

theorem accepting_toDfa {σ : Type} [DecidableEq σ] {c : Compiled σ} {i₀ : Nat}
    {S : Finset Nat} (hS : S ∈ stsOf c i₀) :
    accepting (toDfaGraph c i₀).1 ((stsOf c i₀).indexOf S) =
      decide (∃ u ∈ S, u ∈ c.accepts) := by
  unfold accepting
  rw [getNode_toDfa hS]
  rfl

theorem stepSym_toDfa {σ : Type} [DecidableEq σ] {c : Compiled σ} {i₀ : Nat}
    {S : Finset Nat} (s : σ) (hS : S ∈ stsOf c i₀) :
    step (toDfaGraph c i₀).1 ((stsOf c i₀).indexOf S) (Label.sym s) =
      if (s, S) ∈ (tdOf c i₀).map Prod.fst then
        [(stsOf c i₀).indexOf (dfaSucc c s S)]
      else [] := by
  unfold step
  rw [getNode_toDfa hS]
  have hlk := lookup_dfaNodeEntries c (stsOf c i₀) S s (tdOf c i₀)
    (tdOf_keysNodup c i₀) (fun e he => (tdOf_val e he).1)
  show (match lookupA ((tdOf c i₀).filterMap (fun e =>
      if e.1.2 = S then
        some (Label.sym e.1.1, Val.one ((stsOf c i₀).indexOf e.2))
      else none)) (Label.sym s) with
    | some v => valIds v
    | none => []) = _
  rw [hlk]
  by_cases hmem : (s, S) ∈ (tdOf c i₀).map Prod.fst
  · rw [if_pos hmem, if_pos hmem]
    rfl
  · rw [if_neg hmem, if_neg hmem]

theorem epsReach_toDfa {σ : Type} [DecidableEq σ] {c : Compiled σ} {i₀ : Nat}
    {n j : Nat} : EpsReach (toDfaGraph c i₀).1 n j ↔ j = n := by
  constructor
  · intro h
    induction h with
    | refl => rfl
    | tail _ hk ih =>
        unfold epsSucc at hk
        rw [stepEps_toDfa c i₀] at hk
        cases hk
  · rintro rfl
    exact EpsReach.refl

theorem exists_eClosure_toDfa {σ : Type} [DecidableEq σ] {c : Compiled σ}
    {i₀ n : Nat} (P : Nat → Prop) :
    (∃ j ∈ eClosure (toDfaGraph c i₀).1 n, P j) ↔ P n := by
  constructor
  · rintro ⟨j, hj, hP⟩
    rw [mem_eClosure_iff] at hj
    rw [epsReach_toDfa.mp hj] at hP
    exact hP
  · intro h
    exact ⟨n, mem_eClosure_iff.mpr EpsReach.refl, h⟩

theorem tblAccepts_empty {σ : Type} [DecidableEq σ] (c : Compiled σ) :
    ∀ w : List σ, ¬ tblAccepts c ∅ w := by
  intro w
  induction w with
  | nil =>
      rintro ⟨u, hu, _⟩
      cases hu
  | cons s w ih =>
      intro h
      have hT : dfaSucc c s ∅ = ∅ := by
        unfold dfaSucc
        exact Finset.biUnion_empty
      have h' : tblAccepts c (dfaSucc c s ∅) w := h
      rw [hT] at h'
      exact ih h'

theorem tblAccepts_compile_iff {σ : Type} [DecidableEq σ] (g : Graph σ)
    (i₀ : Nat) :
    ∀ (w : List σ) (S : Finset Nat), (∀ u ∈ S, Visited g i₀ u) →
      (tblAccepts (compileNfa g i₀) S w ↔ ∃ u ∈ S, Accepts g u w) := by
  intro w
  induction w with
  | nil =>
      intro S hvis
      show (∃ u ∈ S, u ∈ (compileNfa g i₀).accepts) ↔ _
      constructor
      · rintro ⟨u, hu, hacc⟩
        have h := (compileNfa_accepts g i₀ u).mp hacc
        exact ⟨u, hu, accepts_nil_iff.mpr h.2⟩
      · rintro ⟨u, hu, hacc⟩
        have h2 := accepts_nil_iff.mp hacc
        exact ⟨u, hu, (compileNfa_accepts g i₀ u).mpr ⟨hvis u hu, h2⟩⟩
  | cons s w ih =>
      intro S hvis
      show tblAccepts (compileNfa g i₀) (dfaSucc (compileNfa g i₀) s S) w ↔ _
      have hvis' : ∀ u ∈ dfaSucc (compileNfa g i₀) s S, Visited g i₀ u := by
        intro u hu
        rcases mem_dfaSucc.mp hu with ⟨v, hv, hmem⟩
        have hmt := mem_lookupTrans.mp hmem
        have h := (compileNfa_trans g i₀ v u s).mp hmt
        exact visited_step h.1 h.2
      rw [ih _ hvis']
      constructor
      · rintro ⟨k, hk, hacc⟩
        rcases mem_dfaSucc.mp hk with ⟨u, hu, hmem⟩
        have hmt := mem_lookupTrans.mp hmem
        have h2 := (compileNfa_trans g i₀ u k s).mp hmt
        obtain ⟨j, hj, hstep⟩ := h2.2
        exact ⟨u, hu, accepts_cons_iff.mpr ⟨j, hj, k, hstep, hacc⟩⟩
      · rintro ⟨u, hu, hacc⟩
        rcases accepts_cons_iff.mp hacc with ⟨j, hj, k, hk, hacc'⟩
        refine ⟨k, ?_, hacc'⟩
        refine mem_dfaSucc.mpr ⟨u, hu, ?_⟩
        refine mem_lookupTrans.mpr ?_
        exact (compileNfa_trans g i₀ u k s).mpr ⟨hvis u hu, ⟨j, hj, hk⟩⟩

theorem accepts_toDfa_iff {σ : Type} [DecidableEq σ] (c : Compiled σ)
    (i₀ : Nat) :
    ∀ (w : List σ) (S : Finset Nat), DReach c i₀ S →
      (Accepts (toDfaGraph c i₀).1 ((stsOf c i₀).indexOf S) w ↔
        tblAccepts c S w) := by
  intro w
  induction w with
  | nil =>
      intro S hre
      rw [accepts_nil_iff]
      rw [exists_eClosure_toDfa (fun j =>
        accepting (toDfaGraph c i₀).1 j = true)]
      rw [accepting_toDfa (dReach_mem_sts hre)]
      show decide (∃ u ∈ S, u ∈ c.accepts) = true ↔
        (∃ u ∈ S, u ∈ c.accepts)
      exact decide_eq_true_iff
  | cons s w ih =>
      intro S hre
      rw [accepts_cons_iff]
      rw [exists_eClosure_toDfa (fun j =>
        ∃ k ∈ step (toDfaGraph c i₀).1 j (Label.sym s),
          Accepts (toDfaGraph c i₀).1 k w)]
      rw [stepSym_toDfa s (dReach_mem_sts hre)]
      show _ ↔ tblAccepts c (dfaSucc c s S) w
      by_cases hk : (s, S) ∈ (tdOf c i₀).map Prod.fst
      · rw [if_pos hk]
        have hreT : DReach c i₀ (dfaSucc c s S) := DReach.step s hre hk
        constructor
        · rintro ⟨k, hkmem, hacc⟩
          rcases List.mem_singleton.mp hkmem with rfl
          exact (ih _ hreT).mp hacc
        · intro h
          exact ⟨_, List.mem_singleton.mpr rfl, (ih _ hreT).mpr h⟩
      · rw [if_neg hk]
        have hT : dfaSucc c s S = ∅ := by
          by_contra hne
          exact hk ((dReach_keyed_iff hre s).mpr hne)
        rw [hT]
        constructor
        · rintro ⟨k, hkmem, _⟩
          cases hkmem
        · intro h
          exact absurd h (tblAccepts_empty c w)

theorem accepts_toDfa_language {σ : Type} [DecidableEq σ] (g : Graph σ)
    (i₀ : Nat) (w : List σ) :
    Accepts (toDfaNfa g i₀).1 (toDfaNfa g i₀).2 w ↔ Accepts g i₀ w := by
  have h1 := accepts_toDfa_iff (compileNfa g i₀) i₀ w {i₀} DReach.start
  have hG : toDfaNfa g i₀ = toDfaGraph (compileNfa g i₀) i₀ := rfl
  rewrite [hG]
  have hstart : (toDfaGraph (compileNfa g i₀) i₀).2 =
      (stsOf (compileNfa g i₀) i₀).indexOf {i₀} := rfl
  rewrite [hstart]
  have hvis : ∀ u ∈ ({i₀} : Finset Nat), Visited g i₀ u := by
    intro u hu
    rcases Finset.mem_singleton.mp hu with rfl
    exact visited_refl g u
  have h2 := tblAccepts_compile_iff g i₀ w {i₀} hvis
  rewrite [h1, h2]
  constructor
  · rintro ⟨u, hu, hacc⟩
    rcases Finset.mem_singleton.mp hu with rfl
    exact hacc
  · intro h
    exact ⟨i₀, Finset.mem_singleton.mpr rfl, h⟩

/-- C2: for every graph, every input of non-epsilon symbols, and both values
of `full`, matching against the automaton returned by `to_dfa()` (built on
the compiled table of the start state) yields exactly the same result —
same longest-match length, or rejection in both — as matching against the
original start state. -/
theorem claim_C2_dfa_equivalence {σ : Type} [DecidableEq σ] (g : Graph σ)
    (i₀ : Nat) (x : List σ) (full : Bool) :
    matchLazy (toDfaNfa g i₀).1 full x 0 (toDfaNfa g i₀).2 =
      matchLazy g full x 0 i₀ := by
  apply option_eq_of_some_iff
  intro m
  cases full with
  | true =>
      rewrite [matchLazy_full_iff (toDfaNfa g i₀).1 x 0 (toDfaNfa g i₀).2 m,
        matchLazy_full_iff g x 0 i₀ m]
      constructor
      · rintro ⟨rfl, hacc⟩
        exact ⟨rfl, (accepts_toDfa_language g i₀ x).mp hacc⟩
      · rintro ⟨rfl, hacc⟩
        exact ⟨rfl, (accepts_toDfa_language g i₀ x).mpr hacc⟩
  | false =>
      rewrite [(matchLazy_pref_iff (toDfaNfa g i₀).1 x 0 (toDfaNfa g i₀).2).1 m,
        (matchLazy_pref_iff g x 0 i₀).1 m]
      constructor
      · rintro ⟨p, hp, hacc, rfl, hmax⟩
        exact ⟨p, hp, (accepts_toDfa_language g i₀ _).mp hacc, rfl,
          fun q hq hacc' => hmax q hq ((accepts_toDfa_language g i₀ _).mpr hacc')⟩
      · rintro ⟨p, hp, hacc, rfl, hmax⟩
        exact ⟨p, hp, (accepts_toDfa_language g i₀ _).mpr hacc, rfl,
          fun q hq hacc' => hmax q hq ((accepts_toDfa_language g i₀ _).mp hacc')⟩
